import Mathlib

/-!
Verification of the type-canonicalisation engine of `true-pg`
(`src/extractor/canonicalise/*` and `src/extractor/adapter.ts`).

The development shallowly embeds:

* `parseRawType` (canonicalise/parse.ts) — the pure type-text parser;
* `resolveBasicInfo` (canonicalise/resolve.ts) — modelled as a lookup into a
  finite catalog of plain-name → basic-info rows (the recursive SQL query's
  visible behaviour: one row per input name, in input order; a name that does
  not cast to `regtype` makes the whole query fail, naming that text);
* `getEnumDetails` / `getCompositeDetails` / `getDomainDetails` /
  `getRangeDetails` (canonicalise/{enum,composite,domain,range}.ts) — each
  issues one catalog query per non-empty batch; the SQL result sets are
  modelled from the queries: a `JOIN`/`GROUP BY` drops inputs with no matching
  rows, `ORDER BY seq` keeps input order, and the recursive domain CTE is
  embedded as an explicit chase along `typbasetype` over a `pg_type`-like
  table;
* `canonicaliseQueue` (canonicalise/index.ts) — the breadth-first scheduler
  with its `resolveCache` / `canonCache` maps and internal follow-up queue;
* `DbAdapter.enqueue` / `DbAdapter.resolve` (adapter.ts) — placeholder
  allocation and session-level resolution.

JS objects mutated in place (`member.out`) are represented by indices into an
explicit placeholder heap (`List (Option FilledCanonical)`): `enqueue`
allocates a fresh empty slot, `Object.assign(m.out, result)` writes the slot.
JS `Map`s are association lists; `Map.set` on a key known to be absent is an
append.  The per-depth recursion of `canonicaliseQueue` takes explicit fuel;
running out of fuel (`none`) is the model's marker for a non-terminating
recursion, and the divergence of the recursive domain CTE on a cyclic
`typbasetype` chain is surfaced as the distinguished error `chainTooDeep`.
The `detailLog` field is instrumentation: it records, in order, every
canonical name that was put in a kind-detail batch during a session, so that
"each canonical name's detail is resolved at most once" is expressible.
-/

namespace TruePg

instance exceptDecEq {ε α : Type} [DecidableEq ε] [DecidableEq α] :
    DecidableEq (Except ε α) := fun a b =>
  match a, b with
  | .error e₁, .error e₂ =>
    if h : e₁ = e₂ then .isTrue (congrArg _ h)
    else .isFalse (fun hc => h (Except.error.inj hc))
  | .ok v₁, .ok v₂ =>
    if h : v₁ = v₂ then .isTrue (congrArg _ h)
    else .isFalse (fun hc => h (Except.ok.inj hc))
  | .error _, .ok _ => .isFalse Except.noConfusion
  | .ok _, .error _ => .isFalse Except.noConfusion

/-! ## Association-list lookup (JS `Map.get`) -/

def lookupAssoc {α : Type} : List (String × α) → String → Option α
  | [], _ => none
  | (k₁, v) :: rest, k => if k₁ = k then some v else lookupAssoc rest k

/-- JS `[...new Set(xs)]`: deduplicate keeping first occurrences. -/
def firstDedupAux (seen : List String) : List String → List String
  | [] => []
  | x :: xs => if x ∈ seen then firstDedupAux seen xs else x :: firstDedupAux (x :: seen) xs

def firstDedup (xs : List String) : List String := firstDedupAux [] xs

/-! ## The type-text parser (canonicalise/parse.ts) -/

/-- Result of `parseRawType` (interface `ParsedType`). -/
structure ParsedType where
  plain : String
  modifiers : Option String
  dimensions : Nat
  original : String
deriving DecidableEq, Repr

/-- JS `String.prototype.trim` on a character list. -/
def jsTrim (s : List Char) : List Char :=
  ((s.dropWhile Char.isWhitespace).reverse.dropWhile Char.isWhitespace).reverse

/-- The match of the anchored regex `\(([^)]*)\)$` (leftmost match):
returns `(text before the matched "(", content between the parentheses)`.
A match exists iff the string ends in `)` and a `(` occurs after the last
`)` of the remaining body; the content is everything after the first such
`(`. -/
def splitLastParen (s : List Char) : Option (List Char × List Char) :=
  match s.getLast? with
  | some ')' =>
    let body := s.dropLast
    let suffix := (body.reverse.takeWhile (fun c => c ≠ ')')).reverse
    let pre := body.take (body.length - suffix.length)
    match suffix.findIdx? (fun c => c = '(') with
    | some i => some (pre ++ suffix.take i, suffix.drop (i + 1))
    | none => none
  | _ => none

/-- Strip trailing `[]` pairs from a REVERSED character list, counting them
(the `while (base.endsWith("[]"))` loop). -/
def stripBrackets : List Char → List Char × Nat
  | ']' :: '[' :: rest =>
    let r := stripBrackets rest
    (r.1, r.2 + 1)
  | r => (r, 0)

/-- `parseRawType` from canonicalise/parse.ts: extract the content of a final
`(...)` group as `modifiers` (trimming the remaining base), then repeatedly
strip trailing `[]` pairs, counting `dimensions`. -/
def parseRawType (type : String) : ParsedType :=
  let cs := type.data
  let step1 : List Char × Option String :=
    match splitLastParen cs with
    | some (before, content) => (jsTrim before, some (String.mk content))
    | none => (cs, none)
  let step2 := stripBrackets step1.1.reverse
  { plain := String.mk step2.1.reverse
    modifiers := step1.2
    dimensions := step2.2
    original := type }

/-! ## Data model (canonicalise/types.ts, canonicalise/resolve.ts) -/

/-- `Canonical.Kind`. -/
inductive Kind where
  | base
  | composite
  | domain
  | enum
  | range
  | pseudo
  | unknown
deriving DecidableEq, Repr

/-- `ResolvedBasicInfo` (canonicalise/resolve.ts), minus the echoed
`original_name` column. -/
structure BasicInfo where
  oid : Nat
  internal_dimensions : Nat
  schema : String
  name : String
  canonical_name : String
  kind : Kind
  typrelid : Nat
  typbasetype : Nat
  rngsubtype : Nat
deriving DecidableEq, Repr

/-- `generated` classification of a composite attribute. -/
inductive Generated where
  | always
  | never
  | byDefault
deriving DecidableEq, Repr

/-- `RawAttributeInfo` (canonicalise/composite.ts) as delivered by the
attribute query (already restricted to `attnum > 0 AND NOT attisdropped`). -/
structure RawAttribute where
  name : String
  index : Nat
  type_name : String
  comment : Option String
  defaultValue : Option String
  isNullable : Bool
  isIdentity : Bool
  generated : Generated
deriving DecidableEq, Repr

/-- `Canonical.CompositeAttribute`: the attribute with its type replaced by
the placeholder returned by `enqueue` (a heap index in this model).
`removeNulls` only deletes JS object keys holding `null`; with `Option`
fields it is the identity and is not modelled separately. -/
structure CompAttr where
  name : String
  index : Nat
  type : Nat
  comment : Option String
  defaultValue : Option String
  isNullable : Bool
  isIdentity : Bool
  generated : Generated
deriving DecidableEq, Repr

/-- Kind-specific payload of an `ExclusiveCanonProps` value. -/
inductive ExclPayload where
  | base
  | pseudo
  | enumP (enum_values : List String)
  | compositeP (attributes : List CompAttr)
  | domainP (domain_base_type : Nat)
  | rangeP (range_subtype : Nat)
deriving DecidableEq, Repr

/-- `ExclusiveCanonProps`: the kind-detail cache entry (`kind`,
`canonical_name`, and the kind-specific fields). -/
structure Excl where
  kind : Kind
  canonical_name : String
  payload : ExclPayload
deriving DecidableEq, Repr

/-- A fully resolved `Canonical` as assembled by `{ ...common, ...exclusive }`
in canonicalise/index.ts (`kind` and `canonical_name` come from the
exclusive part, which spreads second). -/
structure FilledCanonical where
  kind : Kind
  oid : Nat
  typrelid : Nat
  typbasetype : Nat
  rngsubtype : Nat
  canonical_name : String
  schema : String
  name : String
  original_type : String
  modifiers : Option String
  dimensions : Nat
  excl : ExclPayload
deriving DecidableEq, Repr

/-- `QueueMember`: the request text together with the placeholder it must
fill (`out` is a heap index). -/
structure QueueMember where
  type : String
  out : Nat
deriving DecidableEq, Repr

/-- A `pg_type`-like row used by the domain CTE and the range name query:
`oid`, whether `typtype = 'd'`, `typbasetype`, and the formatted
`%I.%I` qualified name. -/
structure TypeRow where
  oid : Nat
  isDomain : Bool
  typbasetype : Nat
  qname : String
deriving DecidableEq, Repr

/-- The catalog visible to the engine: the basic-info resolution table
(one row per resolvable plain name), `pg_enum` aggregated per enum oid,
`pg_attribute` aggregated per composite relation id, and the `pg_type`
rows used by the domain chain walk and the range name lookup. -/
structure Catalog where
  basic : List (String × BasicInfo)
  enums : List (Nat × List String)
  attrs : List (Nat × List RawAttribute)
  typeRows : List TypeRow
deriving DecidableEq, Repr

def findTypeRow (rows : List TypeRow) (oid : Nat) : Option TypeRow :=
  rows.find? (fun r => r.oid = oid)

def lookupNat {α : Type} : List (Nat × α) → Nat → Option α
  | [], _ => none
  | (k₁, v) :: rest, k => if k₁ = k then some v else lookupNat rest k

/-! ## Engine state -/

/-- Errors raised by the engine (the `throw new Error(...)` sites; each
constructor carries the data interpolated into the message).
`chainTooDeep` is the model's marker for a domain `typbasetype` chain longer
than the type table itself, on which the recursive CTE would not return. -/
inductive EngineError where
  | unresolvedBasic (text : String)
  | unknownKind (canonical_names : List String)
  | missingBasic (text : String)
  | unknownAtFill (schema : String) (canonical_name : String)
  | missingDetail (canonical_name : String)
  | domainMismatch
  | rangeMismatch
  | chainTooDeep
deriving DecidableEq, Repr

/-- Mutable state threaded through a resolution session: the placeholder
heap, the adapter's query counter, the two caches of `canonicaliseQueue`,
the per-depth internal follow-up queue, and the instrumentation log of
canonical names sent to kind-detail resolution. -/
structure EngineState where
  heap : List (Option FilledCanonical)
  queryCount : Nat
  resolveCache : List (String × BasicInfo)
  canonCache : List (String × Excl)
  internalQ : List QueueMember
  detailLog : List String
deriving DecidableEq, Repr

def EngineState.empty : EngineState :=
  { heap := [], queryCount := 0, resolveCache := [], canonCache := [],
    internalQ := [], detailLog := [] }

/-- The `q` callback of canonicalise/index.ts: allocate a fresh empty
placeholder, push a member onto the internal queue, return the placeholder. -/
def qAlloc (st : EngineState) (type : String) : EngineState × Nat :=
  ({ st with
      heap := st.heap ++ [none]
      internalQ := st.internalQ ++ [{ type := type, out := st.heap.length }] },
    st.heap.length)

def bumpQuery (st : EngineState) : EngineState :=
  { st with queryCount := st.queryCount + 1 }

/-! ## Basic-info resolution (canonicalise/resolve.ts) -/

/-- First input name the catalog cannot resolve, if any (the `::regtype`
cast failing makes the whole query raise, naming that text). -/
def firstMissing (cat : Catalog) : List String → Option String
  | [] => none
  | p :: rest => if (lookupAssoc cat.basic p).isSome then firstMissing cat rest else some p

/-- `resolveBasicInfo`: no query for an empty batch; otherwise one query
returning, in input order, one row per input name; an unresolvable name
fails the whole query. -/
def resolveBasicInfo (cat : Catalog) (st : EngineState) (types : List String) :
    EngineState × Except EngineError (List BasicInfo) :=
  if types.isEmpty then (st, .ok [])
  else
    let st := bumpQuery st
    match firstMissing cat types with
    | some p => (st, .error (.unresolvedBasic p))
    | none => (st, .ok (types.filterMap (lookupAssoc cat.basic)))

/-! ## Kind-detail resolvers -/

/-- `getEnumDetails` (canonicalise/enum.ts): one query per non-empty batch.
The SQL `JOIN pg_enum ... GROUP BY` yields a row only for inputs that have at
least one label, in input order; the code then pairs `results[i]` with
`entries[i]` positionally, with no length or zero-label check. -/
def getEnumDetails (cat : Catalog) (st : EngineState) (entries : List BasicInfo) :
    EngineState × List Excl :=
  if entries.isEmpty then (st, [])
  else
    let st := bumpQuery st
    let results := entries.filterMap (fun e =>
      match lookupNat cat.enums e.oid with
      | some labels => if labels.isEmpty then none else some labels
      | none => none)
    (st, List.zipWith
      (fun labels e => { kind := Kind.enum, canonical_name := e.canonical_name,
                         payload := ExclPayload.enumP labels })
      results entries)

/-- Build the composite attributes of one result group, allocating one
placeholder per attribute via `enqueue`. -/
def allocAttrs (st : EngineState) : List RawAttribute → EngineState × List CompAttr
  | [] => (st, [])
  | a :: rest =>
    let r₁ := qAlloc st a.type_name
    let r₂ := allocAttrs r₁.1 rest
    (r₂.1,
      { name := a.name, index := a.index, type := r₁.2, comment := a.comment,
        defaultValue := a.defaultValue, isNullable := a.isNullable,
        isIdentity := a.isIdentity, generated := a.generated } :: r₂.2)

def allocComposites (st : EngineState) :
    List (List RawAttribute × BasicInfo) → EngineState × List Excl
  | [] => (st, [])
  | (attrs, e) :: rest =>
    let r₁ := allocAttrs st attrs
    let r₂ := allocComposites r₁.1 rest
    (r₂.1,
      { kind := Kind.composite, canonical_name := e.canonical_name,
        payload := ExclPayload.compositeP r₁.2 } :: r₂.2)

/-- `getCompositeDetails` (canonicalise/composite.ts): one query per
non-empty batch.  The SQL `JOIN pg_attribute ... GROUP BY` yields a group
only for relation ids having at least one live attribute, in input order;
the code pairs `results[index]` with `entries[index]` positionally and has
no length-mismatch check. -/
def getCompositeDetails (cat : Catalog) (st : EngineState) (entries : List BasicInfo) :
    EngineState × List Excl :=
  if entries.isEmpty then (st, [])
  else
    let st := bumpQuery st
    let groups := entries.filterMap (fun e =>
      match lookupNat cat.attrs e.typrelid with
      | some attrs => if attrs.isEmpty then none else some attrs
      | none => none)
    allocComposites st (List.zip groups entries)

/-- The recursive step of the domain CTE: follow `typbasetype` while the
current target is a domain row; stop at the first non-domain target (or at a
missing row, whose oid is then reported as the base).  `none` means the fuel
ran out, i.e. the chain is longer than the supplied bound. -/
def chaseDomain (rows : List TypeRow) : Nat → Nat → Option Nat
  | 0, _ => none
  | fuel + 1, cur =>
    match findTypeRow rows cur with
    | none => some cur
    | some t => if t.isDomain then chaseDomain rows fuel t.typbasetype else some cur

/-- `final_base` of the domain CTE for one input oid: a non-domain (or
missing) input falls back to itself via the `COALESCE`; a domain input is
chased along its parent chain. -/
def finalBaseOid (rows : List TypeRow) (oid : Nat) : Option Nat :=
  match findTypeRow rows oid with
  | none => some oid
  | some t => if t.isDomain then chaseDomain rows (rows.length + 1) t.typbasetype else some oid

/-- Rows of the domain detail query, per input oid and in input order: the
final base oid's formatted name; a final oid with no `pg_type` row produces
no result row (the final `JOIN` drops it). -/
def domainQueryRows (rows : List TypeRow) : List Nat → Except EngineError (List String)
  | [] => .ok []
  | oid :: rest =>
    match finalBaseOid rows oid with
    | none => .error .chainTooDeep
    | some fo =>
      match domainQueryRows rows rest with
      | .error e => .error e
      | .ok tail =>
        match findTypeRow rows fo with
        | none => .ok tail
        | some t => .ok (t.qname :: tail)

def allocSimple (k : Kind) (mk : Nat → ExclPayload) (st : EngineState) :
    List (String × BasicInfo) → EngineState × List Excl
  | [] => (st, [])
  | (name, e) :: rest =>
    let r₁ := qAlloc st name
    let r₂ := allocSimple k mk r₁.1 rest
    (r₂.1,
      { kind := k, canonical_name := e.canonical_name, payload := mk r₁.2 } :: r₂.2)

/-- `getDomainDetails` (canonicalise/domain.ts): one recursive-CTE query per
non-empty batch, a length-mismatch check (its message carries no names),
then one `enqueue` of the resolved ultimate base name per entry. -/
def getDomainDetails (cat : Catalog) (st : EngineState) (entries : List BasicInfo) :
    EngineState × Except EngineError (List Excl) :=
  if entries.isEmpty then (st, .ok [])
  else
    let st := bumpQuery st
    match domainQueryRows cat.typeRows (entries.map (fun e => e.oid)) with
    | .error e => (st, .error e)
    | .ok results =>
      if results.length ≠ entries.length then (st, .error .domainMismatch)
      else
        let r := allocSimple Kind.domain ExclPayload.domainP st (List.zip results entries)
        (r.1, .ok r.2)

/-- `getRangeDetails` (canonicalise/range.ts): one query formatting the name
of each entry's own `oid` (the source passes `entries.map(i => i.oid)`, the
resolved type's oid, not `rngsubtype`), a length-mismatch check, then one
`enqueue` per row. -/
def getRangeDetails (cat : Catalog) (st : EngineState) (entries : List BasicInfo) :
    EngineState × Except EngineError (List Excl) :=
  if entries.isEmpty then (st, .ok [])
  else
    let st := bumpQuery st
    let results := entries.filterMap (fun e =>
      (findTypeRow cat.typeRows e.oid).map (fun t => t.qname))
    if results.length ≠ entries.length then (st, .error .rangeMismatch)
    else
      let r := allocSimple Kind.range ExclPayload.rangeP st (List.zip results entries)
      (r.1, .ok r.2)

/-! ## The scheduler (canonicalise/index.ts) -/

/-- The plain names that must be freshly resolved this depth: parsed plains
not in `resolveCache`, deduplicated keeping first occurrences. -/
def newPlains (st : EngineState) (parsed : List ParsedType) : List String :=
  firstDedup ((parsed.filter
    (fun p => (lookupAssoc st.resolveCache p.plain).isNone)).map (fun p => p.plain))

/-- Phase 1: resolve the new plain names, populate `resolveCache`, then
abort on any `unknown`-kind row (lines 35–49 of canonicalise/index.ts; the
cache is populated before the unknown check, as in the source). -/
def phaseResolve (cat : Catalog) (st : EngineState) (parsed : List ParsedType) :
    EngineState × Except EngineError (List BasicInfo) :=
  let plain := newPlains st parsed
  match resolveBasicInfo cat st plain with
  | (st, .error e) => (st, .error e)
  | (st, .ok resolved) =>
    let st := { st with resolveCache := st.resolveCache ++ List.zip plain resolved }
    let unknowns := resolved.filter (fun r => r.kind = Kind.unknown)
    if unknowns.isEmpty then (st, .ok resolved)
    else (st, .error (.unknownKind (unknowns.map (fun r => r.canonical_name))))

/-- Accumulator of the batch-splitting loop (lines 51–88): the `seen` set,
the four kind batches, and the base/pseudo entries written straight into
`canonCache`. -/
structure BatchAcc where
  seen : List String
  enums : List BasicInfo
  composites : List BasicInfo
  domains : List BasicInfo
  ranges : List BasicInfo
  cacheAdds : List (String × Excl)
deriving DecidableEq, Repr

def BatchAcc.empty : BatchAcc :=
  { seen := [], enums := [], composites := [], domains := [], ranges := [], cacheAdds := [] }

/-- One iteration of the batch loop.  The source consults the live
`canonCache` (which gains only base/pseudo entries during the loop); since
every such entry's name is also in `seen`, testing the loop-entry cache plus
`seen` accepts exactly the same rows. -/
def batchStep (canonCache : List (String × Excl)) (acc : BatchAcc) (r : BasicInfo) : BatchAcc :=
  if (lookupAssoc canonCache r.canonical_name).isSome then acc
  else if r.canonical_name ∈ acc.seen then acc
  else
    { seen := acc.seen ++ [r.canonical_name]
      enums := if r.kind = Kind.enum then acc.enums ++ [r] else acc.enums
      composites := if r.kind = Kind.composite then acc.composites ++ [r] else acc.composites
      domains := if r.kind = Kind.domain then acc.domains ++ [r] else acc.domains
      ranges := if r.kind = Kind.range then acc.ranges ++ [r] else acc.ranges
      cacheAdds :=
        if r.kind = Kind.base ∨ r.kind = Kind.pseudo then
          acc.cacheAdds ++ [(r.canonical_name,
            { kind := r.kind, canonical_name := r.canonical_name,
              payload := if r.kind = Kind.base then ExclPayload.base else ExclPayload.pseudo })]
        else acc.cacheAdds }

/-- All canonical names placed in a kind-detail batch, in batch order. -/
def batchNames (acc : BatchAcc) : List String :=
  acc.enums.map (fun r => r.canonical_name) ++ acc.composites.map (fun r => r.canonical_name)
    ++ acc.domains.map (fun r => r.canonical_name) ++ acc.ranges.map (fun r => r.canonical_name)

/-- Phase 2: split the resolved rows into kind batches, skipping
already-cached and already-seen canonical names, caching base/pseudo rows
immediately, and logging every batched name. -/
def phaseBatch (st : EngineState) (resolved : List BasicInfo) : EngineState × BatchAcc :=
  let acc := resolved.foldl (batchStep st.canonCache) BatchAcc.empty
  ({ st with
      canonCache := st.canonCache ++ acc.cacheAdds
      detailLog := st.detailLog ++ batchNames acc }, acc)

/-- Phase 3: run the four kind-detail resolvers (lines 90–103), then write
their results into `canonCache` in enum/composite/domain/range order. -/
def phaseDetails (cat : Catalog) (st : EngineState) (b : BatchAcc) :
    EngineState × Except EngineError Unit :=
  let r₁ := getEnumDetails cat st b.enums
  let r₂ := getCompositeDetails cat r₁.1 b.composites
  match getDomainDetails cat r₂.1 b.domains with
  | (st, .error e) => (st, .error e)
  | (st, .ok domRes) =>
    match getRangeDetails cat st b.ranges with
    | (st, .error e) => (st, .error e)
    | (st, .ok rangeRes) =>
      ({ st with canonCache := st.canonCache ++
          (r₁.2 ++ r₂.2 ++ domRes ++ rangeRes).map (fun e => (e.canonical_name, e)) },
        .ok ())

/-- `{ ...common, ...exclusive }` of lines 112–138: the common part built
from the cached basic info and this request's parse, with `kind` and
`canonical_name` overridden by the exclusive (cached) part. -/
def mergeResult (info : BasicInfo) (p : ParsedType) (excl : Excl) : FilledCanonical :=
  { kind := excl.kind
    oid := info.oid
    typrelid := info.typrelid
    typbasetype := info.typbasetype
    rngsubtype := info.rngsubtype
    canonical_name := excl.canonical_name
    schema := info.schema
    name := info.name
    original_type := p.original
    modifiers := p.modifiers
    dimensions := p.dimensions + info.internal_dimensions
    excl := excl.payload }

/-- Phase 4 (lines 105–144): patch every queued placeholder with its merged
result.  Each placeholder is written atomically (`Object.assign` with a
complete record), so a slot is always either empty or fully filled. -/
def patchQueue (st : EngineState) : List (QueueMember × ParsedType) →
    EngineState × Except EngineError Unit
  | [] => (st, .ok ())
  | (m, p) :: rest =>
    match lookupAssoc st.resolveCache p.plain with
    | none => (st, .error (.missingBasic p.plain))
    | some info =>
      if info.kind = Kind.unknown then
        (st, .error (.unknownAtFill info.schema info.canonical_name))
      else
        match lookupAssoc st.canonCache info.canonical_name with
        | none => (st, .error (.missingDetail info.canonical_name))
        | some excl =>
          patchQueue
            { st with heap := st.heap.set m.out (some (mergeResult info p excl)) } rest

/-- One depth of `canonicaliseQueue` (lines 35–144): parse, resolve basic
info, split into batches, resolve details, patch the placeholders.  The
follow-up requests discovered by the detail resolvers are left in
`internalQ`. -/
def canonicaliseStep (cat : Catalog) (st : EngineState) (queue : List QueueMember) :
    EngineState × Except EngineError Unit :=
  let st := { st with internalQ := [] }
  let parsed := queue.map (fun q => parseRawType q.type)
  match phaseResolve cat st parsed with
  | (st, .error e) => (st, .error e)
  | (st, .ok resolved) =>
    let r := phaseBatch st resolved
    match phaseDetails cat r.1 r.2 with
    | (st, .error e) => (st, .error e)
    | (st, .ok ()) => patchQueue st (List.zip queue parsed)

/-- `canonicaliseQueue`: an empty queue returns at once (line 32); otherwise
run one depth and recurse on the internal queue while it is non-empty
(lines 146–148).  `fuel` bounds the recursion depth; `none` marks the model's
fuel running out. -/
def canonicaliseQueue (cat : Catalog) :
    Nat → EngineState → List QueueMember → Option (EngineState × Except EngineError Unit)
  | 0, _, _ => none
  | fuel + 1, st, queue =>
    if queue.isEmpty then some (st, .ok ())
    else
      match canonicaliseStep cat st queue with
      | (st, .error e) => some (st, .error e)
      | (st, .ok ()) =>
        if st.internalQ.isEmpty then some (st, .ok ())
        else canonicaliseQueue cat fuel st st.internalQ

/-! ## The adapter (adapter.ts) -/

/-- `DbAdapter`: engine state plus the `#resolveQueue` of pending members. -/
structure DbAdapter where
  st : EngineState
  pending : List QueueMember
deriving DecidableEq, Repr

def DbAdapter.init : DbAdapter := { st := EngineState.empty, pending := [] }

/-- `DbAdapter.enqueue`: allocate an empty placeholder (a fresh heap slot),
push a queue member, return the placeholder reference.  No query is issued. -/
def DbAdapter.enqueue (a : DbAdapter) (type : String) : DbAdapter × Nat :=
  ({ st := { a.st with heap := a.st.heap ++ [none] }
     pending := a.pending ++ [{ type := type, out := a.st.heap.length }] },
    a.st.heap.length)

/-- Canonical names the catalog can produce. -/
def catalogNames (cat : Catalog) : List String :=
  (cat.basic.map (fun r => r.2.canonical_name)).dedup

/-- Catalog canonical names not yet in `canonCache`; its length strictly
decreases across every recursion of `canonicaliseQueue`. -/
def uncachedNames (cat : Catalog) (st : EngineState) : List String :=
  (catalogNames cat).filter (fun n => (lookupAssoc st.canonCache n).isNone)

def sessionFuel (cat : Catalog) (st : EngineState) : Nat :=
  (uncachedNames cat st).length + 1

/-- `DbAdapter.resolve`: drain the pending queue through
`canonicaliseQueue`; on success clear the queue and return the filled
placeholders, on error leave the queue in place (the source throws before
`resetQueue`). -/
def DbAdapter.resolve (cat : Catalog) (a : DbAdapter) :
    Option (DbAdapter × Except EngineError (List (Option FilledCanonical))) :=
  match canonicaliseQueue cat (sessionFuel cat a.st) a.st a.pending with
  | none => none
  | some (st, .error e) => some ({ st := st, pending := a.pending }, .error e)
  | some (st, .ok ()) =>
    some ({ st := st, pending := [] },
      .ok (a.pending.map (fun m => (st.heap[m.out]?).bind id)))

end TruePg

/-! ## Well-formedness predicates -/

namespace TruePg

/-- Every `canonCache` entry's stored `canonical_name` equals its key (true
of every insertion the engine performs). -/
def CanonCacheWF (st : EngineState) : Prop :=
  ∀ pr ∈ st.canonCache, pr.2.canonical_name = pr.1

instance (st : EngineState) : Decidable (CanonCacheWF st) :=
  inferInstanceAs (Decidable (∀ pr ∈ st.canonCache, pr.2.canonical_name = pr.1))

/-- Every `resolveCache` entry agrees with the catalog (true of every
insertion the engine performs, starting from the empty cache). -/
def ResolveCacheSub (cat : Catalog) (st : EngineState) : Prop :=
  ∀ pr ∈ st.resolveCache, lookupAssoc cat.basic pr.1 = some pr.2

instance (cat : Catalog) (st : EngineState) : Decidable (ResolveCacheSub cat st) :=
  inferInstanceAs (Decidable (∀ pr ∈ st.resolveCache, lookupAssoc cat.basic pr.1 = some pr.2))

/-- The queue's placeholder indices are valid, distinct heap slots. -/
def QueueWF (st : EngineState) (queue : List QueueMember) : Prop :=
  (∀ m ∈ queue, m.out < st.heap.length) ∧ (queue.map (fun m => m.out)).Nodup

instance (st : EngineState) (queue : List QueueMember) : Decidable (QueueWF st queue) :=
  inferInstanceAs (Decidable (_ ∧ _))

def DbAdapter.WF (a : DbAdapter) : Prop := QueueWF a.st a.pending

instance (a : DbAdapter) : Decidable a.WF :=
  inferInstanceAs (Decidable (QueueWF a.st a.pending))

/-- Every domain row's parent chain terminates within `|typeRows| + 1` chase
steps — the claims' "domain chains are finite" hypothesis; on a catalog
violating it the recursive CTE would not return. -/
def DomainChainsOk (cat : Catalog) : Prop :=
  ∀ r ∈ cat.typeRows, r.isDomain = true →
    chaseDomain cat.typeRows (cat.typeRows.length + 1) r.typbasetype ≠ none

instance (cat : Catalog) : Decidable (DomainChainsOk cat) :=
  inferInstanceAs (Decidable (∀ r ∈ cat.typeRows, r.isDomain = true →
    chaseDomain cat.typeRows (cat.typeRows.length + 1) r.typbasetype ≠ none))

/-! ## Concrete fixtures used by witnesses and counterexamples -/

/-- `pg_catalog.text`, a plain base type. -/
def textInfo : BasicInfo :=
  { oid := 25, internal_dimensions := 0, schema := "pg_catalog", name := "text",
    canonical_name := "pg_catalog.text", kind := Kind.base,
    typrelid := 0, typbasetype := 0, rngsubtype := 0 }

/-- The catalog resolution of the internal array name `_text`: one
array-wrapper layer unwrapped down to `pg_catalog.text`. -/
def arrTextInfo : BasicInfo := { textInfo with internal_dimensions := 1 }

def catText : Catalog :=
  { basic := [("text", textInfo), ("_text", arrTextInfo), ("pg_catalog.text", textInfo)],
    enums := [], attrs := [], typeRows := [] }

/-- `public.mood`, an enum reachable under two spellings. -/
def moodInfo : BasicInfo :=
  { oid := 31, internal_dimensions := 0, schema := "public", name := "mood",
    canonical_name := "public.mood", kind := Kind.enum,
    typrelid := 0, typbasetype := 0, rngsubtype := 0 }

def catMood : Catalog :=
  { basic := [("mood", moodInfo), ("public.mood", moodInfo)],
    enums := [(31, ["sad", "happy"])], attrs := [], typeRows := [] }

/-- `public.pair`, a composite with two `text` attributes. -/
def pairInfo : BasicInfo :=
  { oid := 40, internal_dimensions := 0, schema := "public", name := "pair",
    canonical_name := "public.pair", kind := Kind.composite,
    typrelid := 41, typbasetype := 0, rngsubtype := 0 }

def pairAttr (nm : String) (i : Nat) : RawAttribute :=
  { name := nm, index := i, type_name := "text", comment := none,
    defaultValue := none, isNullable := true, isIdentity := false,
    generated := Generated.never }

def catPair : Catalog :=
  { basic := [("public.pair", pairInfo), ("text", textInfo)],
    enums := [],
    attrs := [(41, [pairAttr "x" 1, pairAttr "y" 2])],
    typeRows := [] }

/-- `public.email`, a domain over the domain `public.uname` over
`pg_catalog.text`. -/
def emailInfo : BasicInfo :=
  { oid := 50, internal_dimensions := 0, schema := "public", name := "email",
    canonical_name := "public.email", kind := Kind.domain,
    typrelid := 0, typbasetype := 51, rngsubtype := 0 }

def catEmail : Catalog :=
  { basic := [("public.email", emailInfo), ("pg_catalog.text", textInfo)],
    enums := [], attrs := [],
    typeRows := [{ oid := 50, isDomain := true, typbasetype := 51, qname := "public.email" },
                 { oid := 51, isDomain := true, typbasetype := 25, qname := "public.uname" },
                 { oid := 25, isDomain := false, typbasetype := 0, qname := "pg_catalog.text" }] }

/-- `public.a`: an enum whose `pg_enum` has zero rows (catalog allows
`CREATE TYPE a AS ENUM ()`); `public.b`: an enum with two labels. -/
def zeroEnumInfo : BasicInfo :=
  { oid := 11, internal_dimensions := 0, schema := "public", name := "a",
    canonical_name := "public.a", kind := Kind.enum,
    typrelid := 0, typbasetype := 0, rngsubtype := 0 }

def twoEnumInfo : BasicInfo :=
  { oid := 12, internal_dimensions := 0, schema := "public", name := "b",
    canonical_name := "public.b", kind := Kind.enum,
    typrelid := 0, typbasetype := 0, rngsubtype := 0 }

def catZeroEnum : Catalog :=
  { basic := [], enums := [(11, []), (12, ["x", "y"])], attrs := [], typeRows := [] }

/-- `public.c1`: a composite with zero live attributes (catalog allows
`CREATE TYPE c1 AS ()`); `public.c2`: a composite with one attribute. -/
def zeroCompInfo : BasicInfo :=
  { oid := 20, internal_dimensions := 0, schema := "public", name := "c1",
    canonical_name := "public.c1", kind := Kind.composite,
    typrelid := 21, typbasetype := 0, rngsubtype := 0 }

def oneCompInfo : BasicInfo :=
  { oid := 22, internal_dimensions := 0, schema := "public", name := "c2",
    canonical_name := "public.c2", kind := Kind.composite,
    typrelid := 23, typbasetype := 0, rngsubtype := 0 }

def catZeroComp : Catalog :=
  { basic := [], enums := [],
    attrs := [(23, [pairAttr "y" 1])], typeRows := [] }

/-- A catalog in which the plain name `numeric(10,2)` (as produced by the
parser, see C5) resolves via `::regtype` to `pg_catalog.numeric`. -/
def numericInfo : BasicInfo :=
  { oid := 1700, internal_dimensions := 0, schema := "pg_catalog", name := "numeric",
    canonical_name := "pg_catalog.numeric", kind := Kind.base,
    typrelid := 0, typbasetype := 0, rngsubtype := 0 }

def catNumeric : Catalog :=
  { basic := [("numeric(10,2)", numericInfo), ("numeric", numericInfo)],
    enums := [], attrs := [], typeRows := [] }

/-- `pg_catalog.varchar` under the single plain spelling `varchar`. -/
def varcharInfo : BasicInfo :=
  { oid := 1043, internal_dimensions := 0, schema := "pg_catalog", name := "varchar",
    canonical_name := "pg_catalog.varchar", kind := Kind.base,
    typrelid := 0, typbasetype := 0, rngsubtype := 0 }

def catVarchar : Catalog :=
  { basic := [("varchar", varcharInfo)], enums := [], attrs := [], typeRows := [] }

/-- `public.weird`, a row the kind classifier maps to `unknown`. -/
def unknownInfo : BasicInfo :=
  { oid := 60, internal_dimensions := 0, schema := "public", name := "weird",
    canonical_name := "public.weird", kind := Kind.unknown,
    typrelid := 0, typbasetype := 0, rngsubtype := 0 }

def catUnknown : Catalog :=
  { basic := [("public.weird", unknownInfo)], enums := [], attrs := [], typeRows := [] }

/-! ### Concrete adapter sessions used by the session-level witnesses -/

def aC1 : DbAdapter := (DbAdapter.enqueue DbAdapter.init "text[]").1

def c1res : DbAdapter × Except EngineError (List (Option FilledCanonical)) :=
  (DbAdapter.resolve catText aC1).getD (DbAdapter.init, Except.ok [])

def c1out : List (Option FilledCanonical) :=
  match c1res.2 with
  | .ok l => l
  | .error _ => []

def aC2 : DbAdapter := (DbAdapter.enqueue DbAdapter.init "_text").1

def c2res : DbAdapter × Except EngineError (List (Option FilledCanonical)) :=
  (DbAdapter.resolve catText aC2).getD (DbAdapter.init, Except.ok [])

def c2out : List (Option FilledCanonical) :=
  match c2res.2 with
  | .ok l => l
  | .error _ => []

def aC3 : DbAdapter :=
  (DbAdapter.enqueue (DbAdapter.enqueue DbAdapter.init "mood").1 "public.mood").1

def c3res : DbAdapter × Except EngineError (List (Option FilledCanonical)) :=
  (DbAdapter.resolve catMood aC3).getD (DbAdapter.init, Except.ok [])

def c3out : List (Option FilledCanonical) :=
  match c3res.2 with
  | .ok l => l
  | .error _ => []

def aC4 : DbAdapter := (DbAdapter.enqueue DbAdapter.init "public.does_not_exist").1

def aC4u : DbAdapter := (DbAdapter.enqueue DbAdapter.init "public.weird").1

def aC9 : DbAdapter := (DbAdapter.enqueue DbAdapter.init "public.pair").1

def aC10 : DbAdapter :=
  (DbAdapter.enqueue (DbAdapter.enqueue DbAdapter.init "varchar(10)").1 "varchar(20)").1

def c10res : DbAdapter × Except EngineError (List (Option FilledCanonical)) :=
  (DbAdapter.resolve catVarchar aC10).getD (DbAdapter.init, Except.ok [])

def c10out : List (Option FilledCanonical) :=
  match c10res.2 with
  | .ok l => l
  | .error _ => []

def fcFallback : FilledCanonical :=
  { kind := Kind.base, oid := 0, typrelid := 0, typbasetype := 0, rngsubtype := 0,
    canonical_name := "", schema := "", name := "", original_type := "",
    modifiers := none, dimensions := 0, excl := ExclPayload.base }

def c3fc0 : FilledCanonical := ((c3res.1.st.heap[0]?).getD none).getD fcFallback

def c3fc1 : FilledCanonical := ((c3res.1.st.heap[1]?).getD none).getD fcFallback

def c10fc0 : FilledCanonical := ((c10res.1.st.heap[0]?).getD none).getD fcFallback

def c10fc1 : FilledCanonical := ((c10res.1.st.heap[1]?).getD none).getD fcFallback

end TruePg

/-! ## Helper lemmas about the list primitives -/

namespace TruePg

theorem lookupAssoc_cons {α : Type} (k₁ : String) (v : α) (rest : List (String × α)) (k : String) :
    lookupAssoc ((k₁, v) :: rest) k = if k₁ = k then some v else lookupAssoc rest k := rfl

theorem lookupAssoc_append_some {α : Type} {l₁ : List (String × α)} (l₂ : List (String × α))
    {k : String} {v : α} (h : lookupAssoc l₁ k = some v) :
    lookupAssoc (l₁ ++ l₂) k = some v := by
  induction l₁ with
  | nil => simp [lookupAssoc] at h
  | cons hd tl ih =>
    obtain ⟨k₁, v₁⟩ := hd
    rw [lookupAssoc_cons] at h
    rw [List.cons_append, lookupAssoc_cons]
    by_cases hk : k₁ = k
    · rw [if_pos hk] at h ⊢
      exact h
    · rw [if_neg hk] at h ⊢
      exact ih h

theorem lookupAssoc_append_none {α : Type} {l₁ : List (String × α)} (l₂ : List (String × α))
    {k : String} (h : lookupAssoc l₁ k = none) :
    lookupAssoc (l₁ ++ l₂) k = lookupAssoc l₂ k := by
  induction l₁ with
  | nil => simp
  | cons hd tl ih =>
    obtain ⟨k₁, v₁⟩ := hd
    rw [lookupAssoc_cons] at h
    rw [List.cons_append, lookupAssoc_cons]
    by_cases hk : k₁ = k
    · rw [if_pos hk] at h
      exact absurd h (by simp)
    · rw [if_neg hk] at h ⊢
      exact ih h

theorem lookupAssoc_mem {α : Type} {l : List (String × α)} {k : String} {v : α}
    (h : lookupAssoc l k = some v) : (k, v) ∈ l := by
  induction l with
  | nil => simp [lookupAssoc] at h
  | cons hd tl ih =>
    obtain ⟨k₁, v₁⟩ := hd
    rw [lookupAssoc_cons] at h
    by_cases hk : k₁ = k
    · rw [if_pos hk] at h
      obtain rfl := Option.some.inj h
      subst hk
      exact List.mem_cons_self ..
    · rw [if_neg hk] at h
      exact List.mem_cons_of_mem _ (ih h)

theorem lookupAssoc_isSome_of_mem {α : Type} {l : List (String × α)} {k : String} {v : α}
    (h : (k, v) ∈ l) : (lookupAssoc l k).isSome := by
  induction l with
  | nil => simp at h
  | cons hd tl ih =>
    obtain ⟨k₁, v₁⟩ := hd
    rcases List.mem_cons.mp h with h₁ | h₁
    · cases h₁
      rw [lookupAssoc_cons, if_pos rfl]
      simp
    · rw [lookupAssoc_cons]
      split
      · simp
      · exact ih h₁

theorem lookupAssoc_none_not_mem {α : Type} {l : List (String × α)} {k : String}
    (h : lookupAssoc l k = none) (v : α) : (k, v) ∉ l := by
  intro hmem
  have := lookupAssoc_isSome_of_mem hmem
  rw [h] at this
  simp at this

theorem lookupAssoc_zip_self {α : Type} (f : String → α) :
    ∀ (l : List String) (k : String), k ∈ l →
      lookupAssoc (List.zip l (l.map f)) k = some (f k)
  | [], k, h => by simp at h
  | x :: xs, k, h => by
    rw [List.map_cons, List.zip_cons_cons, lookupAssoc_cons]
    by_cases hk : x = k
    · subst hk
      simp
    · rw [if_neg hk]
      rcases List.mem_cons.mp h with rfl | h₁
      · exact absurd rfl hk
      · exact lookupAssoc_zip_self f xs k h₁

theorem mem_firstDedupAux (x : String) :
    ∀ (l seen : List String), x ∈ firstDedupAux seen l ↔ (x ∈ l ∧ x ∉ seen)
  | [], seen => by simp [firstDedupAux]
  | hd :: tl, seen => by
    rw [firstDedupAux]
    by_cases hseen : hd ∈ seen
    · rw [if_pos hseen, mem_firstDedupAux x tl seen]
      constructor
      · rintro ⟨h₁, h₂⟩
        exact ⟨List.mem_cons_of_mem _ h₁, h₂⟩
      · rintro ⟨h₁, h₂⟩
        rcases List.mem_cons.mp h₁ with rfl | h₃
        · exact absurd hseen h₂
        · exact ⟨h₃, h₂⟩
    · rw [if_neg hseen, List.mem_cons, mem_firstDedupAux x tl (hd :: seen)]
      constructor
      · rintro (rfl | ⟨h₁, h₂⟩)
        · exact ⟨List.mem_cons_self .., hseen⟩
        · exact ⟨List.mem_cons_of_mem _ h₁, fun hx => h₂ (List.mem_cons_of_mem _ hx)⟩
      · rintro ⟨h₁, h₂⟩
        by_cases hxhd : x = hd
        · exact Or.inl hxhd
        · rcases List.mem_cons.mp h₁ with rfl | h₃
          · exact Or.inl rfl
          · refine Or.inr ⟨h₃, fun hx => ?_⟩
            rcases List.mem_cons.mp hx with h₄ | h₄
            · exact hxhd h₄
            · exact h₂ h₄

theorem nodup_firstDedupAux : ∀ (l seen : List String), (firstDedupAux seen l).Nodup
  | [], _ => List.nodup_nil
  | hd :: tl, seen => by
    rw [firstDedupAux]
    by_cases hseen : hd ∈ seen
    · rw [if_pos hseen]
      exact nodup_firstDedupAux tl seen
    · rw [if_neg hseen]
      refine List.nodup_cons.mpr ⟨fun hmem => ?_, nodup_firstDedupAux tl (hd :: seen)⟩
      exact ((mem_firstDedupAux hd tl (hd :: seen)).mp hmem).2 (List.mem_cons_self ..)

theorem mem_firstDedup {x : String} {l : List String} :
    x ∈ firstDedup l ↔ x ∈ l := by
  rw [firstDedup, mem_firstDedupAux]
  simp

theorem nodup_firstDedup (l : List String) : (firstDedup l).Nodup :=
  nodup_firstDedupAux l []

theorem mem_zip_map {α β : Type} (g : α → β) :
    ∀ {l : List α} {a : α}, a ∈ l → (a, g a) ∈ List.zip l (l.map g)
  | [], a, h => by simp at h
  | x :: xs, a, h => by
    rw [List.map_cons, List.zip_cons_cons]
    rcases List.mem_cons.mp h with rfl | h₁
    · exact List.mem_cons_self ..
    · exact List.mem_cons_of_mem _ (mem_zip_map g h₁)

theorem mem_zipWith {α β γ : Type} {f : α → β → γ} :
    ∀ {as : List α} {bs : List β} {c : γ}, c ∈ List.zipWith f as bs →
      ∃ a b, a ∈ as ∧ b ∈ bs ∧ c = f a b
  | [], _, c, h => by simp at h
  | _ :: _, [], c, h => by simp at h
  | a :: as, b :: bs, c, h => by
    rw [List.zipWith_cons_cons] at h
    rcases List.mem_cons.mp h with rfl | h₁
    · exact ⟨a, b, List.mem_cons_self .., List.mem_cons_self .., rfl⟩
    · obtain ⟨a', b', ha, hb, rfl⟩ := mem_zipWith h₁
      exact ⟨a', b', List.mem_cons_of_mem _ ha, List.mem_cons_of_mem _ hb, rfl⟩

theorem filterMap_all_some_zip {α β : Type} {f : α → Option β} :
    ∀ {l : List α}, (∀ p ∈ l, (f p).isSome) →
      (l.filterMap f).length = l.length ∧
      ∀ pr ∈ List.zip l (l.filterMap f), f pr.1 = some pr.2
  | [], _ => by simp
  | hd :: tl, h => by
    have hhd := h hd (List.mem_cons_self ..)
    obtain ⟨b, hb⟩ := Option.isSome_iff_exists.mp hhd
    have ih := filterMap_all_some_zip (l := tl) (fun p hp => h p (List.mem_cons_of_mem _ hp))
    simp only [List.filterMap_cons, hb]
    refine ⟨by simpa using ih.1, ?_⟩
    intro pr hpr
    rw [List.zip_cons_cons] at hpr
    rcases List.mem_cons.mp hpr with rfl | h₁
    · exact hb
    · exact ih.2 pr h₁

theorem filterMap_length_pairing {α β : Type} {f : α → Option β} :
    ∀ {l : List α}, (l.filterMap f).length = l.length →
      ∀ pr ∈ List.zip (l.filterMap f) l, f pr.2 = some pr.1
  | [], _ => by simp
  | hd :: tl, h => by
    cases hf : f hd with
    | none =>
      rw [List.filterMap_cons, hf] at h
      have := List.length_filterMap_le f tl
      simp only [List.length_cons] at h
      omega
    | some b =>
      simp only [List.filterMap_cons, hf] at h ⊢
      intro pr hpr
      rw [List.zip_cons_cons] at hpr
      rcases List.mem_cons.mp hpr with rfl | h₁
      · exact hf
      · refine filterMap_length_pairing ?_ pr h₁
        simp only [List.length_cons] at h
        omega

theorem length_filter_mono {α : Type} {p q : α → Bool} :
    ∀ {l : List α}, (∀ x ∈ l, q x = true → p x = true) →
      (l.filter q).length ≤ (l.filter p).length
  | [], _ => le_refl _
  | hd :: tl, h => by
    have ih := length_filter_mono (l := tl) (fun x hx => h x (List.mem_cons_of_mem _ hx))
    cases hq : q hd with
    | true =>
      have hp := h hd (List.mem_cons_self ..) hq
      simp only [List.filter_cons, hq, hp, if_true, List.length_cons]
      omega
    | false =>
      cases hp : p hd with
      | true =>
        simp only [List.filter_cons, hq, hp, if_true, List.length_cons,
          Bool.false_eq_true, if_false]
        omega
      | false =>
        simpa only [List.filter_cons, hq, hp, Bool.false_eq_true, if_false] using ih

theorem length_filter_lt {α : Type} {p q : α → Bool} :
    ∀ {l : List α}, (∀ y ∈ l, q y = true → p y = true) →
      ∀ {x : α}, x ∈ l → p x = true → q x = false →
      (l.filter q).length < (l.filter p).length
  | [], _, x, hx, _, _ => by simp at hx
  | hd :: tl, h, x, hx, hpx, hqx => by
    have hmono := length_filter_mono (l := tl) (fun y hy => h y (List.mem_cons_of_mem _ hy))
    rcases List.mem_cons.mp hx with rfl | h₁
    · simp only [List.filter_cons, hpx, hqx, if_true, Bool.false_eq_true, if_false,
        List.length_cons]
      omega
    · have ih := length_filter_lt (l := tl)
        (fun y hy => h y (List.mem_cons_of_mem _ hy)) h₁ hpx hqx
      cases hq : q hd with
      | true =>
        have hp := h hd (List.mem_cons_self ..) hq
        simp only [List.filter_cons, hq, hp, if_true, List.length_cons]
        omega
      | false =>
        cases hp : p hd with
        | true =>
          simp only [List.filter_cons, hq, hp, if_true, Bool.false_eq_true, if_false,
            List.length_cons]
          omega
        | false =>
          simpa only [List.filter_cons, hq, hp, Bool.false_eq_true, if_false] using ih

end TruePg

/-! ## Parser-level and detail-level claim theorems -/

namespace TruePg

/-- C5: the claim (and the parser's own doc comment) says resolving
`"numeric(10,2)[]"` yields name `numeric`, modifiers `10,2`, dimensions 1.
In the source, the modifier regex `\(([^)]*)\)$` is anchored at the end of
the string and is applied BEFORE bracket stripping, so with trailing `[]`
it never matches: the parser returns plain `"numeric(10,2)"` and modifiers
`null`, and the finished type (resolved against a catalog in which
`numeric(10,2)` casts to `pg_catalog.numeric` via `::regtype`) carries
`modifiers = null`, not `"10,2"`. -/
theorem c5_modifiers_lost_behind_brackets :
    parseRawType "numeric(10,2)[]" =
      { plain := "numeric(10,2)", modifiers := none, dimensions := 1,
        original := "numeric(10,2)[]" }
  ∧ (parseRawType "numeric(10,2)[]").modifiers ≠ some "10,2"
  ∧ ((DbAdapter.resolve catNumeric ((DbAdapter.init.enqueue "numeric(10,2)[]").1)).map
       (fun out => out.2)) =
     some (Except.ok [some
       { kind := Kind.base, oid := 1700, typrelid := 0, typbasetype := 0,
         rngsubtype := 0, canonical_name := "pg_catalog.numeric", schema := "pg_catalog",
         name := "numeric", original_type := "numeric(10,2)[]", modifiers := none,
         dimensions := 1, excl := ExclPayload.base }]) := by
  refine ⟨by decide, by decide, by decide⟩

/-- C7: `public.a` is an enum with zero labels in the catalog.
`getEnumDetails` raises no error for it: its result type has no error
channel at all, and on the batch `[public.a, public.b]` the zero-label enum
is silently dropped from the result — worse, the positional pairing
`results.map((r, i) => entries[i])` attaches `public.b`'s labels to
`public.a`'s canonical name, and the result has 1 entry for 2 inputs. -/
theorem c7_zero_label_enum_swallowed :
    (getEnumDetails catZeroEnum EngineState.empty [zeroEnumInfo, twoEnumInfo]).2 =
      [{ kind := Kind.enum, canonical_name := "public.a",
         payload := ExclPayload.enumP ["x", "y"] }]
  ∧ (getEnumDetails catZeroEnum EngineState.empty [zeroEnumInfo, twoEnumInfo]).2.length ≠
      [zeroEnumInfo, twoEnumInfo].length
  ∧ lookupNat catZeroEnum.enums zeroEnumInfo.oid = some [] := by
  refine ⟨by decide, by decide, by decide⟩

/-- C8: `public.c1` is a composite whose relation id has no live attribute
rows, so the attribute query returns one group for the two requested
relation ids.  `getCompositeDetails` has no length-mismatch check (unlike
`getDomainDetails` and `getRangeDetails`): it silently pairs the single
returned group with the FIRST entry, attaching `public.c2`'s attribute to
`public.c1`'s canonical name and returning 1 result for 2 inputs — no hard
error is raised (the function's result type has no error channel). -/
theorem c8_composite_mismatch_unchecked :
    (getCompositeDetails catZeroComp EngineState.empty [zeroCompInfo, oneCompInfo]).2 =
      [{ kind := Kind.composite, canonical_name := "public.c1",
         payload := ExclPayload.compositeP
           [{ name := "y", index := 1, type := 0, comment := none, defaultValue := none,
              isNullable := true, isIdentity := false, generated := Generated.never }] }]
  ∧ (getCompositeDetails catZeroComp EngineState.empty [zeroCompInfo, oneCompInfo]).2.length ≠
      [zeroCompInfo, oneCompInfo].length
  ∧ lookupNat catZeroComp.attrs zeroCompInfo.typrelid = none := by
  refine ⟨by decide, by decide, by decide⟩

/-- C10 counterexample: the claim's example pair `"varchar(10)"` and
`"varchar(20)[]"` does NOT parse to the same plain base name, so the pair
does not share a single cached basic-info resolution: the parser strips the
`(...)` group only when it is at the very end of the text, so
`"varchar(20)[]"` keeps its modifier group inside the plain name. -/
theorem c10_example_plains_differ :
    (parseRawType "varchar(10)").plain = "varchar"
  ∧ (parseRawType "varchar(20)[]").plain = "varchar(20)"
  ∧ (parseRawType "varchar(10)").plain ≠ (parseRawType "varchar(20)[]").plain := by
  refine ⟨by decide, by decide, by decide⟩

end TruePg

/-! ## Domain-detail lemmas (C6) -/

namespace TruePg

theorem chaseDomain_not_domain {rows : List TypeRow} :
    ∀ (fuel : Nat) {cur fo : Nat}, chaseDomain rows fuel cur = some fo →
      ∀ (t : TypeRow), findTypeRow rows fo = some t → t.isDomain = false
  | 0, cur, fo, h => by simp [chaseDomain] at h
  | fuel + 1, cur, fo, h => by
    rw [chaseDomain] at h
    cases hfind : findTypeRow rows cur with
    | none =>
      simp only [hfind] at h
      obtain rfl := Option.some.inj h
      intro t ht
      rw [hfind] at ht
      exact absurd ht (by simp)
    | some u =>
      simp only [hfind] at h
      by_cases hd : u.isDomain
      · rw [if_pos hd] at h
        exact chaseDomain_not_domain fuel h
      · rw [if_neg hd] at h
        obtain rfl := Option.some.inj h
        intro t ht
        rw [hfind] at ht
        obtain rfl := Option.some.inj ht
        exact eq_false_of_ne_true hd

theorem finalBaseOid_not_domain {rows : List TypeRow} {oid fo : Nat}
    (h : finalBaseOid rows oid = some fo) (t : TypeRow)
    (ht : findTypeRow rows fo = some t) : t.isDomain = false := by
  rw [finalBaseOid] at h
  cases hfind : findTypeRow rows oid with
  | none =>
    simp only [hfind] at h
    obtain rfl := Option.some.inj h
    rw [hfind] at ht
    exact absurd ht (by simp)
  | some u =>
    simp only [hfind] at h
    by_cases hd : u.isDomain
    · rw [if_pos hd] at h
      exact chaseDomain_not_domain _ h t ht
    · rw [if_neg hd] at h
      obtain rfl := Option.some.inj h
      rw [hfind] at ht
      obtain rfl := Option.some.inj ht
      exact eq_false_of_ne_true hd

theorem domainQueryRows_length_le {rows : List TypeRow} :
    ∀ {oids : List Nat} {results : List String},
      domainQueryRows rows oids = .ok results → results.length ≤ oids.length
  | [], results, h => by
    rw [domainQueryRows] at h
    obtain rfl := Except.ok.inj h
    simp
  | oid :: rest, results, h => by
    rw [domainQueryRows] at h
    cases hfo : finalBaseOid rows oid with
    | none =>
      simp only [hfo] at h
      exact absurd h (by simp)
    | some fo =>
      simp only [hfo] at h
      cases hrec : domainQueryRows rows rest with
      | error e =>
        simp only [hrec] at h
        exact absurd h (by simp)
      | ok tail =>
        simp only [hrec] at h
        have ih := domainQueryRows_length_le hrec
        cases hft : findTypeRow rows fo with
        | none =>
          simp only [hft] at h
          obtain rfl := Except.ok.inj h
          simp only [List.length_cons]
          omega
        | some t =>
          simp only [hft] at h
          obtain rfl := Except.ok.inj h
          simp only [List.length_cons]
          omega

theorem domainQueryRows_full {rows : List TypeRow} :
    ∀ {oids : List Nat} {results : List String},
      domainQueryRows rows oids = .ok results → results.length = oids.length →
      ∀ (i : Nat) (oid : Nat), oids[i]? = some oid →
        ∃ fo t, finalBaseOid rows oid = some fo ∧ findTypeRow rows fo = some t ∧
          t.isDomain = false ∧ results[i]? = some t.qname
  | [], results, h, hlen, i, oid, hi => by simp at hi
  | oid₀ :: rest, results, h, hlen, i, oid, hi => by
    rw [domainQueryRows] at h
    cases hfo : finalBaseOid rows oid₀ with
    | none =>
      simp only [hfo] at h
      exact absurd h (by simp)
    | some fo =>
      simp only [hfo] at h
      cases hrec : domainQueryRows rows rest with
      | error e =>
        simp only [hrec] at h
        exact absurd h (by simp)
      | ok tail =>
        simp only [hrec] at h
        cases hft : findTypeRow rows fo with
        | none =>
          simp only [hft] at h
          obtain rfl := Except.ok.inj h
          have := domainQueryRows_length_le hrec
          simp only [List.length_cons] at hlen
          omega
        | some t =>
          simp only [hft] at h
          obtain rfl := Except.ok.inj h
          cases i with
          | zero =>
            rw [List.getElem?_cons_zero] at hi
            obtain rfl := Option.some.inj hi
            exact ⟨fo, t, hfo, hft, finalBaseOid_not_domain hfo t hft, by simp⟩
          | succ j =>
            rw [List.getElem?_cons_succ] at hi
            have hlen' : tail.length = rest.length := by
              simp only [List.length_cons] at hlen
              omega
            obtain ⟨fo', t', h₁, h₂, h₃, h₄⟩ := domainQueryRows_full hrec hlen' j oid hi
            exact ⟨fo', t', h₁, h₂, h₃, by simpa using h₄⟩

theorem allocSimple_spec (k : Kind) (mk : Nat → ExclPayload) :
    ∀ (st : EngineState) (pairs : List (String × BasicInfo)),
      ∃ newq : List QueueMember,
        (allocSimple k mk st pairs).1 =
          { st with heap := st.heap ++ List.replicate pairs.length none,
                    internalQ := st.internalQ ++ newq }
        ∧ (∀ m ∈ newq, st.heap.length ≤ m.out ∧ m.out < st.heap.length + pairs.length)
        ∧ (newq.map (fun m => m.out)).Nodup
        ∧ (allocSimple k mk st pairs).2.length = pairs.length
        ∧ newq.length = pairs.length
        ∧ (∀ x ∈ (allocSimple k mk st pairs).2,
            x.canonical_name ∈ pairs.map (fun pr => pr.2.canonical_name))
        ∧ (∀ (i : Nat) (name : String) (e : BasicInfo), pairs[i]? = some (name, e) →
            ∃ id, (allocSimple k mk st pairs).2[i]? =
                some ({ kind := k, canonical_name := e.canonical_name, payload := mk id } : Excl)
              ∧ ({ type := name, out := id } : QueueMember) ∈ newq)
  | st, [] =>
    ⟨[], by simp [allocSimple], by simp, by simp, by simp [allocSimple], by simp,
      by intro x hx; simp [allocSimple] at hx,
      by intro i name e hi; simp at hi⟩
  | st, (name, e) :: rest => by
    obtain ⟨newq', heq, hbound, hnodup, hlen, hqlen, hnames, hpair⟩ :=
      allocSimple_spec k mk (qAlloc st name).1 rest
    have hq1 : (qAlloc st name).1.heap.length = st.heap.length + 1 := by
      simp [qAlloc]
    refine ⟨(⟨name, st.heap.length⟩ : QueueMember) :: newq', ?_, ?_, ?_, ?_, ?_, ?_, ?_⟩
    · show (allocSimple k mk (qAlloc st name).1 rest).1 = _
      rw [heq]
      simp [qAlloc, List.replicate_succ]
    · intro m hm
      rcases List.mem_cons.mp hm with rfl | hm'
      · constructor
        · exact Nat.le_refl _
        · show st.heap.length < st.heap.length + (rest.length + 1)
          omega
      · have := hbound m hm'
        rw [hq1] at this
        simp only [List.length_cons]
        omega
    · refine List.nodup_cons.mpr ⟨fun hmem => ?_, hnodup⟩
      obtain ⟨m, hm, hout⟩ := List.mem_map.mp hmem
      have := (hbound m hm).1
      rw [hq1] at this
      have hout' : m.out = st.heap.length := hout
      omega
    · show (_ :: (allocSimple k mk (qAlloc st name).1 rest).2).length = _
      simp only [List.length_cons, hlen]
    · simp only [List.length_cons, hqlen]
    · intro x hx
      rcases List.mem_cons.mp hx with rfl | hx'
      · simp
      · have := hnames x hx'
        simp only [List.map_cons]
        exact List.mem_cons_of_mem _ this
    · intro i name' e' hi
      cases i with
      | zero =>
        rw [List.getElem?_cons_zero] at hi
        have h' := Option.some.inj hi
        have hn : name = name' := congrArg Prod.fst h'
        have he2 : e = e' := congrArg Prod.snd h'
        subst hn
        subst he2
        refine ⟨st.heap.length, ?_, List.mem_cons_self ..⟩
        show (allocSimple k mk st ((name, e) :: rest)).2[0]? = _
        simp [allocSimple, qAlloc]
      | succ j =>
        rw [List.getElem?_cons_succ] at hi
        obtain ⟨id, h₁, h₂⟩ := hpair j name' e' hi
        refine ⟨id, ?_, List.mem_cons_of_mem _ h₂⟩
        show (_ :: (allocSimple k mk (qAlloc st name).1 rest).2)[j + 1]? = _
        simpa using h₁

theorem getDomainDetails_ok_spec {cat : Catalog} {st st' : EngineState}
    {entries : List BasicInfo} {excls : List Excl}
    (hne : entries ≠ [])
    (h : getDomainDetails cat st entries = (st', .ok excls)) :
    st'.queryCount = st.queryCount + 1
    ∧ excls.length = entries.length
    ∧ ∀ (i : Nat) (e : BasicInfo), entries[i]? = some e →
        ∃ id fo t,
          excls[i]? = some ({ kind := Kind.domain, canonical_name := e.canonical_name,
                              payload := ExclPayload.domainP id } : Excl)
          ∧ finalBaseOid cat.typeRows e.oid = some fo
          ∧ findTypeRow cat.typeRows fo = some t
          ∧ t.isDomain = false
          ∧ ({ type := t.qname, out := id } : QueueMember) ∈ st'.internalQ := by
  rw [getDomainDetails, if_neg (by simpa using hne)] at h
  cases hq : domainQueryRows cat.typeRows (entries.map (fun e => e.oid)) with
  | error e =>
    simp only [hq] at h
    exact absurd (congrArg Prod.snd h) (by simp)
  | ok results =>
    simp only [hq] at h
    by_cases hl : results.length = entries.length
    · rw [if_neg (by simpa using hl)] at h
      obtain ⟨newq, heq, hbound, hnodup, hlen, hqlen, hnames, hpair⟩ :=
        allocSimple_spec Kind.domain ExclPayload.domainP (bumpQuery st)
          (List.zip results entries)
      have hfst : (allocSimple Kind.domain ExclPayload.domainP (bumpQuery st)
          (List.zip results entries)).1 = st' := congrArg Prod.fst h
      have hsnd : (allocSimple Kind.domain ExclPayload.domainP (bumpQuery st)
          (List.zip results entries)).2 = excls := by
        have := congrArg Prod.snd h
        simpa using this
      rw [hfst] at heq
      rw [hsnd] at hlen hpair
      have hmaplen : (entries.map (fun e => e.oid)).length = entries.length :=
        List.length_map ..
      refine ⟨?_, ?_, ?_⟩
      · rw [heq]
        simp [bumpQuery]
      · rw [hlen, List.length_zip, hl]
        exact Nat.min_self _
      · intro i e hi
        have hoid : (entries.map (fun e => e.oid))[i]? = some e.oid := by
          rw [List.getElem?_map, hi]
          rfl
        have hql : results.length = (entries.map (fun e => e.oid)).length := by
          rw [hmaplen]
          exact hl
        obtain ⟨fo, t, h₁, h₂, h₃, h₄⟩ :=
          domainQueryRows_full hq hql i e.oid hoid
        have hzip : (List.zip results entries)[i]? = some (t.qname, e) :=
          List.getElem?_zip_eq_some.mpr ⟨h₄, hi⟩
        obtain ⟨id, h₅, h₆⟩ := hpair i t.qname e hzip
        refine ⟨id, fo, t, h₅, h₁, h₂, h₃, ?_⟩
        rw [heq]
        exact List.mem_append_right _ h₆
    · rw [if_pos (by simpa using hl)] at h
      exact absurd (congrArg Prod.snd h) (by simp)

/-- C6: for every domain batch that `getDomainDetails` resolves
successfully, (a) exactly one catalog query is issued for the whole batch,
whatever the lengths of the parent chains; (b) each entry's enqueued base
name is the qualified name of the type reached by chasing the
`typbasetype` chain to its end, and that type is NOT a domain — so the
`domain_base_type` placeholder is the ultimate (fully dealiased) ancestor,
never an intermediate parent domain. -/
theorem c6_domain_ultimate_base {cat : Catalog} {st st' : EngineState}
    {entries : List BasicInfo} {excls : List Excl}
    (hne : entries ≠ [])
    (h : getDomainDetails cat st entries = (st', .ok excls)) :
    st'.queryCount = st.queryCount + 1
    ∧ excls.length = entries.length
    ∧ ∀ (i : Nat) (e : BasicInfo), entries[i]? = some e →
        ∃ id fo t,
          excls[i]? = some ({ kind := Kind.domain, canonical_name := e.canonical_name,
                              payload := ExclPayload.domainP id } : Excl)
          ∧ finalBaseOid cat.typeRows e.oid = some fo
          ∧ findTypeRow cat.typeRows fo = some t
          ∧ t.isDomain = false
          ∧ ({ type := t.qname, out := id } : QueueMember) ∈ st'.internalQ :=
  getDomainDetails_ok_spec hne h

/-- Witness for C6 on a two-link chain `public.email → public.uname →
pg_catalog.text`: the enqueued base is `pg_catalog.text` (not the immediate
parent `public.uname`), with exactly one query. -/
theorem c6_domain_ultimate_base_witness :
    ([emailInfo] ≠ ([] : List BasicInfo))
  ∧ (getDomainDetails catEmail EngineState.empty [emailInfo]).1.queryCount =
      EngineState.empty.queryCount + 1
  ∧ (getDomainDetails catEmail EngineState.empty [emailInfo]).1.internalQ =
      [{ type := "pg_catalog.text", out := 0 }]
  ∧ ∀ (i : Nat) (e : BasicInfo), [emailInfo][i]? = some e →
      ∃ id fo t,
        [({ kind := Kind.domain, canonical_name := "public.email",
            payload := ExclPayload.domainP 0 } : Excl)][i]? =
            some ({ kind := Kind.domain, canonical_name := e.canonical_name,
                    payload := ExclPayload.domainP id } : Excl)
        ∧ finalBaseOid catEmail.typeRows e.oid = some fo
        ∧ findTypeRow catEmail.typeRows fo = some t
        ∧ t.isDomain = false
        ∧ ({ type := t.qname, out := id } : QueueMember) ∈
            (getDomainDetails catEmail EngineState.empty [emailInfo]).1.internalQ := by
  have h : getDomainDetails catEmail EngineState.empty [emailInfo] =
      ({ heap := [none], queryCount := 1, resolveCache := [], canonCache := [],
         internalQ := [{ type := "pg_catalog.text", out := 0 }], detailLog := [] },
       .ok [{ kind := Kind.domain, canonical_name := "public.email",
              payload := ExclPayload.domainP 0 }]) := by decide
  have spec := c6_domain_ultimate_base (by decide) h
  refine ⟨by decide, spec.1, by rw [h], spec.2.2⟩

end TruePg

/-! ## Uniform shape of the kind-detail resolvers -/

namespace TruePg

/-- Common shape of one kind-detail resolver run: caches and log untouched,
heap extended with fresh empty slots, internal queue extended with members
pointing at those slots, and every produced detail named after one of the
batch entries. -/
structure DetailOut (st st' : EngineState) (entries : List BasicInfo)
    (excls : List Excl) : Prop where
  rcache : st'.resolveCache = st.resolveCache
  ccache : st'.canonCache = st.canonCache
  dlog : st'.detailLog = st.detailLog
  heapPrefix : ∃ ext, st'.heap = st.heap ++ ext ∧ ∀ x ∈ ext, x = none
  iq : ∃ newq, st'.internalQ = st.internalQ ++ newq
    ∧ (∀ m ∈ newq, st.heap.length ≤ m.out ∧ m.out < st'.heap.length)
    ∧ (newq.map (fun m => m.out)).Nodup
    ∧ (newq ≠ [] → excls ≠ [])
  names : ∀ x ∈ excls, x.canonical_name ∈ entries.map (fun e => e.canonical_name)

theorem detailOut_id (st : EngineState) (entries : List BasicInfo) :
    DetailOut st st entries [] :=
  { rcache := rfl, ccache := rfl, dlog := rfl
    heapPrefix := ⟨[], by simp, by simp⟩
    iq := ⟨[], by simp, by simp, by simp, by simp⟩
    names := by simp }

theorem detailOut_bump (st : EngineState) (entries : List BasicInfo) :
    DetailOut st (bumpQuery st) entries [] :=
  { rcache := rfl, ccache := rfl, dlog := rfl
    heapPrefix := ⟨[], by simp [bumpQuery], by simp⟩
    iq := ⟨[], by simp [bumpQuery], by simp, by simp, by simp⟩
    names := by simp }

theorem getEnumDetails_shape (cat : Catalog) (st : EngineState) (entries : List BasicInfo) :
    DetailOut st (getEnumDetails cat st entries).1 entries (getEnumDetails cat st entries).2 := by
  rw [getEnumDetails]
  by_cases he : entries.isEmpty
  · rw [if_pos he]
    exact detailOut_id st entries
  · rw [if_neg he]
    refine { rcache := rfl, ccache := rfl, dlog := rfl
             heapPrefix := ⟨[], by simp [bumpQuery], by simp⟩
             iq := ⟨[], by simp [bumpQuery], by simp, by simp, by simp⟩
             names := ?_ }
    intro x hx
    obtain ⟨labels, e, hl, hee, rfl⟩ := mem_zipWith hx
    exact List.mem_map.mpr ⟨e, hee, rfl⟩

theorem allocAttrs_spec :
    ∀ (st : EngineState) (attrs : List RawAttribute),
      ∃ newq : List QueueMember,
        (allocAttrs st attrs).1 =
          { st with heap := st.heap ++ List.replicate attrs.length none,
                    internalQ := st.internalQ ++ newq }
        ∧ newq.length = attrs.length
        ∧ (∀ m ∈ newq, st.heap.length ≤ m.out ∧ m.out < st.heap.length + attrs.length)
        ∧ (newq.map (fun m => m.out)).Nodup
  | st, [] => ⟨[], by simp [allocAttrs], by simp, by simp, by simp⟩
  | st, a :: rest => by
    obtain ⟨newq', heq, hlen, hbound, hnodup⟩ := allocAttrs_spec (qAlloc st a.type_name).1 rest
    have hq1 : (qAlloc st a.type_name).1.heap.length = st.heap.length + 1 := by
      simp [qAlloc]
    refine ⟨(⟨a.type_name, st.heap.length⟩ : QueueMember) :: newq', ?_, ?_, ?_, ?_⟩
    · show (allocAttrs (qAlloc st a.type_name).1 rest).1 = _
      rw [heq]
      simp [qAlloc, List.replicate_succ]
    · simp only [List.length_cons, hlen]
    · intro m hm
      rcases List.mem_cons.mp hm with rfl | hm'
      · constructor
        · exact Nat.le_refl _
        · show st.heap.length < st.heap.length + (rest.length + 1)
          omega
      · have := hbound m hm'
        rw [hq1] at this
        simp only [List.length_cons]
        omega
    · refine List.nodup_cons.mpr ⟨fun hmem => ?_, hnodup⟩
      obtain ⟨m, hm, hout⟩ := List.mem_map.mp hmem
      have := (hbound m hm).1
      rw [hq1] at this
      have hout' : m.out = st.heap.length := hout
      omega

theorem allocComposites_spec :
    ∀ (st : EngineState) (pairs : List (List RawAttribute × BasicInfo)),
      ∃ (ext : List (Option FilledCanonical)) (newq : List QueueMember),
        (allocComposites st pairs).1 =
          { st with heap := st.heap ++ ext, internalQ := st.internalQ ++ newq }
        ∧ (∀ x ∈ ext, x = none)
        ∧ (∀ m ∈ newq, st.heap.length ≤ m.out ∧ m.out < st.heap.length + ext.length)
        ∧ (newq.map (fun m => m.out)).Nodup
        ∧ (newq ≠ [] → (allocComposites st pairs).2 ≠ [])
        ∧ (∀ x ∈ (allocComposites st pairs).2,
            x.canonical_name ∈ pairs.map (fun pr => pr.2.canonical_name))
  | st, [] =>
    ⟨[], [], by simp [allocComposites], by simp, by simp, by simp,
      by simp [allocComposites], by intro x hx; simp [allocComposites] at hx⟩
  | st, (attrs, e) :: rest => by
    obtain ⟨newqA, heqA, hlenA, hboundA, hnodupA⟩ := allocAttrs_spec st attrs
    obtain ⟨ext', newq', heq, hext', hbound', hnodup', hne', hnames'⟩ :=
      allocComposites_spec (allocAttrs st attrs).1 rest
    have hAheap : (allocAttrs st attrs).1.heap.length = st.heap.length + attrs.length := by
      rw [heqA]
      simp
    refine ⟨List.replicate attrs.length none ++ ext', newqA ++ newq', ?_, ?_, ?_, ?_, ?_, ?_⟩
    · show (allocComposites (allocAttrs st attrs).1 rest).1 = _
      rw [heq, heqA]
      simp
    · intro x hx
      rcases List.mem_append.mp hx with hx' | hx'
      · exact List.eq_of_mem_replicate hx'
      · exact hext' x hx'
    · intro m hm
      simp only [List.length_append, List.length_replicate]
      rcases List.mem_append.mp hm with hm' | hm'
      · have := hboundA m hm'
        omega
      · have := hbound' m hm'
        rw [heqA] at this
        simp only [List.length_append, List.length_replicate] at this
        omega
    · rw [List.map_append]
      refine List.Nodup.append hnodupA hnodup' ?_
      intro x hx hx'
      obtain ⟨m, hm, rfl⟩ := List.mem_map.mp hx
      obtain ⟨m', hm', hmm⟩ := List.mem_map.mp hx'
      have h₁ := (hboundA m hm).2
      have h₂ := (hbound' m' hm').1
      rw [hAheap] at h₂
      omega
    · intro hne
      show (_ :: (allocComposites (allocAttrs st attrs).1 rest).2) ≠ []
      simp
    · intro x hx
      have hx2 : x ∈ ({ kind := Kind.composite, canonical_name := e.canonical_name,
                        payload := ExclPayload.compositeP (allocAttrs st attrs).2 } : Excl) ::
          (allocComposites (allocAttrs st attrs).1 rest).2 := hx
      rcases List.mem_cons.mp hx2 with rfl | hx'
      · simp
      · have := hnames' x hx'
        simp only [List.map_cons]
        exact List.mem_cons_of_mem _ this

theorem getCompositeDetails_shape (cat : Catalog) (st : EngineState)
    (entries : List BasicInfo) :
    DetailOut st (getCompositeDetails cat st entries).1 entries
      (getCompositeDetails cat st entries).2 := by
  rw [getCompositeDetails]
  by_cases he : entries.isEmpty
  · rw [if_pos he]
    exact detailOut_id st entries
  · rw [if_neg he]
    obtain ⟨ext, newq, heq, hext, hbound, hnodup, hne, hnames⟩ :=
      allocComposites_spec (bumpQuery st)
        (List.zip (entries.filterMap (fun e =>
          match lookupNat cat.attrs e.typrelid with
          | some attrs => if attrs.isEmpty then none else some attrs
          | none => none)) entries)
    refine { rcache := by rw [heq]; rfl
             ccache := by rw [heq]; rfl
             dlog := by rw [heq]; rfl
             heapPrefix := ⟨ext, by rw [heq]; rfl, hext⟩
             iq := ⟨newq, by rw [heq]; simp [bumpQuery], ?_, hnodup, hne⟩
             names := ?_ }
    · intro m hm
      have := hbound m hm
      rw [heq]
      simp only [bumpQuery] at this ⊢
      simp only [List.length_append]
      omega
    · intro x hx
      have := hnames x hx
      obtain ⟨pr, hpr, hname⟩ := List.mem_map.mp this
      have hmem := (List.of_mem_zip hpr).2
      exact List.mem_map.mpr ⟨pr.2, hmem, hname⟩

theorem getDomainDetails_ok_shape {cat : Catalog} {st st' : EngineState}
    {entries : List BasicInfo} {excls : List Excl}
    (h : getDomainDetails cat st entries = (st', .ok excls)) :
    DetailOut st st' entries excls := by
  rw [getDomainDetails] at h
  by_cases he : entries.isEmpty
  · rw [if_pos he] at h
    obtain ⟨rfl, h2⟩ : st = st' ∧ (Except.ok [] : Except EngineError (List Excl)) = .ok excls :=
      ⟨congrArg Prod.fst h, congrArg Prod.snd h⟩
    obtain rfl := Except.ok.inj h2
    exact detailOut_id st entries
  · rw [if_neg he] at h
    cases hq : domainQueryRows cat.typeRows (entries.map (fun e => e.oid)) with
    | error e =>
      simp only [hq] at h
      exact absurd (congrArg Prod.snd h) (by simp)
    | ok results =>
      simp only [hq] at h
      by_cases hl : results.length = entries.length
      · rw [if_neg (by simpa using hl)] at h
        obtain ⟨newq, heq, hbound, hnodup, hlen, hqlen, hnames, hpair⟩ :=
          allocSimple_spec Kind.domain ExclPayload.domainP (bumpQuery st)
            (List.zip results entries)
        have hfst : (allocSimple Kind.domain ExclPayload.domainP (bumpQuery st)
            (List.zip results entries)).1 = st' := congrArg Prod.fst h
        have hsnd : (allocSimple Kind.domain ExclPayload.domainP (bumpQuery st)
            (List.zip results entries)).2 = excls := by
          have := congrArg Prod.snd h
          simpa using this
        rw [hfst] at heq
        rw [hsnd] at hnames hlen
        refine { rcache := by rw [heq]; rfl
                 ccache := by rw [heq]; rfl
                 dlog := by rw [heq]; rfl
                 heapPrefix := ⟨List.replicate (List.zip results entries).length none,
                   by rw [heq]; rfl, fun x hx => List.eq_of_mem_replicate hx⟩
                 iq := ⟨newq, by rw [heq]; simp [bumpQuery], ?_, hnodup, ?_⟩
                 names := ?_ }
        · intro m hm
          have := hbound m hm
          rw [heq]
          simp only [bumpQuery] at this ⊢
          simp only [List.length_append, List.length_replicate]
          omega
        · intro hne hexcl
          rw [hexcl] at hlen
          simp only [List.length_nil] at hlen
          have : newq.length = 0 := by omega
          exact hne (List.eq_nil_of_length_eq_zero this)
        · intro x hx
          have := hnames x hx
          obtain ⟨pr, hpr, hname⟩ := List.mem_map.mp this
          have hmem := (List.of_mem_zip hpr).2
          exact List.mem_map.mpr ⟨pr.2, hmem, hname⟩
      · rw [if_pos (by simpa using hl)] at h
        exact absurd (congrArg Prod.snd h) (by simp)

theorem getRangeDetails_ok_shape {cat : Catalog} {st st' : EngineState}
    {entries : List BasicInfo} {excls : List Excl}
    (h : getRangeDetails cat st entries = (st', .ok excls)) :
    DetailOut st st' entries excls := by
  rw [getRangeDetails] at h
  by_cases he : entries.isEmpty
  · rw [if_pos he] at h
    obtain ⟨rfl, h2⟩ : st = st' ∧ (Except.ok [] : Except EngineError (List Excl)) = .ok excls :=
      ⟨congrArg Prod.fst h, congrArg Prod.snd h⟩
    obtain rfl := Except.ok.inj h2
    exact detailOut_id st entries
  · rw [if_neg he] at h
    by_cases hl : (entries.filterMap (fun e =>
        (findTypeRow cat.typeRows e.oid).map (fun t => t.qname))).length = entries.length
    · rw [if_neg (show ¬((entries.filterMap (fun e =>
        (findTypeRow cat.typeRows e.oid).map (fun t => t.qname))).length ≠ entries.length)
        from fun hc => hc hl)] at h
      obtain ⟨newq, heq, hbound, hnodup, hlen, hqlen, hnames, hpair⟩ :=
        allocSimple_spec Kind.range ExclPayload.rangeP (bumpQuery st)
          (List.zip (entries.filterMap (fun e =>
            (findTypeRow cat.typeRows e.oid).map (fun t => t.qname))) entries)
      have hfst : (allocSimple Kind.range ExclPayload.rangeP (bumpQuery st)
          (List.zip (entries.filterMap (fun e =>
            (findTypeRow cat.typeRows e.oid).map (fun t => t.qname))) entries)).1 = st' :=
        congrArg Prod.fst h
      have hsnd : (allocSimple Kind.range ExclPayload.rangeP (bumpQuery st)
          (List.zip (entries.filterMap (fun e =>
            (findTypeRow cat.typeRows e.oid).map (fun t => t.qname))) entries)).2 = excls := by
        have := congrArg Prod.snd h
        simpa using this
      rw [hfst] at heq
      rw [hsnd] at hnames hlen
      refine { rcache := by rw [heq]; rfl
               ccache := by rw [heq]; rfl
               dlog := by rw [heq]; rfl
               heapPrefix := ⟨_, by rw [heq]; rfl, fun x hx => List.eq_of_mem_replicate hx⟩
               iq := ⟨newq, by rw [heq]; simp [bumpQuery], ?_, hnodup, ?_⟩
               names := ?_ }
      · intro m hm
        have := hbound m hm
        rw [heq]
        simp only [bumpQuery] at this ⊢
        simp only [List.length_append, List.length_replicate]
        omega
      · intro hne hexcl
        rw [hexcl] at hlen
        simp only [List.length_nil] at hlen
        have : newq.length = 0 := by omega
        exact hne (List.eq_nil_of_length_eq_zero this)
      · intro x hx
        have := hnames x hx
        obtain ⟨pr, hpr, hname⟩ := List.mem_map.mp this
        have hmem := (List.of_mem_zip hpr).2
        exact List.mem_map.mpr ⟨pr.2, hmem, hname⟩
    · rw [if_pos hl] at h
      exact absurd (congrArg Prod.snd h) (by simp)

theorem getDomainDetails_err_shape {cat : Catalog} {st st' : EngineState}
    {entries : List BasicInfo} {e : EngineError}
    (h : getDomainDetails cat st entries = (st', .error e)) :
    st'.heap = st.heap ∧ st'.internalQ = st.internalQ ∧
    st'.canonCache = st.canonCache ∧ st'.resolveCache = st.resolveCache ∧
    st'.detailLog = st.detailLog := by
  rw [getDomainDetails] at h
  by_cases he : entries.isEmpty
  · rw [if_pos he] at h
    exact absurd (congrArg Prod.snd h) (by simp)
  · rw [if_neg he] at h
    cases hq : domainQueryRows cat.typeRows (entries.map (fun e => e.oid)) with
    | error e' =>
      simp only [hq] at h
      have hfst : bumpQuery st = st' := congrArg Prod.fst h
      rw [← hfst]
      exact ⟨rfl, rfl, rfl, rfl, rfl⟩
    | ok results =>
      simp only [hq] at h
      by_cases hl : results.length = entries.length
      · rw [if_neg (by simpa using hl)] at h
        exact absurd (congrArg Prod.snd h) (by simp)
      · rw [if_pos (by simpa using hl)] at h
        have hfst : bumpQuery st = st' := congrArg Prod.fst h
        rw [← hfst]
        exact ⟨rfl, rfl, rfl, rfl, rfl⟩

theorem getRangeDetails_err_shape {cat : Catalog} {st st' : EngineState}
    {entries : List BasicInfo} {e : EngineError}
    (h : getRangeDetails cat st entries = (st', .error e)) :
    st'.heap = st.heap ∧ st'.internalQ = st.internalQ ∧
    st'.canonCache = st.canonCache ∧ st'.resolveCache = st.resolveCache ∧
    st'.detailLog = st.detailLog := by
  rw [getRangeDetails] at h
  by_cases he : entries.isEmpty
  · rw [if_pos he] at h
    exact absurd (congrArg Prod.snd h) (by simp)
  · rw [if_neg he] at h
    by_cases hl : (entries.filterMap (fun e =>
        (findTypeRow cat.typeRows e.oid).map (fun t => t.qname))).length = entries.length
    · rw [if_neg (show ¬((entries.filterMap (fun e =>
        (findTypeRow cat.typeRows e.oid).map (fun t => t.qname))).length ≠ entries.length)
        from fun hc => hc hl)] at h
      exact absurd (congrArg Prod.snd h) (by simp)
    · rw [if_pos hl] at h
      have hfst : bumpQuery st = st' := congrArg Prod.fst h
      rw [← hfst]
      exact ⟨rfl, rfl, rfl, rfl, rfl⟩

end TruePg

/-! ## Basic-resolution phase lemmas -/

namespace TruePg

theorem firstMissing_none {cat : Catalog} :
    ∀ {l : List String}, firstMissing cat l = none → ∀ p ∈ l, (lookupAssoc cat.basic p).isSome
  | [], _, p, hp => by simp at hp
  | q :: rest, h, p, hp => by
    rw [firstMissing] at h
    by_cases hq : (lookupAssoc cat.basic q).isSome
    · rw [if_pos hq] at h
      rcases List.mem_cons.mp hp with rfl | hp'
      · exact hq
      · exact firstMissing_none h p hp'
    · rw [if_neg hq] at h
      exact absurd h (by simp)

theorem firstMissing_some {cat : Catalog} :
    ∀ {l : List String} {p : String}, firstMissing cat l = some p →
      p ∈ l ∧ lookupAssoc cat.basic p = none
  | [], p, h => by simp [firstMissing] at h
  | q :: rest, p, h => by
    rw [firstMissing] at h
    by_cases hq : (lookupAssoc cat.basic q).isSome
    · rw [if_pos hq] at h
      obtain ⟨h₁, h₂⟩ := firstMissing_some h
      exact ⟨List.mem_cons_of_mem _ h₁, h₂⟩
    · rw [if_neg hq] at h
      obtain rfl := Option.some.inj h
      exact ⟨List.mem_cons_self .., Option.not_isSome_iff_eq_none.mp hq⟩

theorem firstMissing_isSome {cat : Catalog} :
    ∀ {l : List String} {p : String}, p ∈ l → lookupAssoc cat.basic p = none →
      (firstMissing cat l).isSome
  | [], p, hp, _ => by simp at hp
  | q :: rest, p, hp, hnone => by
    rw [firstMissing]
    by_cases hq : (lookupAssoc cat.basic q).isSome
    · rw [if_pos hq]
      rcases List.mem_cons.mp hp with rfl | hp'
      · rw [hnone] at hq
        simp at hq
      · exact firstMissing_isSome hp' hnone
    · rw [if_neg hq]
      simp

theorem resolveBasicInfo_ok_spec {cat : Catalog} {st st' : EngineState}
    {types : List String} {resolved : List BasicInfo}
    (h : resolveBasicInfo cat st types = (st', .ok resolved)) :
    st'.heap = st.heap ∧ st'.internalQ = st.internalQ
    ∧ st'.resolveCache = st.resolveCache ∧ st'.canonCache = st.canonCache
    ∧ st'.detailLog = st.detailLog
    ∧ resolved = types.filterMap (lookupAssoc cat.basic)
    ∧ (∀ p ∈ types, (lookupAssoc cat.basic p).isSome) := by
  rw [resolveBasicInfo] at h
  by_cases he : types.isEmpty
  · rw [if_pos he] at h
    have hfst : st = st' := congrArg Prod.fst h
    have hsnd : (Except.ok [] : Except EngineError (List BasicInfo)) = .ok resolved :=
      congrArg Prod.snd h
    obtain rfl := Except.ok.inj hsnd
    obtain rfl := hfst
    obtain rfl := List.isEmpty_iff.mp he
    exact ⟨rfl, rfl, rfl, rfl, rfl, rfl, by simp⟩
  · rw [if_neg he] at h
    cases hm : firstMissing cat types with
    | some p =>
      simp only [hm] at h
      exact absurd (congrArg Prod.snd h) (by simp)
    | none =>
      simp only [hm] at h
      have hfst : bumpQuery st = st' := congrArg Prod.fst h
      have hsnd := congrArg Prod.snd h
      have hres : types.filterMap (lookupAssoc cat.basic) = resolved := by
        have : (Except.ok (types.filterMap (lookupAssoc cat.basic)) :
            Except EngineError (List BasicInfo)) = .ok resolved := hsnd
        exact Except.ok.inj this
      rw [← hfst, ← hres]
      exact ⟨rfl, rfl, rfl, rfl, rfl, rfl, firstMissing_none hm⟩

theorem phaseResolve_ok_spec {cat : Catalog} {st st' : EngineState}
    {parsed : List ParsedType} {resolved : List BasicInfo}
    (h : phaseResolve cat st parsed = (st', .ok resolved)) :
    st'.heap = st.heap
    ∧ st'.internalQ = st.internalQ
    ∧ st'.canonCache = st.canonCache
    ∧ st'.detailLog = st.detailLog
    ∧ st'.queryCount ≥ st.queryCount
    ∧ st'.resolveCache = st.resolveCache ++ List.zip (newPlains st parsed) resolved
    ∧ resolved = (newPlains st parsed).filterMap (lookupAssoc cat.basic)
    ∧ (∀ p ∈ newPlains st parsed, (lookupAssoc cat.basic p).isSome)
    ∧ (∀ r ∈ resolved, r.kind ≠ Kind.unknown) := by
  rw [phaseResolve] at h
  cases hres : resolveBasicInfo cat st (newPlains st parsed) with
  | mk st₁ out =>
    cases out with
    | error e =>
      simp only [hres] at h
      exact absurd (congrArg Prod.snd h) (by simp)
    | ok resolved₁ =>
      simp only [hres] at h
      obtain ⟨hheap, hiq, hrc, hcc, hlog, hfm, hall⟩ := resolveBasicInfo_ok_spec hres
      by_cases hu : (resolved₁.filter (fun r => r.kind = Kind.unknown)).isEmpty
      · rw [if_pos hu] at h
        have hfst : ({ st₁ with resolveCache :=
            st₁.resolveCache ++ List.zip (newPlains st parsed) resolved₁ } : EngineState) = st' :=
          congrArg Prod.fst h
        have hsnd : (Except.ok resolved₁ : Except EngineError (List BasicInfo)) =
            .ok resolved := congrArg Prod.snd h
        obtain rfl := Except.ok.inj hsnd
        rw [← hfst]
        refine ⟨hheap, hiq, hcc, hlog, ?_, by rw [hrc], hfm, hall, ?_⟩
        · show st₁.queryCount ≥ st.queryCount
          rw [resolveBasicInfo] at hres
          by_cases he : (newPlains st parsed).isEmpty
          · rw [if_pos he] at hres
            have hst : st = st₁ := congrArg Prod.fst hres
            rw [← hst]
          · rw [if_neg he] at hres
            cases hm : firstMissing cat (newPlains st parsed) with
            | some p =>
              simp only [hm] at hres
              exact absurd (congrArg Prod.snd hres) (by simp)
            | none =>
              simp only [hm] at hres
              have : bumpQuery st = st₁ := congrArg Prod.fst hres
              rw [← this]
              simp [bumpQuery]
        · intro r hr hk
          have : r ∈ resolved₁.filter (fun r => r.kind = Kind.unknown) :=
            List.mem_filter.mpr ⟨hr, by simp [hk]⟩
          rw [List.isEmpty_iff] at hu
          rw [hu] at this
          simp at this
      · rw [if_neg hu] at h
        exact absurd (congrArg Prod.snd h) (by simp)

end TruePg

namespace TruePg

/-- If some freshly-needed plain name is missing from the catalog, phase 1
raises `unresolvedBasic` naming such a text, leaving the heap untouched. -/
theorem phaseResolve_missing_spec {cat : Catalog} {st : EngineState}
    {parsed : List ParsedType} {p : String}
    (hp : p ∈ newPlains st parsed) (hnone : lookupAssoc cat.basic p = none) :
    ∃ st' q, phaseResolve cat st parsed = (st', .error (.unresolvedBasic q))
      ∧ q ∈ newPlains st parsed ∧ lookupAssoc cat.basic q = none
      ∧ st'.heap = st.heap ∧ st'.internalQ = st.internalQ
      ∧ st'.canonCache = st.canonCache ∧ st'.detailLog = st.detailLog := by
  have hne : ¬(newPlains st parsed).isEmpty := by
    intro he
    rw [List.isEmpty_iff] at he
    rw [he] at hp
    simp at hp
  obtain ⟨q, hq⟩ := Option.isSome_iff_exists.mp (firstMissing_isSome hp hnone)
  obtain ⟨hq₁, hq₂⟩ := firstMissing_some hq
  refine ⟨bumpQuery st, q, ?_, hq₁, hq₂, rfl, rfl, rfl, rfl⟩
  rw [phaseResolve, resolveBasicInfo, if_neg hne]
  simp only [hq]

/-- If all freshly-needed plains resolve but one of them resolves to an
`unknown`-kind row, phase 1 raises `unknownKind` carrying (among others)
that row's canonical name, leaving the heap untouched. -/
theorem phaseResolve_unknown_spec {cat : Catalog} {st : EngineState}
    {parsed : List ParsedType}
    (hall : ∀ p ∈ newPlains st parsed, (lookupAssoc cat.basic p).isSome)
    {p : String} {info : BasicInfo}
    (hp : p ∈ newPlains st parsed) (hinfo : lookupAssoc cat.basic p = some info)
    (hk : info.kind = Kind.unknown) :
    ∃ st' names, phaseResolve cat st parsed = (st', .error (.unknownKind names))
      ∧ info.canonical_name ∈ names
      ∧ (∀ n ∈ names, ∃ r, r ∈ (newPlains st parsed).filterMap (lookupAssoc cat.basic)
          ∧ r.kind = Kind.unknown ∧ r.canonical_name = n)
      ∧ st'.heap = st.heap ∧ st'.internalQ = st.internalQ
      ∧ st'.canonCache = st.canonCache ∧ st'.detailLog = st.detailLog := by
  have hne : ¬(newPlains st parsed).isEmpty := by
    intro he
    rw [List.isEmpty_iff] at he
    rw [he] at hp
    simp at hp
  have hfm : firstMissing cat (newPlains st parsed) = none := by
    cases hm : firstMissing cat (newPlains st parsed) with
    | none => rfl
    | some q =>
      obtain ⟨hq₁, hq₂⟩ := firstMissing_some hm
      have := hall q hq₁
      rw [hq₂] at this
      simp at this
  have hmem : info ∈ (newPlains st parsed).filterMap (lookupAssoc cat.basic) :=
    List.mem_filterMap.mpr ⟨p, hp, hinfo⟩
  have hfilter : info ∈ ((newPlains st parsed).filterMap
      (lookupAssoc cat.basic)).filter (fun r => r.kind = Kind.unknown) :=
    List.mem_filter.mpr ⟨hmem, by simp [hk]⟩
  have hneu : ¬(((newPlains st parsed).filterMap
      (lookupAssoc cat.basic)).filter (fun r => r.kind = Kind.unknown)).isEmpty := by
    intro he
    rw [List.isEmpty_iff] at he
    rw [he] at hfilter
    simp at hfilter
  have hmain : phaseResolve cat st parsed =
      ({ bumpQuery st with
           resolveCache := (bumpQuery st).resolveCache ++
                             List.zip (newPlains st parsed)
                               ((newPlains st parsed).filterMap (lookupAssoc cat.basic)) },
       .error (.unknownKind ((((newPlains st parsed).filterMap
          (lookupAssoc cat.basic)).filter (fun r => r.kind = Kind.unknown)).map
            (fun r => r.canonical_name)))) := by
    rw [phaseResolve, resolveBasicInfo, if_neg hne]
    simp only [hfm, if_neg hneu]
  refine ⟨_, _, hmain, ?_, ?_, rfl, rfl, rfl, rfl⟩
  · exact List.mem_map.mpr ⟨info, hfilter, rfl⟩
  · intro n hn
    obtain ⟨r, hr, hrn⟩ := List.mem_map.mp hn
    obtain ⟨hr₁, hr₂⟩ := List.mem_filter.mp hr
    exact ⟨r, hr₁, by simpa using hr₂, hrn⟩

/-- Any phase-1 error is an `unresolvedBasic` or an `unknownKind`. -/
theorem phaseResolve_err_class {cat : Catalog} {st st' : EngineState}
    {parsed : List ParsedType} {e : EngineError}
    (h : phaseResolve cat st parsed = (st', .error e)) :
    (∃ p, e = .unresolvedBasic p) ∨ (∃ ns, e = .unknownKind ns) := by
  rw [phaseResolve] at h
  cases hres : resolveBasicInfo cat st (newPlains st parsed) with
  | mk st₁ out =>
    cases out with
    | error e₁ =>
      simp only [hres] at h
      rw [resolveBasicInfo] at hres
      by_cases he : (newPlains st parsed).isEmpty
      · rw [if_pos he] at hres
        exact absurd (congrArg Prod.snd hres) (by simp)
      · rw [if_neg he] at hres
        cases hm : firstMissing cat (newPlains st parsed) with
        | some p =>
          simp only [hm] at hres
          injection hres with hres₁ hres₂
          injection h with h₁ h₂
          obtain rfl := Except.error.inj hres₂
          obtain rfl := Except.error.inj h₂
          exact Or.inl ⟨p, rfl⟩
        | none =>
          simp only [hm] at hres
          exact absurd (congrArg Prod.snd hres) (by simp)
    | ok resolved₁ =>
      simp only [hres] at h
      by_cases hu : (resolved₁.filter (fun r => r.kind = Kind.unknown)).isEmpty
      · rw [if_pos hu] at h
        exact absurd (congrArg Prod.snd h) (by simp)
      · rw [if_neg hu] at h
        have h₂ := congrArg Prod.snd h
        simp only at h₂
        obtain rfl := Except.error.inj h₂
        exact Or.inr ⟨_, rfl⟩

/-- Phase-1 error states leave heap, internal queue, canon cache and log
untouched, and the resolve cache only grows. -/
theorem phaseResolve_err_state {cat : Catalog} {st st' : EngineState}
    {parsed : List ParsedType} {e : EngineError}
    (h : phaseResolve cat st parsed = (st', .error e)) :
    st'.heap = st.heap ∧ st'.internalQ = st.internalQ
    ∧ st'.canonCache = st.canonCache ∧ st'.detailLog = st.detailLog
    ∧ (∀ k v, lookupAssoc st.resolveCache k = some v →
        lookupAssoc st'.resolveCache k = some v) := by
  rw [phaseResolve] at h
  cases hres : resolveBasicInfo cat st (newPlains st parsed) with
  | mk st₁ out =>
    cases out with
    | error e₁ =>
      simp only [hres] at h
      have hfst : st₁ = st' := congrArg Prod.fst h
      rw [resolveBasicInfo] at hres
      by_cases he : (newPlains st parsed).isEmpty
      · rw [if_pos he] at hres
        exact absurd (congrArg Prod.snd hres) (by simp)
      · rw [if_neg he] at hres
        cases hm : firstMissing cat (newPlains st parsed) with
        | some p =>
          simp only [hm] at hres
          have hb : bumpQuery st = st₁ := congrArg Prod.fst hres
          rw [← hfst, ← hb]
          exact ⟨rfl, rfl, rfl, rfl, fun k v hv => hv⟩
        | none =>
          simp only [hm] at hres
          exact absurd (congrArg Prod.snd hres) (by simp)
    | ok resolved₁ =>
      simp only [hres] at h
      obtain ⟨hheap, hiq, hrc, hcc, hlog, _, _⟩ := resolveBasicInfo_ok_spec hres
      by_cases hu : (resolved₁.filter (fun r => r.kind = Kind.unknown)).isEmpty
      · rw [if_pos hu] at h
        exact absurd (congrArg Prod.snd h) (by simp)
      · rw [if_neg hu] at h
        have hfst : ({ st₁ with resolveCache :=
            st₁.resolveCache ++ List.zip (newPlains st parsed) resolved₁ } : EngineState) = st' :=
          congrArg Prod.fst h
        rw [← hfst]
        refine ⟨hheap, hiq, hcc, hlog, fun k v hv => ?_⟩
        show lookupAssoc (st₁.resolveCache ++ _) k = some v
        rw [hrc]
        exact lookupAssoc_append_some _ hv

end TruePg

/-! ## Batch-splitting phase lemmas -/

namespace TruePg

/-- Invariant of the batch-splitting loop over resolved rows `S`. -/
def BatchInv (cc : List (String × Excl)) (S : List BasicInfo) (acc : BatchAcc) : Prop :=
  (batchNames acc).Nodup
  ∧ (∀ n ∈ batchNames acc, lookupAssoc cc n = none ∧ n ∈ acc.seen)
  ∧ (∀ r ∈ acc.enums, r ∈ S ∧ r.kind = Kind.enum)
  ∧ (∀ r ∈ acc.composites, r ∈ S ∧ r.kind = Kind.composite)
  ∧ (∀ r ∈ acc.domains, r ∈ S ∧ r.kind = Kind.domain)
  ∧ (∀ r ∈ acc.ranges, r ∈ S ∧ r.kind = Kind.range)
  ∧ (∀ pr ∈ acc.cacheAdds, pr.2.canonical_name = pr.1
      ∧ ∃ r, r ∈ S ∧ r.canonical_name = pr.1)

theorem batchInv_empty (cc : List (String × Excl)) (S : List BasicInfo) :
    BatchInv cc S BatchAcc.empty := by
  refine ⟨?_, ?_, ?_, ?_, ?_, ?_, ?_⟩ <;>
    simp [BatchAcc.empty, batchNames]

theorem batchStep_cached {cc : List (String × Excl)} {acc : BatchAcc} {r : BasicInfo}
    (hcached : (lookupAssoc cc r.canonical_name).isSome) :
    batchStep cc acc r = acc := by
  rw [batchStep, if_pos hcached]

theorem batchStep_seen {cc : List (String × Excl)} {acc : BatchAcc} {r : BasicInfo}
    (hcached : ¬(lookupAssoc cc r.canonical_name).isSome)
    (hseen : r.canonical_name ∈ acc.seen) :
    batchStep cc acc r = acc := by
  rw [batchStep, if_neg hcached, if_pos hseen]

theorem batchStep_fresh_enum {cc : List (String × Excl)} {acc : BatchAcc} {r : BasicInfo}
    (hcached : ¬(lookupAssoc cc r.canonical_name).isSome)
    (hseen : r.canonical_name ∉ acc.seen) (hk : r.kind = Kind.enum) :
    batchStep cc acc r =
      { acc with seen := acc.seen ++ [r.canonical_name], enums := acc.enums ++ [r] } := by
  rw [batchStep, if_neg hcached, if_neg hseen]
  simp [hk]

theorem batchStep_fresh_composite {cc : List (String × Excl)} {acc : BatchAcc} {r : BasicInfo}
    (hcached : ¬(lookupAssoc cc r.canonical_name).isSome)
    (hseen : r.canonical_name ∉ acc.seen) (hk : r.kind = Kind.composite) :
    batchStep cc acc r =
      { acc with seen := acc.seen ++ [r.canonical_name],
                 composites := acc.composites ++ [r] } := by
  rw [batchStep, if_neg hcached, if_neg hseen]
  simp [hk]

theorem batchStep_fresh_domain {cc : List (String × Excl)} {acc : BatchAcc} {r : BasicInfo}
    (hcached : ¬(lookupAssoc cc r.canonical_name).isSome)
    (hseen : r.canonical_name ∉ acc.seen) (hk : r.kind = Kind.domain) :
    batchStep cc acc r =
      { acc with seen := acc.seen ++ [r.canonical_name], domains := acc.domains ++ [r] } := by
  rw [batchStep, if_neg hcached, if_neg hseen]
  simp [hk]

theorem batchStep_fresh_range {cc : List (String × Excl)} {acc : BatchAcc} {r : BasicInfo}
    (hcached : ¬(lookupAssoc cc r.canonical_name).isSome)
    (hseen : r.canonical_name ∉ acc.seen) (hk : r.kind = Kind.range) :
    batchStep cc acc r =
      { acc with seen := acc.seen ++ [r.canonical_name], ranges := acc.ranges ++ [r] } := by
  rw [batchStep, if_neg hcached, if_neg hseen]
  simp [hk]

theorem batchStep_fresh_base {cc : List (String × Excl)} {acc : BatchAcc} {r : BasicInfo}
    (hcached : ¬(lookupAssoc cc r.canonical_name).isSome)
    (hseen : r.canonical_name ∉ acc.seen) (hk : r.kind = Kind.base) :
    batchStep cc acc r =
      { acc with seen := acc.seen ++ [r.canonical_name],
                 cacheAdds := acc.cacheAdds ++ [(r.canonical_name,
                   { kind := r.kind, canonical_name := r.canonical_name,
                     payload := ExclPayload.base })] } := by
  rw [batchStep, if_neg hcached, if_neg hseen]
  simp [hk]

theorem batchStep_fresh_pseudo {cc : List (String × Excl)} {acc : BatchAcc} {r : BasicInfo}
    (hcached : ¬(lookupAssoc cc r.canonical_name).isSome)
    (hseen : r.canonical_name ∉ acc.seen) (hk : r.kind = Kind.pseudo) :
    batchStep cc acc r =
      { acc with seen := acc.seen ++ [r.canonical_name],
                 cacheAdds := acc.cacheAdds ++ [(r.canonical_name,
                   { kind := r.kind, canonical_name := r.canonical_name,
                     payload := ExclPayload.pseudo })] } := by
  rw [batchStep, if_neg hcached, if_neg hseen]
  simp [hk]

theorem batchStep_fresh_unknown {cc : List (String × Excl)} {acc : BatchAcc} {r : BasicInfo}
    (hcached : ¬(lookupAssoc cc r.canonical_name).isSome)
    (hseen : r.canonical_name ∉ acc.seen) (hk : r.kind = Kind.unknown) :
    batchStep cc acc r = { acc with seen := acc.seen ++ [r.canonical_name] } := by
  rw [batchStep, if_neg hcached, if_neg hseen]
  simp [hk]

end TruePg

namespace TruePg

theorem batchNames_perm_enum (acc : BatchAcc) (s : List String) (r : BasicInfo) :
    List.Perm
      (batchNames { acc with seen := s, enums := acc.enums ++ [r] })
      (r.canonical_name :: batchNames acc) := by
  show List.Perm
    ((acc.enums ++ [r]).map (fun x => x.canonical_name) ++
      acc.composites.map (fun x => x.canonical_name) ++
      acc.domains.map (fun x => x.canonical_name) ++
      acc.ranges.map (fun x => x.canonical_name)) _
  have h₁ : (acc.enums ++ [r]).map (fun x => x.canonical_name) ++
      acc.composites.map (fun x => x.canonical_name) ++
      acc.domains.map (fun x => x.canonical_name) ++
      acc.ranges.map (fun x => x.canonical_name) =
      acc.enums.map (fun x => x.canonical_name) ++ r.canonical_name ::
        (acc.composites.map (fun x => x.canonical_name) ++
          (acc.domains.map (fun x => x.canonical_name) ++
            acc.ranges.map (fun x => x.canonical_name))) := by
    simp [List.append_assoc]
  have h₂ : batchNames acc =
      acc.enums.map (fun x => x.canonical_name) ++
        (acc.composites.map (fun x => x.canonical_name) ++
          (acc.domains.map (fun x => x.canonical_name) ++
            acc.ranges.map (fun x => x.canonical_name))) := by
    simp [batchNames, List.append_assoc]
  rw [h₁, h₂]
  exact List.perm_middle

theorem batchNames_perm_composite (acc : BatchAcc) (s : List String) (r : BasicInfo) :
    List.Perm
      (batchNames { acc with seen := s, composites := acc.composites ++ [r] })
      (r.canonical_name :: batchNames acc) := by
  show List.Perm
    (acc.enums.map (fun x => x.canonical_name) ++
      (acc.composites ++ [r]).map (fun x => x.canonical_name) ++
      acc.domains.map (fun x => x.canonical_name) ++
      acc.ranges.map (fun x => x.canonical_name)) _
  have h₁ : acc.enums.map (fun x => x.canonical_name) ++
      (acc.composites ++ [r]).map (fun x => x.canonical_name) ++
      acc.domains.map (fun x => x.canonical_name) ++
      acc.ranges.map (fun x => x.canonical_name) =
      (acc.enums.map (fun x => x.canonical_name) ++
        acc.composites.map (fun x => x.canonical_name)) ++ r.canonical_name ::
        (acc.domains.map (fun x => x.canonical_name) ++
          acc.ranges.map (fun x => x.canonical_name)) := by
    simp [List.append_assoc]
  have h₂ : batchNames acc =
      (acc.enums.map (fun x => x.canonical_name) ++
        acc.composites.map (fun x => x.canonical_name)) ++
        (acc.domains.map (fun x => x.canonical_name) ++
          acc.ranges.map (fun x => x.canonical_name)) := by
    simp [batchNames, List.append_assoc]
  rw [h₁, h₂]
  exact List.perm_middle

theorem batchNames_perm_domain (acc : BatchAcc) (s : List String) (r : BasicInfo) :
    List.Perm
      (batchNames { acc with seen := s, domains := acc.domains ++ [r] })
      (r.canonical_name :: batchNames acc) := by
  show List.Perm
    (acc.enums.map (fun x => x.canonical_name) ++
      acc.composites.map (fun x => x.canonical_name) ++
      (acc.domains ++ [r]).map (fun x => x.canonical_name) ++
      acc.ranges.map (fun x => x.canonical_name)) _
  have h₁ : acc.enums.map (fun x => x.canonical_name) ++
      acc.composites.map (fun x => x.canonical_name) ++
      (acc.domains ++ [r]).map (fun x => x.canonical_name) ++
      acc.ranges.map (fun x => x.canonical_name) =
      (acc.enums.map (fun x => x.canonical_name) ++
        acc.composites.map (fun x => x.canonical_name) ++
        acc.domains.map (fun x => x.canonical_name)) ++ r.canonical_name ::
        acc.ranges.map (fun x => x.canonical_name) := by
    simp [List.append_assoc]
  have h₂ : batchNames acc =
      (acc.enums.map (fun x => x.canonical_name) ++
        acc.composites.map (fun x => x.canonical_name) ++
        acc.domains.map (fun x => x.canonical_name)) ++
        acc.ranges.map (fun x => x.canonical_name) := by
    simp [batchNames, List.append_assoc]
  rw [h₁, h₂]
  exact List.perm_middle

theorem batchNames_perm_range (acc : BatchAcc) (s : List String) (r : BasicInfo) :
    List.Perm
      (batchNames { acc with seen := s, ranges := acc.ranges ++ [r] })
      (r.canonical_name :: batchNames acc) := by
  show List.Perm
    (acc.enums.map (fun x => x.canonical_name) ++
      acc.composites.map (fun x => x.canonical_name) ++
      acc.domains.map (fun x => x.canonical_name) ++
      (acc.ranges ++ [r]).map (fun x => x.canonical_name)) _
  have h₁ : acc.enums.map (fun x => x.canonical_name) ++
      acc.composites.map (fun x => x.canonical_name) ++
      acc.domains.map (fun x => x.canonical_name) ++
      (acc.ranges ++ [r]).map (fun x => x.canonical_name) =
      (acc.enums.map (fun x => x.canonical_name) ++
        acc.composites.map (fun x => x.canonical_name) ++
        acc.domains.map (fun x => x.canonical_name) ++
        acc.ranges.map (fun x => x.canonical_name)) ++ r.canonical_name :: [] := by
    simp [List.append_assoc]
  have h₂ : batchNames acc =
      (acc.enums.map (fun x => x.canonical_name) ++
        acc.composites.map (fun x => x.canonical_name) ++
        acc.domains.map (fun x => x.canonical_name) ++
        acc.ranges.map (fun x => x.canonical_name)) ++ [] := by
    simp [batchNames, List.append_assoc]
  rw [h₁, h₂]
  exact List.perm_middle

theorem batchStep_inv {cc : List (String × Excl)} {S : List BasicInfo}
    {acc : BatchAcc} {r : BasicInfo}
    (hinv : BatchInv cc S acc) (hr : r ∈ S) :
    BatchInv cc S (batchStep cc acc r) := by
  obtain ⟨hnodup, hfresh, he, hc, hd, hg, hadds⟩ := hinv
  by_cases hcached : (lookupAssoc cc r.canonical_name).isSome
  · rw [batchStep_cached hcached]
    exact ⟨hnodup, hfresh, he, hc, hd, hg, hadds⟩
  · by_cases hseen : r.canonical_name ∈ acc.seen
    · rw [batchStep_seen hcached hseen]
      exact ⟨hnodup, hfresh, he, hc, hd, hg, hadds⟩
    · have hfreshn : lookupAssoc cc r.canonical_name = none :=
        Option.not_isSome_iff_eq_none.mp hcached
      have hnotbn : r.canonical_name ∉ batchNames acc := fun hmem =>
        hseen (hfresh _ hmem).2
      rcases hk : r.kind with _ | _ | _ | _ | _ | _ | _
      · -- base
        rw [batchStep_fresh_base hcached hseen hk]
        refine ⟨by simpa [batchNames] using hnodup, ?_, he, hc, hd, hg, ?_⟩
        · intro n hn
          obtain ⟨h₁, h₂⟩ := hfresh n (by simpa [batchNames] using hn)
          exact ⟨h₁, List.mem_append_left _ h₂⟩
        · intro pr hpr
          rcases List.mem_append.mp hpr with h₁ | h₁
          · exact hadds pr h₁
          · obtain rfl := List.mem_singleton.mp h₁
            exact ⟨rfl, ⟨r, hr, rfl⟩⟩
      · -- composite
        rw [batchStep_fresh_composite hcached hseen hk]
        have hperm := batchNames_perm_composite acc (acc.seen ++ [r.canonical_name]) r
        refine ⟨?_, ?_, he, ?_, hd, hg, hadds⟩
        · rw [hperm.nodup_iff]
          exact List.nodup_cons.mpr ⟨hnotbn, hnodup⟩
        · intro n hn
          rcases List.mem_cons.mp (hperm.mem_iff.mp hn) with rfl | h₃
          · exact ⟨hfreshn, List.mem_append_right _ (List.mem_singleton.mpr rfl)⟩
          · obtain ⟨ha, hb⟩ := hfresh n h₃
            exact ⟨ha, List.mem_append_left _ hb⟩
        · intro x hx
          rcases List.mem_append.mp hx with h₃ | h₃
          · exact hc x h₃
          · obtain rfl := List.mem_singleton.mp h₃
            exact ⟨hr, hk⟩
      · -- domain
        rw [batchStep_fresh_domain hcached hseen hk]
        have hperm := batchNames_perm_domain acc (acc.seen ++ [r.canonical_name]) r
        refine ⟨?_, ?_, he, hc, ?_, hg, hadds⟩
        · rw [hperm.nodup_iff]
          exact List.nodup_cons.mpr ⟨hnotbn, hnodup⟩
        · intro n hn
          rcases List.mem_cons.mp (hperm.mem_iff.mp hn) with rfl | h₃
          · exact ⟨hfreshn, List.mem_append_right _ (List.mem_singleton.mpr rfl)⟩
          · obtain ⟨ha, hb⟩ := hfresh n h₃
            exact ⟨ha, List.mem_append_left _ hb⟩
        · intro x hx
          rcases List.mem_append.mp hx with h₃ | h₃
          · exact hd x h₃
          · obtain rfl := List.mem_singleton.mp h₃
            exact ⟨hr, hk⟩
      · -- enum
        rw [batchStep_fresh_enum hcached hseen hk]
        have hperm := batchNames_perm_enum acc (acc.seen ++ [r.canonical_name]) r
        refine ⟨?_, ?_, ?_, hc, hd, hg, hadds⟩
        · rw [hperm.nodup_iff]
          exact List.nodup_cons.mpr ⟨hnotbn, hnodup⟩
        · intro n hn
          rcases List.mem_cons.mp (hperm.mem_iff.mp hn) with rfl | h₃
          · exact ⟨hfreshn, List.mem_append_right _ (List.mem_singleton.mpr rfl)⟩
          · obtain ⟨ha, hb⟩ := hfresh n h₃
            exact ⟨ha, List.mem_append_left _ hb⟩
        · intro x hx
          rcases List.mem_append.mp hx with h₃ | h₃
          · exact he x h₃
          · obtain rfl := List.mem_singleton.mp h₃
            exact ⟨hr, hk⟩
      · -- range
        rw [batchStep_fresh_range hcached hseen hk]
        have hperm := batchNames_perm_range acc (acc.seen ++ [r.canonical_name]) r
        refine ⟨?_, ?_, he, hc, hd, ?_, hadds⟩
        · rw [hperm.nodup_iff]
          exact List.nodup_cons.mpr ⟨hnotbn, hnodup⟩
        · intro n hn
          rcases List.mem_cons.mp (hperm.mem_iff.mp hn) with rfl | h₃
          · exact ⟨hfreshn, List.mem_append_right _ (List.mem_singleton.mpr rfl)⟩
          · obtain ⟨ha, hb⟩ := hfresh n h₃
            exact ⟨ha, List.mem_append_left _ hb⟩
        · intro x hx
          rcases List.mem_append.mp hx with h₃ | h₃
          · exact hg x h₃
          · obtain rfl := List.mem_singleton.mp h₃
            exact ⟨hr, hk⟩
      · -- pseudo
        rw [batchStep_fresh_pseudo hcached hseen hk]
        refine ⟨by simpa [batchNames] using hnodup, ?_, he, hc, hd, hg, ?_⟩
        · intro n hn
          obtain ⟨h₁, h₂⟩ := hfresh n (by simpa [batchNames] using hn)
          exact ⟨h₁, List.mem_append_left _ h₂⟩
        · intro pr hpr
          rcases List.mem_append.mp hpr with h₁ | h₁
          · exact hadds pr h₁
          · obtain rfl := List.mem_singleton.mp h₁
            exact ⟨rfl, ⟨r, hr, rfl⟩⟩
      · -- unknown
        rw [batchStep_fresh_unknown hcached hseen hk]
        refine ⟨by simpa [batchNames] using hnodup, ?_, he, hc, hd, hg, hadds⟩
        intro n hn
        obtain ⟨h₁, h₂⟩ := hfresh n (by simpa [batchNames] using hn)
        exact ⟨h₁, List.mem_append_left _ h₂⟩

theorem foldl_batchStep_inv {cc : List (String × Excl)} {S : List BasicInfo} :
    ∀ {l : List BasicInfo} {acc : BatchAcc}, BatchInv cc S acc → (∀ r ∈ l, r ∈ S) →
      BatchInv cc S (l.foldl (batchStep cc) acc)
  | [], acc, hinv, _ => hinv
  | r :: rest, acc, hinv, hl => by
    rw [List.foldl_cons]
    exact foldl_batchStep_inv (batchStep_inv hinv (hl r (List.mem_cons_self ..)))
      (fun x hx => hl x (List.mem_cons_of_mem _ hx))

theorem phaseBatch_inv (st : EngineState) (resolved : List BasicInfo) :
    BatchInv st.canonCache resolved (phaseBatch st resolved).2 :=
  foldl_batchStep_inv (batchInv_empty _ _) (fun _ hx => hx)

theorem phaseBatch_state (st : EngineState) (resolved : List BasicInfo) :
    (phaseBatch st resolved).1 =
      { st with canonCache := st.canonCache ++ (phaseBatch st resolved).2.cacheAdds,
                detailLog := st.detailLog ++ batchNames (phaseBatch st resolved).2 } := rfl

end TruePg

/-! ## Detail-phase composition -/

namespace TruePg

theorem nodup_out_append {q₁ q₂ : List QueueMember} (bnd : Nat)
    (h₁ : (q₁.map (fun m => m.out)).Nodup) (h₂ : (q₂.map (fun m => m.out)).Nodup)
    (hb₁ : ∀ m ∈ q₁, m.out < bnd) (hb₂ : ∀ m ∈ q₂, bnd ≤ m.out) :
    ((q₁ ++ q₂).map (fun m => m.out)).Nodup := by
  rw [List.map_append]
  refine List.Nodup.append h₁ h₂ ?_
  intro x hx hx'
  obtain ⟨m, hm, rfl⟩ := List.mem_map.mp hx
  obtain ⟨m', hm', he⟩ := List.mem_map.mp hx'
  have hlt := hb₁ m hm
  have hge := hb₂ m' hm'
  omega

theorem domainQueryRows_err {rows : List TypeRow} :
    ∀ {oids : List Nat} {e : EngineError},
      domainQueryRows rows oids = .error e → e = .chainTooDeep
  | [], e, h => by
    rw [domainQueryRows] at h
    exact absurd h (by simp)
  | oid :: rest, e, h => by
    rw [domainQueryRows] at h
    cases hfo : finalBaseOid rows oid with
    | none =>
      simp only [hfo] at h
      exact (Except.error.inj h).symm
    | some fo =>
      simp only [hfo] at h
      cases hrec : domainQueryRows rows rest with
      | error e' =>
        simp only [hrec] at h
        obtain rfl := Except.error.inj h
        exact domainQueryRows_err hrec
      | ok tail =>
        simp only [hrec] at h
        cases hft : findTypeRow rows fo with
        | none =>
          simp only [hft] at h
          exact absurd h (by simp)
        | some t =>
          simp only [hft] at h
          exact absurd h (by simp)

theorem finalBaseOid_isSome_of_chains {cat : Catalog} (hdom : DomainChainsOk cat)
    (oid : Nat) : finalBaseOid cat.typeRows oid ≠ none := by
  rw [finalBaseOid]
  cases hfind : findTypeRow cat.typeRows oid with
  | none => simp
  | some t =>
    simp only
    by_cases hd : t.isDomain
    · rw [if_pos hd]
      have ht : t ∈ cat.typeRows := List.mem_of_find?_eq_some hfind
      exact hdom t ht hd
    · rw [if_neg hd]
      simp

theorem domainQueryRows_no_deep {cat : Catalog} (hdom : DomainChainsOk cat) :
    ∀ (oids : List Nat) {e : EngineError},
      domainQueryRows cat.typeRows oids = .error e → False
  | [], e, h => by
    rw [domainQueryRows] at h
    exact absurd h (by simp)
  | oid :: rest, e, h => by
    rw [domainQueryRows] at h
    cases hfo : finalBaseOid cat.typeRows oid with
    | none => exact finalBaseOid_isSome_of_chains hdom oid hfo
    | some fo =>
      simp only [hfo] at h
      cases hrec : domainQueryRows cat.typeRows rest with
      | error e' =>
        simp only [hrec] at h
        exact domainQueryRows_no_deep hdom rest hrec
      | ok tail =>
        simp only [hrec] at h
        cases hft : findTypeRow cat.typeRows fo with
        | none =>
          simp only [hft] at h
          exact absurd h (by simp)
        | some t =>
          simp only [hft] at h
          exact absurd h (by simp)

theorem getDomainDetails_err_class {cat : Catalog} {st st' : EngineState}
    {entries : List BasicInfo} {e : EngineError}
    (h : getDomainDetails cat st entries = (st', .error e)) :
    e = .chainTooDeep ∨ e = .domainMismatch := by
  rw [getDomainDetails] at h
  by_cases he : entries.isEmpty
  · rw [if_pos he] at h
    exact absurd (congrArg Prod.snd h) (by simp)
  · rw [if_neg he] at h
    cases hq : domainQueryRows cat.typeRows (entries.map (fun e => e.oid)) with
    | error e' =>
      simp only [hq] at h
      injection h with h₁ h₂
      obtain rfl := Except.error.inj h₂
      exact Or.inl (domainQueryRows_err hq)
    | ok results =>
      simp only [hq] at h
      by_cases hl : results.length = entries.length
      · rw [if_neg (show ¬(results.length ≠ entries.length) from fun hc => hc hl)] at h
        exact absurd (congrArg Prod.snd h) (by simp)
      · rw [if_pos hl] at h
        injection h with h₁ h₂
        obtain rfl := Except.error.inj h₂
        exact Or.inr rfl

theorem getDomainDetails_err_chains {cat : Catalog} {st st' : EngineState}
    {entries : List BasicInfo} {e : EngineError} (hdom : DomainChainsOk cat)
    (h : getDomainDetails cat st entries = (st', .error e)) :
    e = .domainMismatch := by
  rcases getDomainDetails_err_class h with rfl | rfl
  · exfalso
    rw [getDomainDetails] at h
    by_cases he : entries.isEmpty
    · rw [if_pos he] at h
      exact absurd (congrArg Prod.snd h) (by simp)
    · rw [if_neg he] at h
      cases hq : domainQueryRows cat.typeRows (entries.map (fun e => e.oid)) with
      | error e' => exact domainQueryRows_no_deep hdom _ hq
      | ok results =>
        simp only [hq] at h
        by_cases hl : results.length = entries.length
        · rw [if_neg (show ¬(results.length ≠ entries.length) from fun hc => hc hl)] at h
          exact absurd (congrArg Prod.snd h) (by simp)
        · rw [if_pos hl] at h
          injection h with h₁ h₂
          exact absurd (Except.error.inj h₂) (by simp)
  · rfl

theorem getRangeDetails_err_class {cat : Catalog} {st st' : EngineState}
    {entries : List BasicInfo} {e : EngineError}
    (h : getRangeDetails cat st entries = (st', .error e)) :
    e = .rangeMismatch := by
  rw [getRangeDetails] at h
  by_cases he : entries.isEmpty
  · rw [if_pos he] at h
    exact absurd (congrArg Prod.snd h) (by simp)
  · rw [if_neg he] at h
    by_cases hl : (entries.filterMap (fun e =>
        (findTypeRow cat.typeRows e.oid).map (fun t => t.qname))).length = entries.length
    · rw [if_neg (show ¬((entries.filterMap (fun e =>
        (findTypeRow cat.typeRows e.oid).map (fun t => t.qname))).length ≠ entries.length)
        from fun hc => hc hl)] at h
      exact absurd (congrArg Prod.snd h) (by simp)
    · rw [if_pos hl] at h
      injection h with h₁ h₂
      exact (Except.error.inj h₂).symm

end TruePg

namespace TruePg

/-- Generalisation of `DetailOut` over an arbitrary name universe `N`,
closed under sequential composition of detail resolvers. -/
structure DetailsOut (st st' : EngineState) (N : List String)
    (excls : List Excl) : Prop where
  rcache : st'.resolveCache = st.resolveCache
  ccache : st'.canonCache = st.canonCache
  dlog : st'.detailLog = st.detailLog
  heapPrefix : ∃ ext, st'.heap = st.heap ++ ext ∧ ∀ x ∈ ext, x = none
  iq : ∃ newq, st'.internalQ = st.internalQ ++ newq
    ∧ (∀ m ∈ newq, st.heap.length ≤ m.out ∧ m.out < st'.heap.length)
    ∧ (newq.map (fun m => m.out)).Nodup
    ∧ (newq ≠ [] → excls ≠ [])
  names : ∀ x ∈ excls, x.canonical_name ∈ N

theorem DetailOut.toDetails {st st' : EngineState} {entries : List BasicInfo}
    {excls : List Excl} (d : DetailOut st st' entries excls) :
    DetailsOut st st' (entries.map (fun e => e.canonical_name)) excls :=
  { rcache := d.rcache, ccache := d.ccache, dlog := d.dlog
    heapPrefix := d.heapPrefix, iq := d.iq, names := d.names }

theorem DetailsOut.weaken {st st' : EngineState} {N N' : List String}
    {excls : List Excl} (hN : ∀ n ∈ N, n ∈ N')
    (d : DetailsOut st st' N excls) : DetailsOut st st' N' excls :=
  { rcache := d.rcache, ccache := d.ccache, dlog := d.dlog
    heapPrefix := d.heapPrefix, iq := d.iq
    names := fun x hx => hN _ (d.names x hx) }

theorem DetailsOut.trans {st₁ st₂ st₃ : EngineState} {N : List String}
    {x₁ x₂ : List Excl}
    (d₁ : DetailsOut st₁ st₂ N x₁) (d₂ : DetailsOut st₂ st₃ N x₂) :
    DetailsOut st₁ st₃ N (x₁ ++ x₂) := by
  obtain ⟨e₁, he₁, hn₁⟩ := d₁.heapPrefix
  obtain ⟨e₂, he₂, hn₂⟩ := d₂.heapPrefix
  obtain ⟨q₁, hq₁, hb₁, hnd₁, hne₁⟩ := d₁.iq
  obtain ⟨q₂, hq₂, hb₂, hnd₂, hne₂⟩ := d₂.iq
  have l₂ : st₂.heap.length = st₁.heap.length + e₁.length := by
    rw [he₁]; simp
  have l₃ : st₃.heap.length = st₂.heap.length + e₂.length := by
    rw [he₂]; simp
  refine { rcache := by rw [d₂.rcache, d₁.rcache]
           ccache := by rw [d₂.ccache, d₁.ccache]
           dlog := by rw [d₂.dlog, d₁.dlog]
           heapPrefix := ⟨e₁ ++ e₂, ?_, ?_⟩
           iq := ⟨q₁ ++ q₂, ?_, ?_, ?_, ?_⟩
           names := ?_ }
  · rw [he₂, he₁, List.append_assoc]
  · intro x hx
    rcases List.mem_append.mp hx with h | h
    · exact hn₁ x h
    · exact hn₂ x h
  · rw [hq₂, hq₁, List.append_assoc]
  · intro m hm
    rcases List.mem_append.mp hm with h | h
    · have := hb₁ m h
      omega
    · have := hb₂ m h
      omega
  · refine nodup_out_append st₂.heap.length hnd₁ hnd₂ ?_ ?_
    · intro m hm
      exact (hb₁ m hm).2
    · intro m hm
      exact (hb₂ m hm).1
  · intro hq hx
    rw [List.append_eq_nil] at hx
    obtain ⟨hxa, hxb⟩ := hx
    have hq1 : q₁ = [] := by
      by_cases h : q₁ = []
      · exact h
      · exact absurd hxa (hne₁ h)
    have hq2 : q₂ = [] := by
      by_cases h : q₂ = []
      · exact h
      · exact absurd hxb (hne₂ h)
    rw [hq1, hq2] at hq
    exact hq rfl
  · intro x hx
    rcases List.mem_append.mp hx with h | h
    · exact d₁.names x h
    · exact d₂.names x h

theorem mem_batchNames_enum {b : BatchAcc} {n : String}
    (h : n ∈ b.enums.map (fun r => r.canonical_name)) : n ∈ batchNames b := by
  simp only [batchNames, List.mem_append]
  exact Or.inl (Or.inl (Or.inl h))

theorem mem_batchNames_composite {b : BatchAcc} {n : String}
    (h : n ∈ b.composites.map (fun r => r.canonical_name)) : n ∈ batchNames b := by
  simp only [batchNames, List.mem_append]
  exact Or.inl (Or.inl (Or.inr h))

theorem mem_batchNames_domain {b : BatchAcc} {n : String}
    (h : n ∈ b.domains.map (fun r => r.canonical_name)) : n ∈ batchNames b := by
  simp only [batchNames, List.mem_append]
  exact Or.inl (Or.inr h)

theorem mem_batchNames_range {b : BatchAcc} {n : String}
    (h : n ∈ b.ranges.map (fun r => r.canonical_name)) : n ∈ batchNames b := by
  simp only [batchNames, List.mem_append]
  exact Or.inr h

/-- A successful detail phase: it behaves as one composed detail resolver
over the batch's names, and then appends exactly the produced details,
keyed by their canonical names, to `canonCache`. -/
theorem phaseDetails_ok_spec {cat : Catalog} {st st' : EngineState} {b : BatchAcc}
    (h : phaseDetails cat st b = (st', .ok ())) :
    ∃ adds : List (String × Excl),
      st'.resolveCache = st.resolveCache
      ∧ st'.detailLog = st.detailLog
      ∧ st'.canonCache = st.canonCache ++ adds
      ∧ (∀ pr ∈ adds, pr.2.canonical_name = pr.1 ∧ pr.1 ∈ batchNames b)
      ∧ (∃ ext, st'.heap = st.heap ++ ext ∧ ∀ x ∈ ext, x = none)
      ∧ (∃ newq, st'.internalQ = st.internalQ ++ newq
          ∧ (∀ m ∈ newq, st.heap.length ≤ m.out ∧ m.out < st'.heap.length)
          ∧ (newq.map (fun m => m.out)).Nodup
          ∧ (newq ≠ [] → adds ≠ [])) := by
  rw [phaseDetails] at h
  have T₁ : DetailsOut st (getEnumDetails cat st b.enums).1 (batchNames b)
      (getEnumDetails cat st b.enums).2 :=
    (getEnumDetails_shape cat st b.enums).toDetails.weaken
      (fun n hn => mem_batchNames_enum hn)
  have T₂ : DetailsOut (getEnumDetails cat st b.enums).1
      (getCompositeDetails cat (getEnumDetails cat st b.enums).1 b.composites).1
      (batchNames b)
      (getCompositeDetails cat (getEnumDetails cat st b.enums).1 b.composites).2 :=
    (getCompositeDetails_shape cat (getEnumDetails cat st b.enums).1
      b.composites).toDetails.weaken (fun n hn => mem_batchNames_composite hn)
  cases hdom : getDomainDetails cat
      (getCompositeDetails cat (getEnumDetails cat st b.enums).1 b.composites).1 b.domains with
  | mk st₃ outd =>
    cases outd with
    | error e =>
      simp only [hdom] at h
      exact absurd (congrArg Prod.snd h) (by simp)
    | ok domRes =>
      simp only [hdom] at h
      have T₃ : DetailsOut
          (getCompositeDetails cat (getEnumDetails cat st b.enums).1 b.composites).1
          st₃ (batchNames b) domRes :=
        (getDomainDetails_ok_shape hdom).toDetails.weaken
          (fun n hn => mem_batchNames_domain hn)
      cases hrng : getRangeDetails cat st₃ b.ranges with
      | mk st₄ outr =>
        cases outr with
        | error e =>
          simp only [hrng] at h
          exact absurd (congrArg Prod.snd h) (by simp)
        | ok rangeRes =>
          simp only [hrng] at h
          have T₄ : DetailsOut st₃ st₄ (batchNames b) rangeRes :=
            (getRangeDetails_ok_shape hrng).toDetails.weaken
              (fun n hn => mem_batchNames_range hn)
          have T := ((T₁.trans T₂).trans T₃).trans T₄
          have hst : ({ st₄ with canonCache := st₄.canonCache ++
              ((getEnumDetails cat st b.enums).2 ++
               (getCompositeDetails cat (getEnumDetails cat st b.enums).1 b.composites).2 ++
               domRes ++ rangeRes).map (fun e => (e.canonical_name, e)) } : EngineState)
              = st' := congrArg Prod.fst h
          obtain ⟨ext, hext, hnext⟩ := T.heapPrefix
          obtain ⟨newq, hnewq, hbound, hnodup, hneq⟩ := T.iq
          refine ⟨((getEnumDetails cat st b.enums).2 ++
               (getCompositeDetails cat (getEnumDetails cat st b.enums).1 b.composites).2 ++
               domRes ++ rangeRes).map (fun e => (e.canonical_name, e)),
            ?_, ?_, ?_, ?_, ⟨ext, ?_, hnext⟩, ⟨newq, ?_, ?_, hnodup, ?_⟩⟩
          · rw [← hst]
            show st₄.resolveCache = st.resolveCache
            exact T.rcache
          · rw [← hst]
            show st₄.detailLog = st.detailLog
            exact T.dlog
          · rw [← hst]
            show st₄.canonCache ++ _ = st.canonCache ++ _
            rw [T.ccache]
          · intro pr hpr
            obtain ⟨x, hx, rfl⟩ := List.mem_map.mp hpr
            exact ⟨rfl, T.names x hx⟩
          · rw [← hst]
            show st₄.heap = st.heap ++ ext
            exact hext
          · rw [← hst]
            show st₄.internalQ = st.internalQ ++ newq
            exact hnewq
          · intro m hm
            have := hbound m hm
            rw [← hst]
            show st.heap.length ≤ m.out ∧ m.out < st₄.heap.length
            exact this
          · intro hne hM
            have hL : (getEnumDetails cat st b.enums).2 ++
                (getCompositeDetails cat (getEnumDetails cat st b.enums).1 b.composites).2 ++
                domRes ++ rangeRes = [] := by
              cases hl : (getEnumDetails cat st b.enums).2 ++
                  (getCompositeDetails cat (getEnumDetails cat st b.enums).1 b.composites).2 ++
                  domRes ++ rangeRes with
              | nil => rfl
              | cons a t =>
                rw [hl] at hM
                simp at hM
            exact (hneq hne) hL

end TruePg

namespace TruePg

/-- A failed detail phase leaves both caches and the log untouched, and the
error is one of the domain/range detail failures. -/
theorem phaseDetails_err_spec {cat : Catalog} {st st' : EngineState} {b : BatchAcc}
    {e : EngineError} (h : phaseDetails cat st b = (st', .error e)) :
    st'.resolveCache = st.resolveCache
    ∧ st'.detailLog = st.detailLog
    ∧ st'.canonCache = st.canonCache
    ∧ (e = .chainTooDeep ∨ e = .domainMismatch ∨ e = .rangeMismatch) := by
  rw [phaseDetails] at h
  have T₁ : DetailsOut st (getEnumDetails cat st b.enums).1 (batchNames b)
      (getEnumDetails cat st b.enums).2 :=
    (getEnumDetails_shape cat st b.enums).toDetails.weaken
      (fun n hn => mem_batchNames_enum hn)
  have T₂ : DetailsOut (getEnumDetails cat st b.enums).1
      (getCompositeDetails cat (getEnumDetails cat st b.enums).1 b.composites).1
      (batchNames b)
      (getCompositeDetails cat (getEnumDetails cat st b.enums).1 b.composites).2 :=
    (getCompositeDetails_shape cat (getEnumDetails cat st b.enums).1
      b.composites).toDetails.weaken (fun n hn => mem_batchNames_composite hn)
  have T := T₁.trans T₂
  cases hdom : getDomainDetails cat
      (getCompositeDetails cat (getEnumDetails cat st b.enums).1 b.composites).1 b.domains with
  | mk st₃ outd =>
    cases outd with
    | error e' =>
      simp only [hdom] at h
      injection h with h₁ h₂
      obtain rfl := Except.error.inj h₂
      subst h₁
      obtain ⟨hh, hiq, hcc, hrc, hlog⟩ := getDomainDetails_err_shape hdom
      refine ⟨?_, ?_, ?_, ?_⟩
      · rw [hrc, T.rcache]
      · rw [hlog, T.dlog]
      · rw [hcc, T.ccache]
      · rcases getDomainDetails_err_class hdom with h | h
        · exact Or.inl h
        · exact Or.inr (Or.inl h)
    | ok domRes =>
      simp only [hdom] at h
      have T₃ : DetailsOut
          (getCompositeDetails cat (getEnumDetails cat st b.enums).1 b.composites).1
          st₃ (batchNames b) domRes :=
        (getDomainDetails_ok_shape hdom).toDetails.weaken
          (fun n hn => mem_batchNames_domain hn)
      have T' := T.trans T₃
      cases hrng : getRangeDetails cat st₃ b.ranges with
      | mk st₄ outr =>
        cases outr with
        | error e' =>
          simp only [hrng] at h
          injection h with h₁ h₂
          obtain rfl := Except.error.inj h₂
          subst h₁
          obtain ⟨hh, hiq, hcc, hrc, hlog⟩ := getRangeDetails_err_shape hrng
          refine ⟨?_, ?_, ?_, ?_⟩
          · rw [hrc, T'.rcache]
          · rw [hlog, T'.dlog]
          · rw [hcc, T'.ccache]
          · exact Or.inr (Or.inr (getRangeDetails_err_class hrng))
        | ok rangeRes =>
          simp only [hrng] at h
          exact absurd (congrArg Prod.snd h) (by simp)

/-- With every domain chain terminating, the detail phase never reports the
diverging-chain marker. -/
theorem phaseDetails_err_chains {cat : Catalog} {st st' : EngineState} {b : BatchAcc}
    {e : EngineError} (hdomok : DomainChainsOk cat)
    (h : phaseDetails cat st b = (st', .error e)) :
    e = .domainMismatch ∨ e = .rangeMismatch := by
  rw [phaseDetails] at h
  cases hdom : getDomainDetails cat
      (getCompositeDetails cat (getEnumDetails cat st b.enums).1 b.composites).1 b.domains with
  | mk st₃ outd =>
    cases outd with
    | error e' =>
      simp only [hdom] at h
      injection h with h₁ h₂
      obtain rfl := Except.error.inj h₂
      exact Or.inl (getDomainDetails_err_chains hdomok hdom)
    | ok domRes =>
      simp only [hdom] at h
      cases hrng : getRangeDetails cat st₃ b.ranges with
      | mk st₄ outr =>
        cases outr with
        | error e' =>
          simp only [hrng] at h
          injection h with h₁ h₂
          obtain rfl := Except.error.inj h₂
          exact Or.inr (getRangeDetails_err_class hrng)
        | ok rangeRes =>
          simp only [hrng] at h
          exact absurd (congrArg Prod.snd h) (by simp)

end TruePg

/-! ## Patch-phase lemmas -/

namespace TruePg

theorem getElem?_set_self {α : Type} :
    ∀ (l : List α) (i : Nat) (a : α), i < l.length → (l.set i a)[i]? = some a
  | [], i, a, h => by simp at h
  | x :: xs, 0, a, h => by simp
  | x :: xs, i + 1, a, h => by
    have ih := getElem?_set_self xs i a (by simpa using h)
    simpa using ih

theorem getElem?_set_ne {α : Type} :
    ∀ (l : List α) (i j : Nat) (a : α), i ≠ j → (l.set i a)[j]? = l[j]?
  | [], i, j, a, h => by simp
  | x :: xs, 0, 0, a, h => absurd rfl h
  | x :: xs, 0, j + 1, a, h => by simp
  | x :: xs, i + 1, 0, a, h => by simp
  | x :: xs, i + 1, j + 1, a, h => by
    have ih := getElem?_set_ne xs i j a (fun hc => h (by rw [hc]))
    simpa using ih

theorem getElem?_append_lt {α : Type} :
    ∀ (l₁ l₂ : List α) (i : Nat), i < l₁.length → (l₁ ++ l₂)[i]? = l₁[i]?
  | [], _, i, h => by simp at h
  | x :: xs, l₂, 0, h => by simp
  | x :: xs, l₂, i + 1, h => by
    have ih := getElem?_append_lt xs l₂ i (by simpa using h)
    simpa using ih

/-- The fill loop never changes anything but heap slots: caches, log, queue,
query counter and heap length are invariant, whether it succeeds or throws. -/
theorem patchQueue_fields :
    ∀ {pairs : List (QueueMember × ParsedType)} {st st' : EngineState}
      {r : Except EngineError Unit}, patchQueue st pairs = (st', r) →
      st'.resolveCache = st.resolveCache ∧ st'.canonCache = st.canonCache
      ∧ st'.detailLog = st.detailLog ∧ st'.internalQ = st.internalQ
      ∧ st'.queryCount = st.queryCount ∧ st'.heap.length = st.heap.length
  | [], st, st', r, h => by
    rw [patchQueue] at h
    have : st = st' := congrArg Prod.fst h
    subst this
    exact ⟨rfl, rfl, rfl, rfl, rfl, rfl⟩
  | (m, p) :: rest, st, st', r, h => by
    rw [patchQueue] at h
    cases hrc : lookupAssoc st.resolveCache p.plain with
    | none =>
      simp only [hrc] at h
      have : st = st' := congrArg Prod.fst h
      subst this
      exact ⟨rfl, rfl, rfl, rfl, rfl, rfl⟩
    | some info =>
      simp only [hrc] at h
      by_cases hk : info.kind = Kind.unknown
      · rw [if_pos hk] at h
        have : st = st' := congrArg Prod.fst h
        subst this
        exact ⟨rfl, rfl, rfl, rfl, rfl, rfl⟩
      · rw [if_neg hk] at h
        cases hcc : lookupAssoc st.canonCache info.canonical_name with
        | none =>
          simp only [hcc] at h
          have : st = st' := congrArg Prod.fst h
          subst this
          exact ⟨rfl, rfl, rfl, rfl, rfl, rfl⟩
        | some excl =>
          simp only [hcc] at h
          obtain ⟨h₁, h₂, h₃, h₄, h₅, h₆⟩ := patchQueue_fields h
          refine ⟨h₁, h₂, h₃, h₄, h₅, ?_⟩
          rw [h₆]
          simp

/-- Heap slots outside the filled queue are untouched by the fill loop. -/
theorem patchQueue_untouched :
    ∀ {pairs : List (QueueMember × ParsedType)} {st st' : EngineState}
      {r : Except EngineError Unit}, patchQueue st pairs = (st', r) →
      ∀ {i : Nat}, (∀ pr ∈ pairs, pr.1.out ≠ i) → st'.heap[i]? = st.heap[i]?
  | [], st, st', r, h, i, _ => by
    rw [patchQueue] at h
    have : st = st' := congrArg Prod.fst h
    subst this
    rfl
  | (m, p) :: rest, st, st', r, h, i, hout => by
    rw [patchQueue] at h
    cases hrc : lookupAssoc st.resolveCache p.plain with
    | none =>
      simp only [hrc] at h
      have : st = st' := congrArg Prod.fst h
      subst this
      rfl
    | some info =>
      simp only [hrc] at h
      by_cases hk : info.kind = Kind.unknown
      · rw [if_pos hk] at h
        have : st = st' := congrArg Prod.fst h
        subst this
        rfl
      · rw [if_neg hk] at h
        cases hcc : lookupAssoc st.canonCache info.canonical_name with
        | none =>
          simp only [hcc] at h
          have : st = st' := congrArg Prod.fst h
          subst this
          rfl
        | some excl =>
          simp only [hcc] at h
          have hrest := patchQueue_untouched h
            (i := i) (fun pr hpr => hout pr (List.mem_cons_of_mem _ hpr))
          rw [hrest]
          show (st.heap.set m.out _)[i]? = st.heap[i]?
          exact getElem?_set_ne _ _ _ _ (hout (m, p) (List.mem_cons_self ..))

/-- Any error of the fill loop is a missing-basic, unknown-at-fill or
missing-detail report. -/
theorem patchQueue_err_class :
    ∀ {pairs : List (QueueMember × ParsedType)} {st st' : EngineState}
      {e : EngineError}, patchQueue st pairs = (st', .error e) →
      (∃ p, e = .missingBasic p) ∨ (∃ s n, e = .unknownAtFill s n)
        ∨ (∃ n, e = .missingDetail n)
  | [], st, st', e, h => by
    rw [patchQueue] at h
    exact absurd (congrArg Prod.snd h) (by simp)
  | (m, p) :: rest, st, st', e, h => by
    rw [patchQueue] at h
    cases hrc : lookupAssoc st.resolveCache p.plain with
    | none =>
      simp only [hrc] at h
      have := congrArg Prod.snd h
      simp only at this
      obtain rfl := Except.error.inj this
      exact Or.inl ⟨_, rfl⟩
    | some info =>
      simp only [hrc] at h
      by_cases hk : info.kind = Kind.unknown
      · rw [if_pos hk] at h
        have := congrArg Prod.snd h
        simp only at this
        obtain rfl := Except.error.inj this
        exact Or.inr (Or.inl ⟨_, _, rfl⟩)
      · rw [if_neg hk] at h
        cases hcc : lookupAssoc st.canonCache info.canonical_name with
        | none =>
          simp only [hcc] at h
          have := congrArg Prod.snd h
          simp only at this
          obtain rfl := Except.error.inj this
          exact Or.inr (Or.inr ⟨_, rfl⟩)
        | some excl =>
          simp only [hcc] at h
          exact patchQueue_err_class h

/-- A successful fill loop writes, at every member's slot, exactly the merge
of the member's own parse with the cached basic info of its plain name and
the cached exclusive payload of its canonical name. -/
theorem patchQueue_fill :
    ∀ {pairs : List (QueueMember × ParsedType)} {st st' : EngineState},
      patchQueue st pairs = (st', .ok ()) →
      (∀ pr ∈ pairs, pr.1.out < st.heap.length) →
      ((pairs.map (fun pr => pr.1.out)).Nodup) →
      ∀ pr ∈ pairs, ∃ info excl,
        lookupAssoc st.resolveCache pr.2.plain = some info
        ∧ info.kind ≠ Kind.unknown
        ∧ lookupAssoc st.canonCache info.canonical_name = some excl
        ∧ st'.heap[pr.1.out]? = some (some (mergeResult info pr.2 excl))
  | [], st, st', h, _, _, pr, hpr => by simp at hpr
  | (m, p) :: rest, st, st', h, hval, hnod, pr, hpr => by
    rw [patchQueue] at h
    cases hrc : lookupAssoc st.resolveCache p.plain with
    | none =>
      simp only [hrc] at h
      exact absurd (congrArg Prod.snd h) (by simp)
    | some info =>
      simp only [hrc] at h
      by_cases hk : info.kind = Kind.unknown
      · rw [if_pos hk] at h
        exact absurd (congrArg Prod.snd h) (by simp)
      · rw [if_neg hk] at h
        cases hcc : lookupAssoc st.canonCache info.canonical_name with
        | none =>
          simp only [hcc] at h
          exact absurd (congrArg Prod.snd h) (by simp)
        | some excl =>
          simp only [hcc] at h
          rcases List.mem_cons.mp hpr with rfl | hpr'
          · refine ⟨info, excl, hrc, hk, hcc, ?_⟩
            have hrest : ∀ pr' ∈ rest, pr'.1.out ≠ m.out := by
              intro pr' hpr' hc
              have hnotin := (List.nodup_cons.mp hnod).1
              exact hnotin (List.mem_map.mpr ⟨pr', hpr', hc⟩)
            rw [patchQueue_untouched h hrest]
            show (st.heap.set m.out _)[m.out]? = _
            rw [getElem?_set_self _ _ _ (hval (m, p) (List.mem_cons_self ..))]
          · have hval' : ∀ pr' ∈ rest, pr'.1.out <
                ({ st with heap := st.heap.set m.out (some (mergeResult info p excl)) }
                  : EngineState).heap.length := by
              intro pr' hpr'
              show pr'.1.out < (st.heap.set m.out _).length
              rw [List.length_set]
              exact hval pr' (List.mem_cons_of_mem _ hpr')
            have hnod' := (List.nodup_cons.mp hnod).2
            exact patchQueue_fill h hval' hnod' pr hpr'

end TruePg

/-! ## Step-level helper lemmas -/

namespace TruePg

theorem lookupAssoc_zip_filterMap {α : Type} {f : String → Option α} :
    ∀ {l : List String}, (∀ p ∈ l, (f p).isSome) → ∀ {k : String}, k ∈ l →
      lookupAssoc (List.zip l (l.filterMap f)) k = f k
  | [], _, k, hk => by simp at hk
  | x :: xs, hall, k, hk => by
    obtain ⟨b, hb⟩ := Option.isSome_iff_exists.mp (hall x (List.mem_cons_self ..))
    simp only [List.filterMap_cons, hb]
    rw [List.zip_cons_cons, lookupAssoc_cons]
    by_cases hxk : x = k
    · subst hxk
      rw [if_pos rfl, hb]
    · rw [if_neg hxk]
      rcases List.mem_cons.mp hk with rfl | hk'
      · exact absurd rfl hxk
      · exact lookupAssoc_zip_filterMap (fun p hp => hall p (List.mem_cons_of_mem _ hp)) hk'

theorem newPlains_fresh {st : EngineState} {parsed : List ParsedType} {p : String}
    (h : p ∈ newPlains st parsed) : lookupAssoc st.resolveCache p = none := by
  rw [newPlains, mem_firstDedup] at h
  obtain ⟨q, hq, rfl⟩ := List.mem_map.mp h
  have := (List.mem_filter.mp hq).2
  simpa using this

theorem newPlains_mem_parsed {st : EngineState} {parsed : List ParsedType} {p : String}
    (h : p ∈ newPlains st parsed) : ∃ q ∈ parsed, q.plain = p := by
  rw [newPlains, mem_firstDedup] at h
  obtain ⟨q, hq, rfl⟩ := List.mem_map.mp h
  exact ⟨q, (List.mem_filter.mp hq).1, rfl⟩

theorem parsed_mem_newPlains {st : EngineState} {parsed : List ParsedType} {q : ParsedType}
    (hq : q ∈ parsed) (hfresh : lookupAssoc st.resolveCache q.plain = none) :
    q.plain ∈ newPlains st parsed := by
  rw [newPlains, mem_firstDedup]
  exact List.mem_map.mpr ⟨q, List.mem_filter.mpr ⟨hq, by simp [hfresh]⟩, rfl⟩

theorem canonical_mem_catalogNames {cat : Catalog} {p : String} {r : BasicInfo}
    (h : lookupAssoc cat.basic p = some r) : r.canonical_name ∈ catalogNames cat :=
  List.mem_dedup.mpr (List.mem_map.mpr ⟨(p, r), lookupAssoc_mem h, rfl⟩)

theorem resolved_mem_catalogNames {cat : Catalog} {plains : List String} {r : BasicInfo}
    (h : r ∈ plains.filterMap (lookupAssoc cat.basic)) :
    r.canonical_name ∈ catalogNames cat := by
  obtain ⟨p, hp, hf⟩ := List.mem_filterMap.mp h
  exact canonical_mem_catalogNames hf

theorem batchNames_mem_resolved {cc : List (String × Excl)} {S : List BasicInfo}
    {acc : BatchAcc} (hinv : BatchInv cc S acc) {n : String} (hn : n ∈ batchNames acc) :
    ∃ r ∈ S, r.canonical_name = n := by
  obtain ⟨-, -, he, hc, hd, hg, -⟩ := hinv
  simp only [batchNames, List.mem_append] at hn
  rcases hn with ((h | h) | h) | h
  · obtain ⟨r, hr, rfl⟩ := List.mem_map.mp h
    exact ⟨r, (he r hr).1, rfl⟩
  · obtain ⟨r, hr, rfl⟩ := List.mem_map.mp h
    exact ⟨r, (hc r hr).1, rfl⟩
  · obtain ⟨r, hr, rfl⟩ := List.mem_map.mp h
    exact ⟨r, (hd r hr).1, rfl⟩
  · obtain ⟨r, hr, rfl⟩ := List.mem_map.mp h
    exact ⟨r, (hg r hr).1, rfl⟩

theorem zip_map_fst_out {queue : List QueueMember} {parsed : List ParsedType}
    (hlen : queue.length ≤ parsed.length) :
    (List.zip queue parsed).map (fun pr => pr.1.out) = queue.map (fun m => m.out) := by
  have h := List.map_fst_zip queue parsed hlen
  calc (List.zip queue parsed).map (fun pr => pr.1.out)
      = ((List.zip queue parsed).map Prod.fst).map (fun m => m.out) := by
        rw [List.map_map]
        rfl
    _ = queue.map (fun m => m.out) := by rw [h]

end TruePg

namespace TruePg

/-- Full characterisation of one successful depth of `canonicaliseQueue`:
both caches only grow (with catalog-backed entries), the log gains exactly
this depth's batch of canonical names — pairwise distinct, previously
uncached, all cached afterwards — untouched heap slots are preserved, every
queue member's placeholder is filled with the merge of its own parse, its
plain name's catalog row and the cached payload of its canonical name, and
the follow-up queue points at fresh distinct slots and is non-empty only if
some catalog name was newly cached. -/
theorem canonicaliseStep_ok_spec {cat : Catalog} {st st' : EngineState}
    {queue : List QueueMember}
    (h : canonicaliseStep cat st queue = (st', .ok ()))
    (hsub : ResolveCacheSub cat st)
    (hval : ∀ m ∈ queue, m.out < st.heap.length)
    (hnod : (queue.map (fun m => m.out)).Nodup) :
    ∃ (rAdds : List (String × BasicInfo)) (cAdds : List (String × Excl))
      (logAdds : List String),
      st'.resolveCache = st.resolveCache ++ rAdds
      ∧ (∀ pr ∈ rAdds, lookupAssoc cat.basic pr.1 = some pr.2)
      ∧ st'.canonCache = st.canonCache ++ cAdds
      ∧ (∀ pr ∈ cAdds, pr.2.canonical_name = pr.1 ∧ pr.1 ∈ catalogNames cat)
      ∧ st'.detailLog = st.detailLog ++ logAdds
      ∧ logAdds.Nodup
      ∧ (∀ n ∈ logAdds, lookupAssoc st.canonCache n = none
          ∧ n ∈ catalogNames cat ∧ (lookupAssoc st'.canonCache n).isSome)
      ∧ st.heap.length ≤ st'.heap.length
      ∧ (∀ i, (∀ m ∈ queue, m.out ≠ i) → i < st.heap.length →
          st'.heap[i]? = st.heap[i]?)
      ∧ (∀ m ∈ queue, ∃ info excl,
          lookupAssoc cat.basic (parseRawType m.type).plain = some info
          ∧ info.kind ≠ Kind.unknown
          ∧ lookupAssoc st'.canonCache info.canonical_name = some excl
          ∧ st'.heap[m.out]? = some (some (mergeResult info (parseRawType m.type) excl)))
      ∧ (∀ m ∈ st'.internalQ, st.heap.length ≤ m.out ∧ m.out < st'.heap.length)
      ∧ (st'.internalQ.map (fun m => m.out)).Nodup
      ∧ (st'.internalQ ≠ [] → ∃ n, n ∈ catalogNames cat
          ∧ lookupAssoc st.canonCache n = none
          ∧ (lookupAssoc st'.canonCache n).isSome) := by
  rw [canonicaliseStep] at h
  cases hres : phaseResolve cat { st with internalQ := [] }
      (queue.map (fun q => parseRawType q.type)) with
  | mk st₁ out₁ =>
    cases out₁ with
    | error e =>
      simp only [hres] at h
      exact absurd (congrArg Prod.snd h) (by simp)
    | ok resolved =>
      simp only [hres] at h
      obtain ⟨hP_heap, hP_iq, hP_cc, hP_log, hP_qc, hP_rc, hP_res, hP_all, hP_nu⟩ :=
        phaseResolve_ok_spec hres
      have hP_heap' : st₁.heap = st.heap := hP_heap
      have hP_iq' : st₁.internalQ = ([] : List QueueMember) := hP_iq
      have hP_cc' : st₁.canonCache = st.canonCache := hP_cc
      have hP_log' : st₁.detailLog = st.detailLog := hP_log
      have hP_rc' : st₁.resolveCache = st.resolveCache ++
          List.zip (newPlains st (queue.map (fun q => parseRawType q.type))) resolved := hP_rc
      have hP_res' : resolved =
          (newPlains st (queue.map (fun q => parseRawType q.type))).filterMap
            (lookupAssoc cat.basic) := hP_res
      have hP_all' : ∀ p ∈ newPlains st (queue.map (fun q => parseRawType q.type)),
          (lookupAssoc cat.basic p).isSome := hP_all
      have hINV := phaseBatch_inv st₁ resolved
      rw [hP_cc'] at hINV
      have hB := phaseBatch_state st₁ resolved
      have hB_cc : (phaseBatch st₁ resolved).1.canonCache
          = st.canonCache ++ (phaseBatch st₁ resolved).2.cacheAdds := by
        rw [hB]
        show st₁.canonCache ++ _ = _
        rw [hP_cc']
      have hB_log : (phaseBatch st₁ resolved).1.detailLog
          = st.detailLog ++ batchNames (phaseBatch st₁ resolved).2 := by
        rw [hB]
        show st₁.detailLog ++ _ = _
        rw [hP_log']
      have hB_rc : (phaseBatch st₁ resolved).1.resolveCache = st₁.resolveCache := by
        rw [hB]
      have hB_heap : (phaseBatch st₁ resolved).1.heap = st.heap := by
        rw [hB]
        show st₁.heap = st.heap
        exact hP_heap'
      have hB_iq : (phaseBatch st₁ resolved).1.internalQ = [] := by
        rw [hB]
        show st₁.internalQ = []
        exact hP_iq'
      cases hdet : phaseDetails cat (phaseBatch st₁ resolved).1 (phaseBatch st₁ resolved).2 with
      | mk st₃ out₃ =>
        cases out₃ with
        | error e =>
          simp only [hdet] at h
          exact absurd (congrArg Prod.snd h) (by simp)
        | ok u =>
          cases u
          simp only [hdet] at h
          obtain ⟨dAdds, hD_rc, hD_log, hD_cc, hD_adds, ⟨ext, hD_heap, hD_next⟩,
            newq, hD_iq, hD_bound, hD_nodup, hD_ne⟩ := phaseDetails_ok_spec hdet
          obtain ⟨hPa_rc, hPa_cc, hPa_log, hPa_iq, hPa_qc, hPa_len⟩ := patchQueue_fields h
          have hst₃rc : st₃.resolveCache = st.resolveCache ++
              List.zip (newPlains st (queue.map (fun q => parseRawType q.type))) resolved := by
            rw [hD_rc, hB_rc, hP_rc']
          have hst₃cc : st₃.canonCache = st.canonCache ++
              ((phaseBatch st₁ resolved).2.cacheAdds ++ dAdds) := by
            rw [hD_cc, hB_cc, List.append_assoc]
          have hst₃log : st₃.detailLog = st.detailLog ++
              batchNames (phaseBatch st₁ resolved).2 := by
            rw [hD_log, hB_log]
          have hst₃heap : st₃.heap = st.heap ++ ext := by
            rw [hD_heap, hB_heap]
          have hst₃iq : st₃.internalQ = newq := by
            rw [hD_iq, hB_iq]
            rfl
          have hlen3 : st₃.heap.length = st.heap.length + ext.length := by
            rw [hst₃heap]
            simp
          have hval₃ : ∀ pr ∈ List.zip queue (queue.map (fun q => parseRawType q.type)),
              pr.1.out < st₃.heap.length := by
            intro pr hpr
            have := hval pr.1 (List.of_mem_zip hpr).1
            omega
          have hnod₃ : ((List.zip queue
              (queue.map (fun q => parseRawType q.type))).map
                (fun pr => pr.1.out)).Nodup := by
            rw [zip_map_fst_out (by simp)]
            exact hnod
          have hFill := patchQueue_fill h hval₃ hnod₃
          have hIN := hINV
          obtain ⟨hIN_nodup, hIN_fresh, -, -, -, -, hIN_adds⟩ := hIN
          refine ⟨List.zip (newPlains st (queue.map (fun q => parseRawType q.type))) resolved,
            (phaseBatch st₁ resolved).2.cacheAdds ++ dAdds,
            batchNames (phaseBatch st₁ resolved).2,
            ?_, ?_, ?_, ?_, ?_, hIN_nodup, ?_, ?_, ?_, ?_, ?_, ?_, ?_⟩
          · rw [hPa_rc, hst₃rc]
          · intro pr hpr
            rw [hP_res'] at hpr
            exact (filterMap_all_some_zip hP_all').2 pr hpr
          · rw [hPa_cc, hst₃cc]
          · intro pr hpr
            rcases List.mem_append.mp hpr with hl | hr
            · obtain ⟨hkey, r, hrS, hname⟩ := hIN_adds pr hl
              refine ⟨hkey, ?_⟩
              rw [hP_res'] at hrS
              rw [← hname]
              exact resolved_mem_catalogNames hrS
            · obtain ⟨hkey, hbn⟩ := hD_adds pr hr
              obtain ⟨r, hrS, hname⟩ := batchNames_mem_resolved hINV hbn
              refine ⟨hkey, ?_⟩
              rw [hP_res'] at hrS
              rw [← hname]
              exact resolved_mem_catalogNames hrS
          · rw [hPa_log, hst₃log]
          · intro n hn
            obtain ⟨hfreshn, -⟩ := hIN_fresh n hn
            obtain ⟨r, hrS, hname⟩ := batchNames_mem_resolved hINV hn
            have hrS' := hrS
            rw [hP_res'] at hrS'
            refine ⟨hfreshn, by rw [← hname]; exact resolved_mem_catalogNames hrS', ?_⟩
            obtain ⟨p, hpNP, hf⟩ := List.mem_filterMap.mp hrS'
            obtain ⟨q, hqparsed, hqp⟩ := newPlains_mem_parsed hpNP
            obtain ⟨m, hm, rfl⟩ := List.mem_map.mp hqparsed
            obtain ⟨info, excl, hinfo, hku, hexcl, hfill⟩ :=
              hFill (m, parseRawType m.type) (mem_zip_map _ hm)
            have hlook : lookupAssoc st₃.resolveCache p = some r := by
              rw [hst₃rc, lookupAssoc_append_none _ (newPlains_fresh hpNP),
                hP_res', lookupAssoc_zip_filterMap hP_all' hpNP]
              exact hf
            rw [hqp, hlook] at hinfo
            obtain rfl := Option.some.inj hinfo
            rw [hPa_cc, ← hname]
            rw [hexcl]
            simp
          · omega
          · intro i hi hilt
            have h₁ : st'.heap[i]? = st₃.heap[i]? :=
              patchQueue_untouched h (fun pr hpr => hi pr.1 (List.of_mem_zip hpr).1)
            rw [h₁, hst₃heap]
            exact getElem?_append_lt _ _ _ hilt
          · intro m hm
            obtain ⟨info, excl, hinfo, hku, hexcl, hfill⟩ :=
              hFill (m, parseRawType m.type) (mem_zip_map _ hm)
            refine ⟨info, excl, ?_, hku, ?_, hfill⟩
            · rw [hst₃rc] at hinfo
              cases hold : lookupAssoc st.resolveCache (parseRawType m.type).plain with
              | some info₀ =>
                rw [lookupAssoc_append_some _ hold] at hinfo
                have := hsub _ (lookupAssoc_mem hold)
                rw [this]
                exact hinfo
              | none =>
                rw [lookupAssoc_append_none _ hold] at hinfo
                have hpNP : (parseRawType m.type).plain ∈
                    newPlains st (queue.map (fun q => parseRawType q.type)) :=
                  parsed_mem_newPlains (List.mem_map.mpr ⟨m, hm, rfl⟩) hold
                rw [hP_res', lookupAssoc_zip_filterMap hP_all' hpNP] at hinfo
                exact hinfo
            · rw [hPa_cc]
              exact hexcl
          · intro m hm
            rw [hPa_iq, hst₃iq] at hm
            have := hD_bound m hm
            rw [hB_heap] at this
            omega
          · rw [hPa_iq, hst₃iq]
            exact hD_nodup
          · intro hne
            rw [hPa_iq, hst₃iq] at hne
            have hdne := hD_ne hne
            cases hd : dAdds with
            | nil => exact absurd hd hdne
            | cons pr prs =>
              have hprd : pr ∈ dAdds := by
                rw [hd]
                exact List.mem_cons_self ..
              obtain ⟨hkey, hbn⟩ := hD_adds pr hprd
              obtain ⟨hfreshn, -⟩ := hIN_fresh pr.1 hbn
              obtain ⟨r, hrS, hname⟩ := batchNames_mem_resolved hINV hbn
              have hrS' := hrS
              rw [hP_res'] at hrS'
              refine ⟨pr.1, by rw [← hname]; exact resolved_mem_catalogNames hrS',
                hfreshn, ?_⟩
              rw [hPa_cc]
              have hmem : pr ∈ st₃.canonCache := by
                rw [hst₃cc]
                exact List.mem_append_right _ (List.mem_append_right _ hprd)
              exact lookupAssoc_isSome_of_mem
                (show (pr.1, pr.2) ∈ st₃.canonCache from hmem)

end TruePg

namespace TruePg

theorem lookupAssoc_prefix_none {α : Type} {l₁ l₂ : List (String × α)} {k : String}
    (h : lookupAssoc (l₁ ++ l₂) k = none) : lookupAssoc l₁ k = none := by
  cases hl : lookupAssoc l₁ k with
  | none => rfl
  | some v =>
    rw [lookupAssoc_append_some _ hl] at h
    exact absurd h (by simp)

theorem lookupAssoc_append_isSome {α : Type} {l₁ : List (String × α)}
    (l₂ : List (String × α)) {k : String} (h : (lookupAssoc l₁ k).isSome) :
    (lookupAssoc (l₁ ++ l₂) k).isSome := by
  obtain ⟨v, hv⟩ := Option.isSome_iff_exists.mp h
  rw [lookupAssoc_append_some _ hv]
  simp

/-- A step that fails does so with one of the engine's eight error reports;
with terminating domain chains the diverging-CTE marker is excluded. -/
theorem canonicaliseStep_no_deep {cat : Catalog} {st st' : EngineState}
    {queue : List QueueMember} {e : EngineError} (hdomok : DomainChainsOk cat)
    (h : canonicaliseStep cat st queue = (st', .error e)) : e ≠ .chainTooDeep := by
  rw [canonicaliseStep] at h
  cases hres : phaseResolve cat { st with internalQ := [] }
      (queue.map (fun q => parseRawType q.type)) with
  | mk st₁ out₁ =>
    cases out₁ with
    | error e₁ =>
      simp only [hres] at h
      injection h with h₁ h₂
      obtain rfl := Except.error.inj h₂
      rcases phaseResolve_err_class hres with ⟨p, rfl⟩ | ⟨ns, rfl⟩ <;> simp
    | ok resolved =>
      simp only [hres] at h
      cases hdet : phaseDetails cat (phaseBatch st₁ resolved).1
          (phaseBatch st₁ resolved).2 with
      | mk st₃ out₃ =>
        cases out₃ with
        | error e₃ =>
          simp only [hdet] at h
          injection h with h₁ h₂
          obtain rfl := Except.error.inj h₂
          rcases phaseDetails_err_chains hdomok hdet with rfl | rfl <;> simp
        | ok u =>
          cases u
          simp only [hdet] at h
          rcases patchQueue_err_class h with ⟨p, rfl⟩ | ⟨s, n, rfl⟩ | ⟨n, rfl⟩ <;> simp

/-- A basic-resolution failure is the whole step's result. -/
theorem canonicaliseStep_resolve_err {cat : Catalog} {st st₁ : EngineState}
    {queue : List QueueMember} {e : EngineError}
    (hres : phaseResolve cat { st with internalQ := [] }
      (queue.map (fun q => parseRawType q.type)) = (st₁, .error e)) :
    canonicaliseStep cat st queue = (st₁, .error e) := by
  rw [canonicaliseStep]
  simp only [hres]

end TruePg

/-! ## Whole-session (fuel-indexed) lemmas -/

namespace TruePg

/-- Successful whole runs of `canonicaliseQueue`: the canon cache grows, the
log gains a duplicate-free list of previously-uncached catalog names all
cached by the end, untouched placeholders are preserved, and every queue
member's placeholder is filled with the merge of its own parse, its catalog
basic-info row and the finally-cached payload of its canonical name. -/
theorem canonicaliseQueue_ok_drive {cat : Catalog} :
    ∀ {fuel : Nat} {st st' : EngineState} {queue : List QueueMember},
      canonicaliseQueue cat fuel st queue = some (st', .ok ()) →
      ResolveCacheSub cat st →
      (∀ m ∈ queue, m.out < st.heap.length) →
      (queue.map (fun m => m.out)).Nodup →
      ∃ (cAdds : List (String × Excl)) (logAdds : List String),
        st'.canonCache = st.canonCache ++ cAdds
        ∧ st'.detailLog = st.detailLog ++ logAdds
        ∧ logAdds.Nodup
        ∧ (∀ n ∈ logAdds, lookupAssoc st.canonCache n = none
            ∧ n ∈ catalogNames cat ∧ (lookupAssoc st'.canonCache n).isSome)
        ∧ st.heap.length ≤ st'.heap.length
        ∧ (∀ i, (∀ m ∈ queue, m.out ≠ i) → i < st.heap.length →
            st'.heap[i]? = st.heap[i]?)
        ∧ (∀ m ∈ queue, ∃ info excl,
            lookupAssoc cat.basic (parseRawType m.type).plain = some info
            ∧ info.kind ≠ Kind.unknown
            ∧ lookupAssoc st'.canonCache info.canonical_name = some excl
            ∧ st'.heap[m.out]? = some (some (mergeResult info (parseRawType m.type) excl)))
  | 0, st, st', queue, h, _, _, _ => by
    rw [canonicaliseQueue] at h
    exact absurd h (by simp)
  | fuel + 1, st, st', queue, h, hsub, hval, hnod => by
    rw [canonicaliseQueue] at h
    by_cases hq : queue.isEmpty
    · rw [if_pos hq] at h
      obtain rfl : st = st' := congrArg Prod.fst (Option.some.inj h)
      obtain rfl := List.isEmpty_iff.mp hq
      refine ⟨[], [], by simp, by simp, by simp, by simp, le_refl _, ?_, ?_⟩
      · intro i _ _
        rfl
      · intro m hm
        simp at hm
    · rw [if_neg hq] at h
      cases hstep : canonicaliseStep cat st queue with
      | mk st₂ out₂ =>
        cases out₂ with
        | error e =>
          simp only [hstep] at h
          exact absurd (congrArg Prod.snd (Option.some.inj h)) (by simp)
        | ok u =>
          cases u
          simp only [hstep] at h
          obtain ⟨rAdds, cAdds₁, logAdds₁, hS_rc, hS_radds, hS_cc, hS_cadds, hS_log,
            hS_lognodup, hS_logprops, hS_hlen, hS_untouched, hS_fill,
            hS_q1, hS_q2, hS_q3⟩ :=
            canonicaliseStep_ok_spec hstep hsub hval hnod
          by_cases hiq : st₂.internalQ.isEmpty
          · rw [if_pos hiq] at h
            obtain rfl : st₂ = st' := congrArg Prod.fst (Option.some.inj h)
            exact ⟨cAdds₁, logAdds₁, hS_cc, hS_log, hS_lognodup, hS_logprops, hS_hlen,
              hS_untouched, hS_fill⟩
          · rw [if_neg hiq] at h
            have hsub₂ : ResolveCacheSub cat st₂ := by
              intro pr hpr
              rw [hS_rc] at hpr
              rcases List.mem_append.mp hpr with h₁ | h₁
              · exact hsub pr h₁
              · exact hS_radds pr h₁
            have hval₂ : ∀ m ∈ st₂.internalQ, m.out < st₂.heap.length :=
              fun m hm => (hS_q1 m hm).2
            obtain ⟨cAdds₂, logAdds₂, hR_cc, hR_log, hR_lognodup, hR_logprops,
              hR_hlen, hR_untouched, hR_fill⟩ :=
              canonicaliseQueue_ok_drive h hsub₂ hval₂ hS_q2
            refine ⟨cAdds₁ ++ cAdds₂, logAdds₁ ++ logAdds₂, ?_, ?_, ?_, ?_, ?_, ?_, ?_⟩
            · rw [hR_cc, hS_cc, List.append_assoc]
            · rw [hR_log, hS_log, List.append_assoc]
            · refine List.Nodup.append hS_lognodup hR_lognodup ?_
              intro n hn₁ hn₂
              have h₁ := (hS_logprops n hn₁).2.2
              have h₂ := (hR_logprops n hn₂).1
              rw [h₂] at h₁
              simp at h₁
            · intro n hn
              rcases List.mem_append.mp hn with h₁ | h₁
              · obtain ⟨ha, hb, hc⟩ := hS_logprops n h₁
                refine ⟨ha, hb, ?_⟩
                rw [hR_cc]
                exact lookupAssoc_append_isSome _ hc
              · obtain ⟨ha, hb, hc⟩ := hR_logprops n h₁
                refine ⟨?_, hb, hc⟩
                rw [hS_cc] at ha
                exact lookupAssoc_prefix_none ha
            · omega
            · intro i hi hilt
              have hnext : ∀ m ∈ st₂.internalQ, m.out ≠ i := by
                intro m hm hc
                have := (hS_q1 m hm).1
                omega
              rw [hR_untouched i hnext (by omega), hS_untouched i hi hilt]
            · intro m hm
              obtain ⟨info, excl, hinfo, hku, hexcl, hfill⟩ := hS_fill m hm
              have hmlt := hval m hm
              refine ⟨info, excl, hinfo, hku, ?_, ?_⟩
              · rw [hR_cc]
                exact lookupAssoc_append_some _ hexcl
              · have hnext : ∀ m' ∈ st₂.internalQ, m'.out ≠ m.out := by
                  intro m' hm' hc
                  have h₁ := (hS_q1 m' hm').1
                  omega
                rw [hR_untouched m.out hnext (by omega), hfill]

/-- With more fuel than uncached catalog names, the model session always
returns: each recursion depth caches at least one further catalog name. -/
theorem canonicaliseQueue_total {cat : Catalog} :
    ∀ {fuel : Nat} {st : EngineState} {queue : List QueueMember},
      ResolveCacheSub cat st →
      (∀ m ∈ queue, m.out < st.heap.length) →
      (queue.map (fun m => m.out)).Nodup →
      (uncachedNames cat st).length < fuel →
      canonicaliseQueue cat fuel st queue ≠ none
  | 0, st, queue, _, _, _, hfuel => absurd hfuel (by omega)
  | fuel + 1, st, queue, hsub, hval, hnod, hfuel => by
    rw [canonicaliseQueue]
    by_cases hq : queue.isEmpty
    · rw [if_pos hq]
      simp
    · rw [if_neg hq]
      cases hstep : canonicaliseStep cat st queue with
      | mk st₂ out₂ =>
        cases out₂ with
        | error e =>
          show (some (st₂, Except.error e) :
            Option (EngineState × Except EngineError Unit)) ≠ none
          simp
        | ok u =>
          cases u
          show (if st₂.internalQ.isEmpty then some (st₂, Except.ok ())
            else canonicaliseQueue cat fuel st₂ st₂.internalQ) ≠ none
          by_cases hiq : st₂.internalQ.isEmpty
          · rw [if_pos hiq]
            simp
          · rw [if_neg hiq]
            obtain ⟨rAdds, cAdds₁, logAdds₁, hS_rc, hS_radds, hS_cc, hS_cadds, hS_log,
              hS_lognodup, hS_logprops, hS_hlen, hS_untouched, hS_fill,
              hS_q1, hS_q2, hS_q3⟩ :=
              canonicaliseStep_ok_spec hstep hsub hval hnod
            have hsub₂ : ResolveCacheSub cat st₂ := by
              intro pr hpr
              rw [hS_rc] at hpr
              rcases List.mem_append.mp hpr with h₁ | h₁
              · exact hsub pr h₁
              · exact hS_radds pr h₁
            have hne : st₂.internalQ ≠ [] := fun hc => hiq (by rw [hc]; rfl)
            obtain ⟨n₀, hn₀cat, hn₀fresh, hn₀some⟩ := hS_q3 hne
            have hdec : (uncachedNames cat st₂).length < (uncachedNames cat st).length := by
              show ((catalogNames cat).filter
                  (fun n => (lookupAssoc st₂.canonCache n).isNone)).length <
                ((catalogNames cat).filter
                  (fun n => (lookupAssoc st.canonCache n).isNone)).length
              refine length_filter_lt ?_ hn₀cat ?_ ?_
              · intro y hy hqy
                have hnone : lookupAssoc st₂.canonCache y = none := by
                  simpa using hqy
                rw [hS_cc] at hnone
                have := lookupAssoc_prefix_none hnone
                simpa using this
              · simpa using hn₀fresh
              · obtain ⟨v, hv⟩ := Option.isSome_iff_exists.mp hn₀some
                simp [hv]
            exact canonicaliseQueue_total hsub₂ (fun m hm => (hS_q1 m hm).2) hS_q2
              (by omega)

/-- With terminating domain chains, no session result is the
diverging-recursive-CTE marker. -/
theorem canonicaliseQueue_no_deep {cat : Catalog} (hdomok : DomainChainsOk cat) :
    ∀ {fuel : Nat} {st st' : EngineState} {queue : List QueueMember} {e : EngineError},
      canonicaliseQueue cat fuel st queue = some (st', .error e) → e ≠ .chainTooDeep
  | 0, st, st', queue, e, h => by
    rw [canonicaliseQueue] at h
    exact absurd h (by simp)
  | fuel + 1, st, st', queue, e, h => by
    rw [canonicaliseQueue] at h
    by_cases hq : queue.isEmpty
    · rw [if_pos hq] at h
      exact absurd (congrArg Prod.snd (Option.some.inj h)) (by simp)
    · rw [if_neg hq] at h
      cases hstep : canonicaliseStep cat st queue with
      | mk st₂ out₂ =>
        cases out₂ with
        | error e₂ =>
          simp only [hstep] at h
          have h₂ := congrArg Prod.snd (Option.some.inj h)
          simp only at h₂
          obtain rfl := Except.error.inj h₂
          exact canonicaliseStep_no_deep hdomok hstep
        | ok u =>
          cases u
          simp only [hstep] at h
          by_cases hiq : st₂.internalQ.isEmpty
          · rw [if_pos hiq] at h
            exact absurd (congrArg Prod.snd (Option.some.inj h)) (by simp)
          · rw [if_neg hiq] at h
            exact canonicaliseQueue_no_deep hdomok h

end TruePg

/-! ## Adapter-level lemmas and claim theorems -/

namespace TruePg

theorem getElem?_append_singleton {α : Type} (l : List α) (x : α) :
    (l ++ [x])[l.length]? = some x := by
  simp

/-- Shape of a successful `DbAdapter.resolve` run. -/
theorem resolve_ok_elim {cat : Catalog} {a a' : DbAdapter}
    {out : List (Option FilledCanonical)}
    (hres : DbAdapter.resolve cat a = some (a', .ok out)) :
    ∃ st'', canonicaliseQueue cat (sessionFuel cat a.st) a.st a.pending
        = some (st'', .ok ())
      ∧ a' = { st := st'', pending := [] }
      ∧ out = a.pending.map (fun m => (st''.heap[m.out]?).bind id) := by
  rw [DbAdapter.resolve] at hres
  cases hcq : canonicaliseQueue cat (sessionFuel cat a.st) a.st a.pending with
  | none =>
    rw [hcq] at hres
    exact absurd hres (by simp)
  | some pr =>
    obtain ⟨st'', r'⟩ := pr
    rw [hcq] at hres
    cases r' with
    | error e =>
      have hres' : (some ({ st := st'', pending := a.pending }, Except.error e) :
          Option (DbAdapter × Except EngineError (List (Option FilledCanonical))))
          = some (a', .ok out) := hres
      have h₂ := congrArg Prod.snd (Option.some.inj hres')
      simp only at h₂
      exact absurd h₂ (by simp)
    | ok u =>
      cases u
      have hres' : (some ({ st := st'', pending := [] },
          Except.ok (a.pending.map (fun m => (st''.heap[m.out]?).bind id))) :
          Option (DbAdapter × Except EngineError (List (Option FilledCanonical))))
          = some (a', .ok out) := hres
      have hpr := Option.some.inj hres'
      refine ⟨st'', rfl, (congrArg Prod.fst hpr).symm, ?_⟩
      exact (Except.ok.inj (congrArg Prod.snd hpr)).symm

/-- C1: `enqueue` returns a fresh empty placeholder without issuing any
query; a `resolveAll` on an empty queue is an identity returning `[]`
without touching the state; and a successful `resolveAll` fills every
placeholder enqueued since the last call in place, returns exactly those
placeholders' contents, and clears the queue. -/
theorem c1_placeholder_contract (cat : Catalog) (a : DbAdapter) (type : String)
    (a' : DbAdapter) (out : List (Option FilledCanonical))
    (hwf : a.WF) (hsub : ResolveCacheSub cat a.st)
    (hres : DbAdapter.resolve cat a = some (a', .ok out)) :
    ((DbAdapter.enqueue a type).1.st.queryCount = a.st.queryCount
      ∧ (DbAdapter.enqueue a type).2 = a.st.heap.length
      ∧ (DbAdapter.enqueue a type).1.st.heap[(DbAdapter.enqueue a type).2]? = some none
      ∧ (DbAdapter.enqueue a type).1.pending
          = a.pending ++ [{ type := type, out := a.st.heap.length }])
    ∧ (a.pending = [] → DbAdapter.resolve cat a = some (⟨a.st, []⟩, .ok []))
    ∧ (∀ m ∈ a.pending, ∃ fc, a'.st.heap[m.out]? = some (some fc))
    ∧ out = a.pending.map (fun m => (a'.st.heap[m.out]?).bind id)
    ∧ a'.pending = [] := by
  obtain ⟨st'', hcq, rfl, rfl⟩ := resolve_ok_elim hres
  obtain ⟨cA, lA, h1, h2, h3, h4, h5, h6, hfills⟩ :=
    canonicaliseQueue_ok_drive hcq hsub hwf.1 hwf.2
  refine ⟨⟨rfl, rfl, getElem?_append_singleton _ _, rfl⟩, ?_, ?_, rfl, rfl⟩
  · intro hp
    rw [DbAdapter.resolve]
    have hq0 : canonicaliseQueue cat (sessionFuel cat a.st) a.st a.pending
        = some (a.st, .ok ()) := by
      rw [hp]
      show canonicaliseQueue cat ((uncachedNames cat a.st).length + 1) a.st [] = _
      rw [canonicaliseQueue]
      simp
    rw [hq0, hp]
    rfl
  · intro m hm
    obtain ⟨info, excl, _, _, _, hfill⟩ := hfills m hm
    exact ⟨_, hfill⟩

/-- C2: every placeholder filled by a successful `resolveAll` carries
`dimensions` equal to the explicit bracket count of its own request text
plus the catalog's internal array-unwrap count for its plain name. -/
theorem c2_dimensions_sum {cat : Catalog} {a a' : DbAdapter}
    {out : List (Option FilledCanonical)}
    (hwf : a.WF) (hsub : ResolveCacheSub cat a.st)
    (hres : DbAdapter.resolve cat a = some (a', .ok out)) :
    ∀ m ∈ a.pending, ∃ info fc,
      lookupAssoc cat.basic (parseRawType m.type).plain = some info
      ∧ a'.st.heap[m.out]? = some (some fc)
      ∧ fc.dimensions = (parseRawType m.type).dimensions + info.internal_dimensions := by
  obtain ⟨st'', hcq, rfl, rfl⟩ := resolve_ok_elim hres
  obtain ⟨cA, lA, h1, h2, h3, h4, h5, h6, hfills⟩ :=
    canonicaliseQueue_ok_drive hcq hsub hwf.1 hwf.2
  intro m hm
  obtain ⟨info, excl, hinfo, _, _, hfill⟩ := hfills m hm
  exact ⟨info, mergeResult info (parseRawType m.type) excl, hinfo, hfill, rfl⟩

/-- C9: with finite (terminating) domain chains, the session model always
returns (the fuel bound larger than the number of uncached catalog names is
never exhausted), and never with the diverging-recursive-CTE marker. -/
theorem c9_terminates (cat : Catalog) (a : DbAdapter)
    (hwf : a.WF) (hsub : ResolveCacheSub cat a.st) (hdomok : DomainChainsOk cat) :
    DbAdapter.resolve cat a ≠ none
    ∧ ∀ a' e, DbAdapter.resolve cat a = some (a', .error e) → e ≠ .chainTooDeep := by
  constructor
  · intro hc
    rw [DbAdapter.resolve] at hc
    cases hcq : canonicaliseQueue cat (sessionFuel cat a.st) a.st a.pending with
    | none =>
      exact canonicaliseQueue_total hsub hwf.1 hwf.2 (Nat.lt_succ_self _) hcq
    | some pr =>
      obtain ⟨st'', r'⟩ := pr
      rw [hcq] at hc
      cases r' with
      | error e =>
        have hc' : (some ({ st := st'', pending := a.pending }, Except.error e) :
            Option (DbAdapter × Except EngineError (List (Option FilledCanonical))))
            = none := hc
        exact absurd hc' (by simp)
      | ok u =>
        cases u
        have hc' : (some ({ st := st'', pending := [] },
            Except.ok (a.pending.map (fun m => (st''.heap[m.out]?).bind id))) :
            Option (DbAdapter × Except EngineError (List (Option FilledCanonical))))
            = none := hc
        exact absurd hc' (by simp)
  · intro a' e hres
    rw [DbAdapter.resolve] at hres
    cases hcq : canonicaliseQueue cat (sessionFuel cat a.st) a.st a.pending with
    | none =>
      rw [hcq] at hres
      exact absurd hres (by simp)
    | some pr =>
      obtain ⟨st'', r'⟩ := pr
      rw [hcq] at hres
      cases r' with
      | error e₂ =>
        have hres' : (some ({ st := st'', pending := a.pending }, Except.error e₂) :
            Option (DbAdapter × Except EngineError (List (Option FilledCanonical))))
            = some (a', .error e) := hres
        have h₂ := congrArg Prod.snd (Option.some.inj hres')
        simp only at h₂
        obtain rfl := Except.error.inj h₂
        exact canonicaliseQueue_no_deep hdomok hcq
      | ok u =>
        cases u
        have hres' : (some ({ st := st'', pending := [] },
            Except.ok (a.pending.map (fun m => (st''.heap[m.out]?).bind id))) :
            Option (DbAdapter × Except EngineError (List (Option FilledCanonical))))
            = some (a', .error e) := hres
        have h₂ := congrArg Prod.snd (Option.some.inj hres')
        exact absurd h₂ (by simp)

end TruePg

namespace TruePg

theorem c1_placeholder_contract_witness :
    DbAdapter.WF aC1 ∧ ResolveCacheSub catText aC1.st
    ∧ DbAdapter.resolve catText aC1 = some (c1res.1, .ok c1out)
    ∧ (∃ fc, c1res.1.st.heap[0]? = some (some fc)) := by
  have h := c1_placeholder_contract catText aC1 "text" c1res.1 c1out
    (by decide) (by decide) (by decide)
  refine ⟨by decide, by decide, by decide, ?_⟩
  obtain ⟨fc, hfc⟩ := h.2.2.1 ⟨"text[]", 0⟩ (by decide)
  exact ⟨fc, hfc⟩

theorem c2_dimensions_sum_witness :
    DbAdapter.WF aC2 ∧ ResolveCacheSub catText aC2.st
    ∧ DbAdapter.resolve catText aC2 = some (c2res.1, .ok c2out)
    ∧ (parseRawType "_text").dimensions = 0
    ∧ (∃ info fc,
        lookupAssoc catText.basic (parseRawType "_text").plain = some info
        ∧ c2res.1.st.heap[0]? = some (some fc)
        ∧ fc.dimensions = (parseRawType "_text").dimensions + info.internal_dimensions
        ∧ 0 < fc.dimensions) := by
  have h := @c2_dimensions_sum catText aC2 c2res.1 c2out
    (by decide) (by decide) (by decide)
  refine ⟨by decide, by decide, by decide, by decide, ?_⟩
  obtain ⟨info, fc, h1, h2, h3⟩ := h ⟨"_text", 0⟩ (by decide)
  refine ⟨info, fc, h1, h2, h3, ?_⟩
  have hinfo : info = arrTextInfo := by
    have hev : lookupAssoc catText.basic (parseRawType "_text").plain
        = some arrTextInfo := by decide
    rw [hev] at h1
    exact (Option.some.inj h1).symm
  rw [h3, hinfo]
  decide

theorem c9_terminates_witness :
    DbAdapter.WF aC9 ∧ ResolveCacheSub catPair aC9.st ∧ DomainChainsOk catPair
    ∧ DbAdapter.resolve catPair aC9 ≠ none :=
  ⟨by decide, by decide, by decide,
    (c9_terminates catPair aC9 (by decide) (by decide) (by decide)).1⟩

end TruePg

namespace TruePg

/-- C3: in a successful session started with an empty instrumentation log,
the canonical names sent to kind-detail resolution are pairwise distinct
(each name's detail is resolved at most once), were all uncached when the
session began and are all cached at its end; and any two requests whose
plain names resolve to rows with the same canonical name receive the same
kind and field-equal kind-detail payloads. -/
theorem c3_detail_once {cat : Catalog} {a a' : DbAdapter}
    {out : List (Option FilledCanonical)}
    (hwf : a.WF) (hsub : ResolveCacheSub cat a.st)
    (hlog : a.st.detailLog = [])
    (hres : DbAdapter.resolve cat a = some (a', .ok out)) :
    a'.st.detailLog.Nodup
    ∧ (∀ n ∈ a'.st.detailLog, lookupAssoc a.st.canonCache n = none
        ∧ (lookupAssoc a'.st.canonCache n).isSome)
    ∧ (∀ m₁ ∈ a.pending, ∀ m₂ ∈ a.pending, ∀ info₁ info₂ fc₁ fc₂,
        lookupAssoc cat.basic (parseRawType m₁.type).plain = some info₁ →
        lookupAssoc cat.basic (parseRawType m₂.type).plain = some info₂ →
        info₁.canonical_name = info₂.canonical_name →
        a'.st.heap[m₁.out]? = some (some fc₁) →
        a'.st.heap[m₂.out]? = some (some fc₂) →
        fc₁.kind = fc₂.kind ∧ fc₁.excl = fc₂.excl) := by
  obtain ⟨st'', hcq, rfl, rfl⟩ := resolve_ok_elim hres
  obtain ⟨cA, lA, h1, h2, h3, h4, h5, h6, hfills⟩ :=
    canonicaliseQueue_ok_drive hcq hsub hwf.1 hwf.2
  refine ⟨?_, ?_, ?_⟩
  · show st''.detailLog.Nodup
    rw [h2, hlog]
    simpa using h3
  · intro n hn
    replace hn : n ∈ lA := by
      have hn' : n ∈ st''.detailLog := hn
      rw [h2, hlog] at hn'
      simpa using hn'
    obtain ⟨ha, hb, hc⟩ := h4 n hn
    exact ⟨ha, hc⟩
  · intro m₁ hm₁ m₂ hm₂ info₁ info₂ fc₁ fc₂ hi₁ hi₂ heq hh₁ hh₂
    obtain ⟨info₁', excl₁, hinfo₁, hku₁, hexcl₁, hfill₁⟩ := hfills m₁ hm₁
    obtain ⟨info₂', excl₂, hinfo₂, hku₂, hexcl₂, hfill₂⟩ := hfills m₂ hm₂
    rw [hinfo₁] at hi₁
    obtain rfl := Option.some.inj hi₁
    rw [hinfo₂] at hi₂
    obtain rfl := Option.some.inj hi₂
    have hh₁' : st''.heap[m₁.out]? = some (some fc₁) := hh₁
    rw [hfill₁] at hh₁'
    obtain rfl := Option.some.inj (Option.some.inj hh₁')
    have hh₂' : st''.heap[m₂.out]? = some (some fc₂) := hh₂
    rw [hfill₂] at hh₂'
    obtain rfl := Option.some.inj (Option.some.inj hh₂')
    rw [heq] at hexcl₁
    rw [hexcl₂] at hexcl₁
    obtain rfl := Option.some.inj hexcl₁
    exact ⟨rfl, rfl⟩

/-- C4: an unresolvable requested plain name makes `resolveAll` fail with
`unresolvedBasic` naming a missing text, and an `unknown`-kind resolution
(in a fresh session) makes it fail with `unknownKind` naming the offending
canonical name; in both cases the queue is left in place and no placeholder
has been mutated. -/
theorem c4_resolution_failure_aborts (cat : Catalog) (a : DbAdapter)
    (hsub : ResolveCacheSub cat a.st) :
    (∀ m ∈ a.pending, lookupAssoc cat.basic (parseRawType m.type).plain = none →
      ∃ st' q, DbAdapter.resolve cat a
          = some ({ st := st', pending := a.pending }, .error (.unresolvedBasic q))
        ∧ lookupAssoc cat.basic q = none
        ∧ st'.heap = a.st.heap)
    ∧ (a.st.resolveCache = [] →
       (∀ m' ∈ a.pending, (lookupAssoc cat.basic (parseRawType m'.type).plain).isSome) →
       ∀ m ∈ a.pending, ∀ info,
         lookupAssoc cat.basic (parseRawType m.type).plain = some info →
         info.kind = Kind.unknown →
         ∃ st' ns, DbAdapter.resolve cat a
             = some ({ st := st', pending := a.pending }, .error (.unknownKind ns))
           ∧ info.canonical_name ∈ ns
           ∧ st'.heap = a.st.heap) := by
  constructor
  · intro m hm hnone
    have hne : ¬a.pending.isEmpty := by
      intro he
      rw [List.isEmpty_iff] at he
      rw [he] at hm
      simp at hm
    have hfresh : lookupAssoc ({ a.st with internalQ := [] } : EngineState).resolveCache
        (parseRawType m.type).plain = none := by
      show lookupAssoc a.st.resolveCache (parseRawType m.type).plain = none
      cases hl : lookupAssoc a.st.resolveCache (parseRawType m.type).plain with
      | none => rfl
      | some v =>
        have hcontr := hsub _ (lookupAssoc_mem hl)
        rw [hnone] at hcontr
        exact absurd hcontr (by simp)
    have hpNP : (parseRawType m.type).plain ∈
        newPlains { a.st with internalQ := [] }
          (a.pending.map (fun q => parseRawType q.type)) :=
      parsed_mem_newPlains (List.mem_map.mpr ⟨m, hm, rfl⟩) hfresh
    obtain ⟨st₁, q, hpr, hq₁, hq₂, hheap, hiq, hcc, hlog⟩ :=
      phaseResolve_missing_spec hpNP hnone
    have hstep := canonicaliseStep_resolve_err hpr
    refine ⟨st₁, q, ?_, hq₂, hheap⟩
    rw [DbAdapter.resolve]
    have hq0 : canonicaliseQueue cat (sessionFuel cat a.st) a.st a.pending
        = some (st₁, .error (.unresolvedBasic q)) := by
      show canonicaliseQueue cat ((uncachedNames cat a.st).length + 1) a.st a.pending = _
      rw [canonicaliseQueue, if_neg hne]
      simp only [hstep]
    rw [hq0]
  · intro hrc hall m hm info hinfo hk
    have hne : ¬a.pending.isEmpty := by
      intro he
      rw [List.isEmpty_iff] at he
      rw [he] at hm
      simp at hm
    have hfresh : lookupAssoc ({ a.st with internalQ := [] } : EngineState).resolveCache
        (parseRawType m.type).plain = none := by
      show lookupAssoc a.st.resolveCache (parseRawType m.type).plain = none
      rw [hrc]
      rfl
    have hpNP : (parseRawType m.type).plain ∈
        newPlains { a.st with internalQ := [] }
          (a.pending.map (fun q => parseRawType q.type)) :=
      parsed_mem_newPlains (List.mem_map.mpr ⟨m, hm, rfl⟩) hfresh
    have hallNP : ∀ p ∈ newPlains { a.st with internalQ := [] }
        (a.pending.map (fun q => parseRawType q.type)),
        (lookupAssoc cat.basic p).isSome := by
      intro p hp
      obtain ⟨qq, hqq, rfl⟩ := newPlains_mem_parsed hp
      obtain ⟨m', hm', rfl⟩ := List.mem_map.mp hqq
      exact hall m' hm'
    obtain ⟨st₁, ns, hpr, hmem, hnsprops, hheap, hiq, hcc, hlog⟩ :=
      phaseResolve_unknown_spec hallNP hpNP hinfo hk
    have hstep := canonicaliseStep_resolve_err hpr
    refine ⟨st₁, ns, ?_, hmem, hheap⟩
    rw [DbAdapter.resolve]
    have hq0 : canonicaliseQueue cat (sessionFuel cat a.st) a.st a.pending
        = some (st₁, .error (.unknownKind ns)) := by
      show canonicaliseQueue cat ((uncachedNames cat a.st).length + 1) a.st a.pending = _
      rw [canonicaliseQueue, if_neg hne]
      simp only [hstep]
    rw [hq0]

/-- C10 (amended): two requests whose texts parse to the same plain base
name share the one cached basic-info row and the one cached kind-detail
payload for its canonical name, while each filled placeholder keeps its own
`original_type`, `modifiers` and `dimensions` derived from its own request
text. -/
theorem c10_shared_cache_own_fields {cat : Catalog} {a a' : DbAdapter}
    {out : List (Option FilledCanonical)}
    (hwf : a.WF) (hsub : ResolveCacheSub cat a.st)
    (hres : DbAdapter.resolve cat a = some (a', .ok out)) :
    ∀ m₁ ∈ a.pending, ∀ m₂ ∈ a.pending,
      (parseRawType m₁.type).plain = (parseRawType m₂.type).plain →
      ∀ fc₁ fc₂, a'.st.heap[m₁.out]? = some (some fc₁) →
        a'.st.heap[m₂.out]? = some (some fc₂) →
        ∃ info, lookupAssoc cat.basic (parseRawType m₁.type).plain = some info
          ∧ fc₁.oid = info.oid ∧ fc₂.oid = info.oid
          ∧ fc₁.canonical_name = fc₂.canonical_name ∧ fc₁.kind = fc₂.kind
          ∧ fc₁.excl = fc₂.excl
          ∧ fc₁.original_type = m₁.type ∧ fc₂.original_type = m₂.type
          ∧ fc₁.modifiers = (parseRawType m₁.type).modifiers
          ∧ fc₂.modifiers = (parseRawType m₂.type).modifiers
          ∧ fc₁.dimensions = (parseRawType m₁.type).dimensions + info.internal_dimensions
          ∧ fc₂.dimensions = (parseRawType m₂.type).dimensions
              + info.internal_dimensions := by
  obtain ⟨st'', hcq, rfl, rfl⟩ := resolve_ok_elim hres
  obtain ⟨cA, lA, h1, h2, h3, h4, h5, h6, hfills⟩ :=
    canonicaliseQueue_ok_drive hcq hsub hwf.1 hwf.2
  intro m₁ hm₁ m₂ hm₂ hpl fc₁ fc₂ hh₁ hh₂
  obtain ⟨info₁, excl₁, hinfo₁, hku₁, hexcl₁, hfill₁⟩ := hfills m₁ hm₁
  obtain ⟨info₂, excl₂, hinfo₂, hku₂, hexcl₂, hfill₂⟩ := hfills m₂ hm₂
  rw [← hpl] at hinfo₂
  rw [hinfo₁] at hinfo₂
  obtain rfl := Option.some.inj hinfo₂
  rw [hexcl₁] at hexcl₂
  obtain rfl := Option.some.inj hexcl₂
  have hh₁' : st''.heap[m₁.out]? = some (some fc₁) := hh₁
  rw [hfill₁] at hh₁'
  obtain rfl := Option.some.inj (Option.some.inj hh₁')
  have hh₂' : st''.heap[m₂.out]? = some (some fc₂) := hh₂
  rw [hfill₂] at hh₂'
  obtain rfl := Option.some.inj (Option.some.inj hh₂')
  exact ⟨info₁, hinfo₁, rfl, rfl, rfl, rfl, rfl, rfl, rfl, rfl, rfl, rfl, rfl⟩

end TruePg

namespace TruePg

theorem c3_detail_once_witness :
    DbAdapter.WF aC3 ∧ ResolveCacheSub catMood aC3.st ∧ aC3.st.detailLog = []
    ∧ DbAdapter.resolve catMood aC3 = some (c3res.1, .ok c3out)
    ∧ c3res.1.st.detailLog = ["public.mood"]
    ∧ c3res.1.st.heap[0]? = some (some c3fc0)
    ∧ c3res.1.st.heap[1]? = some (some c3fc1)
    ∧ c3fc0.kind = c3fc1.kind ∧ c3fc0.excl = c3fc1.excl := by
  have h := @c3_detail_once catMood aC3 c3res.1 c3out
    (by decide) (by decide) (by decide) (by decide)
  refine ⟨by decide, by decide, by decide, by decide, by decide, by decide, by decide, ?_⟩
  exact h.2.2 ⟨"mood", 0⟩ (by decide) ⟨"public.mood", 1⟩ (by decide)
    moodInfo moodInfo c3fc0 c3fc1 (by decide) (by decide) rfl (by decide) (by decide)

theorem c4_resolution_failure_aborts_witness :
    ResolveCacheSub catText aC4.st
    ∧ lookupAssoc catText.basic (parseRawType "public.does_not_exist").plain = none
    ∧ (∃ st' q, DbAdapter.resolve catText aC4
        = some ({ st := st', pending := aC4.pending }, .error (.unresolvedBasic q))
        ∧ lookupAssoc catText.basic q = none ∧ st'.heap = aC4.st.heap)
    ∧ (∃ st' ns, DbAdapter.resolve catUnknown aC4u
        = some ({ st := st', pending := aC4u.pending }, .error (.unknownKind ns))
        ∧ unknownInfo.canonical_name ∈ ns ∧ st'.heap = aC4u.st.heap) := by
  refine ⟨by decide, by decide, ?_, ?_⟩
  · exact (c4_resolution_failure_aborts catText aC4 (by decide)).1
      ⟨"public.does_not_exist", 0⟩ (by decide) (by decide)
  · exact (c4_resolution_failure_aborts catUnknown aC4u (by decide)).2
      (by decide) (by decide) ⟨"public.weird", 0⟩ (by decide) unknownInfo
      (by decide) (by decide)

theorem c10_shared_cache_own_fields_witness :
    DbAdapter.WF aC10 ∧ ResolveCacheSub catVarchar aC10.st
    ∧ DbAdapter.resolve catVarchar aC10 = some (c10res.1, .ok c10out)
    ∧ (parseRawType "varchar(10)").plain = (parseRawType "varchar(20)").plain
    ∧ c10res.1.st.heap[0]? = some (some c10fc0)
    ∧ c10res.1.st.heap[1]? = some (some c10fc1)
    ∧ (∃ info, lookupAssoc catVarchar.basic (parseRawType "varchar(10)").plain = some info
        ∧ c10fc0.canonical_name = c10fc1.canonical_name
        ∧ c10fc0.excl = c10fc1.excl
        ∧ c10fc0.modifiers = some "10" ∧ c10fc1.modifiers = some "20"
        ∧ c10fc0.original_type = "varchar(10)"
        ∧ c10fc1.original_type = "varchar(20)") := by
  have h := @c10_shared_cache_own_fields catVarchar aC10 c10res.1 c10out
    (by decide) (by decide) (by decide)
  refine ⟨by decide, by decide, by decide, by decide, by decide, by decide, ?_⟩
  obtain ⟨info, h1, h2, h3, h4, h5, h6, h7, h8, h9, h10, h11, h12⟩ :=
    h ⟨"varchar(10)", 0⟩ (by decide) ⟨"varchar(20)", 1⟩ (by decide) (by decide)
      c10fc0 c10fc1 (by decide) (by decide)
  exact ⟨info, h1, h4, h6, by decide, by decide, by decide, by decide⟩

end TruePg
